import Mathlib

/-!
Chrono: a task-scheduling daemon (`src/main.c`, `src/logger.c`)

A shallow embedding of the server side of Chrono and of its logger.

Conventions of the embedding.

* A C string is the list of its characters up to (not including) the
  terminating NUL.
* `long` and `int` values are integers; arithmetic that the C code performs on
  `long` is reduced with `wrap_long` (two's complement, 64 bit), casts to `int`
  with `wrap_int`.
* A pointer is an `Option Nat`: `none` is `NULL`, `some a` is the address `a`.
* Code that can dereference `NULL`, write outside an allocation, or loop for
  ever returns a `result`, which is a value or a `fault`; loops over the heap
  take an explicit fuel.
-/

namespace Chrono

/-! ## Faults -/

/-- The ways in which the embedded C code can leave defined behaviour. -/
inductive fault where
  /-- a `NULL` pointer is dereferenced (or passed to `strcmp`, `strlen`, `strtol`) -/
  | null_deref
  /-- an array of `size` slots is indexed at `index` -/
  | out_of_bounds (index : Int) (size : Nat)
  /-- an address that is not allocated is dereferenced -/
  | invalid_pointer
  /-- a loop did not finish within the fuel it was given -/
  | out_of_fuel
  deriving DecidableEq, Repr

/-- The result of running a piece of embedded C code. -/
inductive result (α : Type) where
  | ok (a : α)
  | fail (f : fault)
  deriving DecidableEq, Repr

/-! ## Machine integers -/

/-- Reduction of an integer to the range of a signed 64 bit `long`. -/
def wrap_long (x : Int) : Int := (x + 2 ^ 63) % 2 ^ 64 - 2 ^ 63

/-- Reduction of an integer to the range of a signed 32 bit `int`. -/
def wrap_int (x : Int) : Int := (x + 2 ^ 31) % 2 ^ 32 - 2 ^ 31

/-- The constant `LONG_MAX`. -/
def LONG_MAX : Int := 2 ^ 63 - 1

/-- The constant `LONG_MIN`. -/
def LONG_MIN : Int := -(2 ^ 63)

/-! ## The logger (`src/logger.c`) -/

/-- The kind-name table `logs` (`logger.c:21`). -/
def logs : List (List Char) := ["ERROR".toList, "WARN".toList, "INFO".toList]

/-- The process-wide state of the logger: the flag `initialized`, the level
`current_level`, and the content of the log file as the list of the records
written so far. -/
structure logger_t where
  initialized : Int
  current_level : Int
  file : List (List Char)
  deriving DecidableEq, Repr

/-- Read of `logs[i]` for a C `int` index `i`. -/
def logs_at (i : Int) : result (List Char) :=
  if 0 ≤ i ∧ i < 3 then
    match logs.get? i.toNat with
    | some s => .ok s
    | none => .fail (.out_of_bounds i 3)
  else .fail (.out_of_bounds i 3)

/-- Embedding of `logger_log` (`logger.c:188-216`). `log_time` is the text that
`strftime` produced and `text` the text that `vfprintf` writes for the format
and its arguments; `vfprintf` returns the number of characters of `text`.
The result is the returned `int` and the logger state afterwards. -/
def logger_log (lg : logger_t) (level : Int) (log_time text : List Char) :
    result (Int × logger_t) :=
  if lg.initialized = 0 then .ok (-1, lg)
  else if level < 0 ∨ level > 3 then .ok (2, lg)
  else if lg.current_level = 0 then .ok (-3, lg)
  else if lg.current_level ≥ level then
    match logs_at (level - 1) with
    | .fail f => .fail f
    | .ok kind =>
      let record := "(".toList ++ kind ++ ") (".toList ++ log_time ++ ") ".toList ++ text
      .ok ((text.length : Int), { lg with file := lg.file ++ [record ++ ['\n']] })
  else .ok (0, lg)

/-! ## C strings: `strtok`, `strtol` -/

/-- Embedding of `strtok(str, delim)`. `str` is the first argument (`none` for
`NULL`), `save` is the text at the saved position of the previous call. The
result is the returned token (`none` for `NULL`) and the text at the new saved
position. Leading delimiters are skipped; the token runs up to the next
delimiter, which is overwritten by NUL and stepped over. -/
def strtok (str : Option (List Char)) (delim : List Char) (save : List Char) :
    Option (List Char) × List Char :=
  let s := match str with
    | some s => s
    | none => save
  let s := s.dropWhile (fun c => decide (c ∈ delim))
  if s = [] then (none, [])
  else (some (s.takeWhile (fun c => !decide (c ∈ delim))),
        (s.dropWhile (fun c => !decide (c ∈ delim))).drop 1)

/-- The C function `isspace` in the "C" locale. -/
def isspace (c : Char) : Bool :=
  c = ' ' || c = '\t' || c = '\n' || c = '\x0b' || c = '\x0c' || c = '\r'

/-- The C function `isdigit`. -/
def isdigit (c : Char) : Bool := decide ('0' ≤ c) && decide (c ≤ '9')

/-- Value of the longest prefix of decimal digits of `s`, continuing from the
value `acc` read so far. -/
def digits_value : Nat → List Char → Nat
  | acc, [] => acc
  | acc, c :: s => if isdigit c then digits_value (acc * 10 + (c.toNat - '0'.toNat)) s else acc

/-- Embedding of `strtol(s, NULL, 10)`: white space is skipped, an optional sign
is read, then the longest run of decimal digits; no digits give 0; a value
outside the range of `long` gives `LONG_MAX` or `LONG_MIN`. -/
def strtol (s : List Char) : Int :=
  let s := s.dropWhile isspace
  if s.head? = some '-' then max LONG_MIN (-(digits_value 0 s.tail : Int))
  else if s.head? = some '+' then min LONG_MAX (digits_value 0 s.tail : Int)
  else min LONG_MAX (digits_value 0 s : Int)

/-- Sequencing of code that can fault. -/
def result.bind {α β : Type} (x : result α) (f : α → result β) : result β :=
  match x with
  | .ok a => f a
  | .fail e => .fail e

instance : Monad result where
  pure := result.ok
  bind := result.bind

/-- `strtol(temp, NULL, 10)` for a token `temp` that may be `NULL`. -/
def strtol_tok (temp : Option (List Char)) : result Int :=
  match temp with
  | some s => .ok (strtol s)
  | none => .fail .null_deref

/-- `strcmp(temp, lit) == 0` for a token `temp` that may be `NULL`. -/
def strcmp_tok (temp : Option (List Char)) (lit : List Char) : result Bool :=
  match temp with
  | some s => .ok (decide (s = lit))
  | none => .fail .null_deref

/-! ## Parsing of requests (`src/main.c`) -/

/-- The fields of `struct tm` that `get_task_time` sets before `mktime`. -/
structure tm_t where
  tm_mday : Int
  tm_mon : Int
  tm_year : Int
  tm_hour : Int
  tm_min : Int
  tm_sec : Int
  deriving DecidableEq, Repr

/-- The block of five `strtok`/`strtol` pairs that adds `Y-D-H-M-S` to `*acc`
(`main.c:254-263` for `*task_execution_time`, `main.c:291-300` for
`*interval_time`), with the text at the saved position threaded through. -/
def add_span (acc : Int) (save : List Char) : result (Int × List Char) := do
  let (temp, save) := strtok none "-".toList save
  let v ← strtol_tok temp
  let acc := wrap_long (acc + wrap_long (wrap_long (wrap_long (wrap_long (v * 365) * 24) * 60) * 60))
  let (temp, save) := strtok none "-".toList save
  let v ← strtol_tok temp
  let acc := wrap_long (acc + wrap_long (wrap_long (wrap_long (v * 24) * 60) * 60))
  let (temp, save) := strtok none "-".toList save
  let v ← strtol_tok temp
  let acc := wrap_long (acc + wrap_long (wrap_long (v * 60) * 60))
  let (temp, save) := strtok none "-".toList save
  let v ← strtol_tok temp
  let acc := wrap_long (acc + wrap_long (v * 60))
  let (temp, save) := strtok none " ".toList save
  let v ← strtol_tok temp
  let acc := wrap_long (acc + v)
  pure (acc, save)

/-- The block `main.c:271-282` that fills `struct tm at` from
`DD.MM.YYYY-HH:MM:SS`. -/
def read_tm (save : List Char) : result (tm_t × List Char) := do
  let (temp, save) := strtok none ".".toList save
  let mday ← strtol_tok temp
  let (temp, save) := strtok none ".".toList save
  let mon ← strtol_tok temp
  let (temp, save) := strtok none "-".toList save
  let year ← strtol_tok temp
  let (temp, save) := strtok none ":".toList save
  let hour ← strtol_tok temp
  let (temp, save) := strtok none ":".toList save
  let min ← strtol_tok temp
  let (temp, save) := strtok none " ".toList save
  let sec ← strtol_tok temp
  pure ({ tm_mday := wrap_int mday, tm_mon := wrap_int (wrap_int mon - 1),
          tm_year := wrap_int (wrap_int year - 1900), tm_hour := wrap_int hour,
          tm_min := wrap_int min, tm_sec := wrap_int sec }, save)

/-- What `get_task_time` hands back: the returned `is_absolute` and the two
out-parameters. -/
structure task_time_t where
  is_absolute : Int
  task_execution_time : Int
  interval_time : Int
  deriving DecidableEq, Repr

/-- Embedding of `get_task_time` (`main.c:247-305`). `mktime` is the C library
function, for the time zone of the server and for whatever the fields of
`struct tm at` that the code does not set happen to hold. -/
def get_task_time (mktime : tm_t → Int) (timer_spec : List Char) : result task_time_t := do
  let task_execution_time : Int := 0
  let interval_time : Int := 0
  let (temp, save) := strtok (some timer_spec) " ".toList []
  let is_r ← strcmp_tok temp "-r".toList
  let (is_absolute, task_execution_time, save) ←
    (if is_r then do
      let (t, save) ← add_span task_execution_time save
      pure ((0 : Int), t, save)
    else do
      let is_a ← strcmp_tok temp "-a".toList
      if is_a then do
        let (tm, save) ← read_tm save
        pure ((1 : Int), mktime tm, save)
      else pure ((0 : Int), task_execution_time, save) : result (Int × Int × List Char))
  let (temp, save) := strtok none " ".toList save
  match temp with
  | none => pure ⟨is_absolute, task_execution_time, interval_time⟩
  | some s =>
    if s = "-i".toList then do
      let (i, _) ← add_span interval_time save
      pure ⟨is_absolute, task_execution_time, i⟩
    else pure ⟨is_absolute, task_execution_time, interval_time⟩

/-- Embedding of the loop `main.c:237-243` of `get_argv_for_task` and of the
final `NULL` store of line 244. `argc` is the number of slots allocated for
`argv`, `argv` the elements stored so far, `counter` the next index, `temp` the
current token and `save` the saved position of `strtok`. -/
def argv_loop : Nat → Nat → List (List Char) → Nat → Option (List Char) → List Char →
    result (List (List Char))
  | _, argc, argv, counter, none, _ =>
    if counter < argc then .ok argv else .fail (.out_of_bounds counter argc)
  | 0, _, _, _, some _, _ => .fail .out_of_fuel
  | fuel + 1, argc, argv, counter, some t, save =>
    if counter < argc then
      argv_loop fuel argc (argv ++ [t]) (counter + 1)
        (strtok none " ".toList save).1 (strtok none " ".toList save).2
    else .fail (.out_of_bounds counter argc)

/-- Embedding of `get_argv_for_task` (`main.c:223-245`): the `argv` stored in
the task, without its terminating `NULL`. The array has `argc` slots, one more
than the number of spaces of the payload. -/
def get_argv_for_task (task : List Char) : result (List (List Char)) :=
  let argc := 1 + task.count ' '
  match strtok (some task) " ".toList [] with
  | (none, _) => .fail .null_deref
  | (some temp, save) =>
    argv_loop task.length argc [temp] 1 (strtok none " ".toList save).1
      (strtok none " ".toList save).2

/-- The payload that `send_task_list` builds for a task (`main.c:209-213`):
each element of `argv` followed by one space. -/
def response_task (argv : List (List Char)) : List Char :=
  argv.foldl (fun task a => task ++ a ++ " ".toList) []

/-! ## Time specs -/

/-- A decimal number as it stands in a time spec: a non-empty run of digits. -/
def is_number (s : List Char) : Prop := s ≠ [] ∧ ∀ c ∈ s, isdigit c = true

instance (s : List Char) : Decidable (is_number s) := by
  unfold is_number; infer_instance

/-- The text `Y-D-H-M-S`. -/
def span_text (y d h m s : List Char) : List Char :=
  y ++ '-' :: (d ++ '-' :: (h ++ '-' :: (m ++ '-' :: s)))

/-- The number of seconds of `Y` years of 365 days, `D` days, `H` hours, `M`
minutes and `S` seconds. -/
def span_seconds (Y D H M S : Int) : Int :=
  Y * 365 * 24 * 3600 + D * 24 * 3600 + H * 3600 + M * 60 + S

/-- The `long` arithmetic of the block `add_span` on the five values that
`strtol` returned, starting from `acc`. -/
def span_long (acc vy vd vh vm vs : Int) : Int :=
  let acc := wrap_long (acc + wrap_long (wrap_long (wrap_long (wrap_long (vy * 365) * 24) * 60) * 60))
  let acc := wrap_long (acc + wrap_long (wrap_long (wrap_long (vd * 24) * 60) * 60))
  let acc := wrap_long (acc + wrap_long (wrap_long (vh * 60) * 60))
  let acc := wrap_long (acc + wrap_long (vm * 60))
  wrap_long (acc + vs)

/-- The text `DD.MM.YYYY-HH:MM:SS`. -/
def abs_text (dd mm yyyy hh mi ss : List Char) : List Char :=
  dd ++ '.' :: (mm ++ '.' :: (yyyy ++ '-' :: (hh ++ ':' :: (mi ++ ':' :: ss))))

/-- The time specs of the grammar without interval: `-r Y-D-H-M-S` and
`-a DD.MM.YYYY-HH:MM:SS`, each field a decimal number. -/
inductive well_formed_time : List Char → Prop where
  | relative (y d h m s : List Char) (hy : is_number y) (hd : is_number d) (hh : is_number h)
      (hm : is_number m) (hs : is_number s) :
      well_formed_time ("-r ".toList ++ span_text y d h m s)
  | absolute (dd mm yyyy hh mi ss : List Char) (hdd : is_number dd) (hmm : is_number mm)
      (hyyyy : is_number yyyy) (hhh : is_number hh) (hmi : is_number mi) (hss : is_number ss) :
      well_formed_time ("-a ".toList ++ abs_text dd mm yyyy hh mi ss)

/-- The payload of an ADD request for the command `tokens`: each token followed
by one space. -/
def add_payload : List (List Char) → List Char
  | [] => []
  | t :: ts => t ++ ' ' :: add_payload ts

/-! ## The task store (`src/main.c`)

A node holds its task inline: the model identifies the pointer to a task with
the address of the node that owns it (every task is allocated for exactly one
node, and freed with it by `free_node`). `malloc` and `calloc` are assumed to
succeed; they hand out the addresses `brk`, `brk + 1`, ... in turn. -/

/-- The C type `struct task_t`. -/
structure task_t where
  task_id : Int
  timer_id : Nat
  time_spec : List Char
  argv : List (List Char)
  is_cyclic : Int
  is_done : Int
  deriving DecidableEq, Repr

/-- The C type `struct node_t`; `next` is `none` for `NULL`. -/
structure node_t where
  timer_task : task_t
  next : Option Nat
  deriving DecidableEq, Repr

/-- The C type `struct linked_list_t`. -/
structure linked_list_t where
  head : Option Nat
  tail : Option Nat
  deriving DecidableEq, Repr

/-- The C type `enum command_t`. -/
inductive command_t where
  | ADD
  | CANCEL
  | DISPLAY
  | STOP
  deriving DecidableEq, Repr

/-- The C type `struct query_t`. -/
structure query_t where
  command : command_t
  timer_spec : List Char
  task : List Char
  deriving DecidableEq, Repr

/-- The C type `struct response_t`. -/
structure response_t where
  task_id : Int
  time_spec : List Char
  task : List Char
  deriving DecidableEq, Repr

/-- A POSIX timer as the kernel holds it: the value handed to the notification
function (`sigev_value.sival_ptr`, a pointer to a task) and the last setting
made by `timer_settime` (`flags` is 1 for `TIMER_ABSTIME`; seconds only, the
nanoseconds are always 0). A fresh timer is disarmed: all zero. -/
structure ktimer_t where
  sival_ptr : Nat
  flags : Int
  it_value : Int
  it_interval : Int
  deriving DecidableEq, Repr

/-- The state of the server process: the heap of list nodes, the allocator, the
list `*ll`, the counter `sequence`, the timers of the process, the commands
spawned so far, the responses sent so far and the flag `is_stopped`. -/
structure server_t where
  heap : Nat → Option node_t
  brk : Nat
  ll : linked_list_t
  sequence : Int
  timers : Nat → Option ktimer_t
  next_timer : Nat
  spawned : List (List (List Char))
  sent : List response_t
  is_stopped : Int

/-- The server after `ll_create` and the initialisation of `sequence`
(`main.c:93-100`). -/
def server_init : server_t :=
  { heap := fun _ => none, brk := 0, ll := ⟨none, none⟩, sequence := 1,
    timers := fun _ => none, next_timer := 0, spawned := [], sent := [], is_stopped := 0 }

/-- Embedding of `ll_push_back` (`main.c:398-422`): the returned `int` and the
state afterwards. -/
def ll_push_back (σ : server_t) (new_task : task_t) : result (Int × server_t) :=
  if (σ.ll.head = none ∧ σ.ll.tail ≠ none) ∨ (σ.ll.head ≠ none ∧ σ.ll.tail = none) then
    .ok (1, σ)
  else
    let node := σ.brk
    let heap := Function.update σ.heap node (some ⟨new_task, none⟩)
    if σ.ll.head = none then
      .ok (0, { σ with heap := heap, brk := σ.brk + 1, ll := ⟨some node, some node⟩ })
    else
      match σ.ll.tail with
      | none => .fail .null_deref
      | some tail =>
        match heap tail with
        | none => .fail .invalid_pointer
        | some n =>
          .ok (0, { σ with heap := Function.update heap tail (some { n with next := some node }),
                           brk := σ.brk + 1, ll := ⟨σ.ll.head, some node⟩ })

/-- The loop of `ll_size` (`main.c:429-430`); `counter` is a C `int`. -/
def ll_size_loop : Nat → (Nat → Option node_t) → Option Nat → Int → result Int
  | _, _, none, counter => .ok counter
  | 0, _, some _, _ => .fail .out_of_fuel
  | fuel + 1, heap, some current, counter =>
    match heap current with
    | none => .fail .invalid_pointer
    | some n => ll_size_loop fuel heap n.next (wrap_int (counter + 1))

/-- Embedding of `ll_size` (`main.c:424-433`). -/
def ll_size (fuel : Nat) (σ : server_t) : result Int :=
  if (σ.ll.head = none ∧ σ.ll.tail ≠ none) ∨ (σ.ll.head ≠ none ∧ σ.ll.tail = none) then
    .ok (-1)
  else ll_size_loop fuel σ.heap σ.ll.head 0

/-- The call `timer_delete(timer_id)`. -/
def timer_delete (σ : server_t) (timer_id : Nat) : server_t :=
  { σ with timers := Function.update σ.timers timer_id none }

/-- Embedding of `free_node` (`main.c:435-441`): the node at `node`, with its
task and the `argv` of the task, is released. -/
def free_node (σ : server_t) (node : Nat) : server_t :=
  { σ with heap := Function.update σ.heap node none }

/-- The loop of `ll_remove` (`main.c:468-479`), entered with `current`. -/
def ll_remove_loop : Nat → server_t → Nat → Int → result server_t
  | 0, _, _, _ => .fail .out_of_fuel
  | fuel + 1, σ, current, index =>
    match σ.heap current with
    | none => .fail .invalid_pointer
    | some c =>
      match c.next with
      | none => .ok σ
      | some next =>
        match σ.heap next with
        | none => .fail .invalid_pointer
        | some n =>
          if n.timer_task.task_id = index then
            let temp := n.next
            let σ := timer_delete σ n.timer_task.timer_id
            let σ := free_node σ next
            let σ := { σ with heap := Function.update σ.heap current (some { c with next := temp }) }
            match temp with
            | none => .ok { σ with ll := ⟨σ.ll.head, some current⟩ }
            | some t => ll_remove_loop fuel σ t index
          else ll_remove_loop fuel σ next index

/-- Embedding of `ll_remove` (`main.c:443-484`). -/
def ll_remove (fuel : Nat) (σ : server_t) (index : Int) : result server_t :=
  match ll_size fuel σ with
  | .fail f => .fail f
  | .ok size =>
    if size < 1 then .ok σ
    else
      match σ.ll.head with
      | none => .fail .null_deref
      | some head =>
        match σ.heap head with
        | none => .fail .invalid_pointer
        | some h =>
          if σ.ll.head = σ.ll.tail then
            if h.timer_task.task_id = index then
              let σ := timer_delete σ h.timer_task.timer_id
              let σ := free_node σ head
              .ok { σ with ll := ⟨none, none⟩ }
            else .ok σ
          else
            if h.timer_task.task_id = index then
              let temp := h.next
              let σ := timer_delete σ h.timer_task.timer_id
              let σ := free_node σ head
              .ok { σ with ll := ⟨temp, σ.ll.tail⟩ }
            else ll_remove_loop fuel σ head index

/-- Embedding of `timer_notification_thread` (`main.c:185-194`); `arg` is
`arg.sival_ptr`. The command spawned is recorded. -/
def timer_notification_thread (σ : server_t) (arg : Nat) : result server_t :=
  match σ.heap arg with
  | none => .fail .invalid_pointer
  | some n =>
    let timer_task := n.timer_task
    let timer_task := if timer_task.is_cyclic = 0 then { timer_task with is_done := 1 }
      else timer_task
    .ok { σ with heap := Function.update σ.heap arg (some { n with timer_task := timer_task }),
                 spawned := σ.spawned ++ [timer_task.argv] }

/-- The loop of `send_task_list` (`main.c:205-216`): `response` is the local
variable, `sent` the messages sent so far. -/
def send_task_list_loop : Nat → (Nat → Option node_t) → Option Nat → response_t →
    List response_t → result (response_t × List response_t)
  | _, _, none, response, sent => .ok (response, sent)
  | 0, _, some _, _, _ => .fail .out_of_fuel
  | fuel + 1, heap, some current, response, sent =>
    match heap current with
    | none => .fail .invalid_pointer
    | some n =>
      if n.timer_task.is_done = 0 then
        let response : response_t :=
          { task_id := n.timer_task.task_id, time_spec := n.timer_task.time_spec,
            task := response_task n.timer_task.argv }
        send_task_list_loop fuel heap n.next response (sent ++ [response])
      else send_task_list_loop fuel heap n.next response sent

/-- Embedding of `send_task_list` (`main.c:196-221`), once the response queue is
open: the messages sent, in order. `response` is the content of the local
variable `response` at entry, which the C code does not initialise. -/
def send_task_list (fuel : Nat) (σ : server_t) (response : response_t) :
    result (List response_t) :=
  match send_task_list_loop fuel σ.heap σ.ll.head response [] with
  | .fail f => .fail f
  | .ok (response, sent) => .ok (sent ++ [{ response with task := [] }])

/-! ## The dispatcher (`src/main.c`) and the timers

The calls of `printf` and `logger_log` in the dispatcher change the terminal
and the log file only, which are not part of `server_t`. `timer_create` is
assumed to succeed; it numbers the timers `next_timer`, `next_timer + 1`, ...
in turn. -/

/-- Embedding of one turn of the loop of `main` (`main.c:102-156`) for the
request `query` received from the queue. `mktime` is the C library function,
`response` the initial content of the local variable of `send_task_list`. In
the ADD branch the task gets the address that `ll_push_back` will give to its
node. -/
def dispatch (mktime : tm_t → Int) (response : response_t) (fuel : Nat) (σ : server_t)
    (query : query_t) : result server_t :=
  match query.command with
  | .ADD => do
    let new_task := σ.brk
    let task_id := σ.sequence
    let σ := { σ with sequence := wrap_long (σ.sequence + 1) }
    let argv ← get_argv_for_task query.task
    let time ← get_task_time mktime query.timer_spec
    let is_cyclic : Int := if time.interval_time > 0 then 1 else 0
    let timer_id := σ.next_timer
    let σ := { σ with timers := Function.update σ.timers timer_id (some ⟨new_task, 0, 0, 0⟩),
                      next_timer := σ.next_timer + 1 }
    let task : task_t :=
      { task_id := task_id, timer_id := timer_id, time_spec := query.timer_spec, argv := argv,
        is_cyclic := is_cyclic, is_done := 0 }
    let (_, σ) ← ll_push_back σ task
    let spec : ktimer_t :=
      { sival_ptr := new_task, flags := if time.is_absolute ≠ 0 then 1 else 0,
        it_value := time.task_execution_time, it_interval := time.interval_time }
    pure { σ with timers := Function.update σ.timers timer_id (some spec) }
  | .CANCEL =>
    let id := strtol query.task
    ll_remove fuel σ id
  | .DISPLAY => do
    let sent ← send_task_list fuel σ response
    pure { σ with sent := σ.sent ++ sent }
  | .STOP => pure { σ with is_stopped := 1 }

/-- The task that the ADD branch of the dispatcher builds in the state `σ` for
the request `query`, once `get_argv_for_task` has returned `argv` and
`get_task_time` has returned `time` (`main.c:108-128`). -/
def added_task (σ : server_t) (query : query_t) (argv : List (List Char)) (time : task_time_t) :
    task_t :=
  { task_id := σ.sequence, timer_id := σ.next_timer, time_spec := query.timer_spec,
    argv := argv, is_cyclic := if time.interval_time > 0 then 1 else 0, is_done := 0 }

/-- The setting that the ADD branch gives to the timer of the new task
(`main.c:131-136`). -/
def added_timer (σ : server_t) (time : task_time_t) : ktimer_t :=
  { sival_ptr := σ.brk, flags := if time.is_absolute ≠ 0 then 1 else 0,
    it_value := time.task_execution_time, it_interval := time.interval_time }

/-- What the kernel does when the timer `timer_id` expires (`SIGEV_THREAD`): if
the timer exists, the notification function runs with the value given at
`timer_create`; a deleted timer does nothing. -/
def timer_expire (σ : server_t) (timer_id : Nat) : result server_t :=
  match σ.timers timer_id with
  | none => .ok σ
  | some timer => timer_notification_thread σ timer.sival_ptr

/-- What happens to the server: a request arrives on the queue, or a timer
expires. -/
inductive event where
  | request (query : query_t)
  | expire (timer_id : Nat)
  deriving DecidableEq, Repr

/-- One event. A request is handled by the loop of `main` only while
`is_stopped` is 0; the mutex makes the handling of events atomic. -/
def step (mktime : tm_t → Int) (response : response_t) (fuel : Nat) (σ : server_t) :
    event → result server_t
  | .request query => if σ.is_stopped = 0 then dispatch mktime response fuel σ query else .ok σ
  | .expire timer_id => timer_expire σ timer_id

/-- A sequence of events, from the state `σ`. -/
def run (mktime : tm_t → Int) (response : response_t) (fuel : Nat) :
    List event → server_t → result server_t
  | [], σ => .ok σ
  | e :: events, σ =>
    match step mktime response fuel σ e with
    | .fail f => .fail f
    | .ok σ => run mktime response fuel events σ

/-- The tasks of the nodes from `head` on, for inspection of a state. -/
def ll_tasks : Nat → (Nat → Option node_t) → Option Nat → List task_t
  | 0, _, _ => []
  | _, _, none => []
  | fuel + 1, heap, some a =>
    match heap a with
    | none => []
    | some n => n.timer_task :: ll_tasks fuel heap n.next

/-! ## Well-formed stores -/

/-- The nodes reachable from the pointer `p` are, in order, at the addresses and
with the tasks of `l`, and the last one has `next == NULL`. -/
def is_list (heap : Nat → Option node_t) : Option Nat → List (Nat × task_t) → Prop
  | p, [] => p = none
  | p, (a, t) :: l => p = some a ∧ ∃ next, heap a = some ⟨t, next⟩ ∧ is_list heap next l

/-- The store is well formed and holds the tasks of `l` (with the addresses of
their nodes): the nodes from `head` form a `NULL`-terminated list and `tail`
points to the last of them (so `head` is `NULL` iff `tail` is). -/
def well_formed (σ : server_t) (l : List (Nat × task_t)) : Prop :=
  is_list σ.heap σ.ll.head l ∧ σ.ll.tail = l.getLast?.map Prod.fst

/-- The allocator invariant: nothing is allocated at `brk` or above. -/
def fresh (σ : server_t) : Prop := ∀ a, σ.brk ≤ a → σ.heap a = none

/-- The task ids of a store. -/
def task_ids (l : List (Nat × task_t)) : List Int := l.map (fun x => x.2.task_id)

/-- The addresses of the nodes of a store. -/
def addresses (l : List (Nat × task_t)) : List Nat := l.map Prod.fst

/-- The response that `send_task_list` sends for a task (`main.c:207-214`). -/
def response_of (t : task_t) : response_t :=
  { task_id := t.task_id, time_spec := t.time_spec, task := response_task t.argv }

/-- The responses that `send_task_list` sends for the tasks `l` before the
terminator: one for each task with `is_done == 0`, in the order of the store. -/
def listed (l : List (Nat × task_t)) : List response_t :=
  (l.filter (fun x => decide (x.2.is_done = 0))).map (fun x => response_of x.2)

/-- The task after its timer has expired: `is_done` is set unless the task is
cyclic (`main.c:188-189`). -/
def fired (t : task_t) : task_t :=
  if t.is_cyclic = 0 then { t with is_done := 1 } else t

/-! ## Reachable states and what DISPLAY must show -/

/-- The invariant of the states that the dispatcher and the timers reach: the
store is well formed; ids grow from head to tail; the task with the id `n` has
the timer number `n - 1`, which is alive and points back to the task; there is
no other timer; the next id is `sequence`. -/
structure invariant (σ : server_t) (l : List (Nat × task_t)) : Prop where
  wf : well_formed σ l
  unused : fresh σ
  sorted : (task_ids l).Pairwise (fun a b => a < b)
  seq : σ.sequence = (σ.next_timer : Int) + 1
  timer_of : ∀ x ∈ l, (x.2.timer_id : Int) + 1 = x.2.task_id
  timer_lt : ∀ x ∈ l, x.2.timer_id < σ.next_timer
  timers_live : ∀ x ∈ l, ∃ timer, σ.timers x.2.timer_id = some timer ∧ timer.sival_ptr = x.1
  timers_only : ∀ k timer, σ.timers k = some timer → ∃ x ∈ l, x.2.timer_id = k
  running : σ.is_stopped = 0
  size : l.length ≤ σ.next_timer
  argv : ∀ x ∈ l, x.2.argv ≠ []

/-- The events for which the handling is defined and the loop goes on: every
timer event, and every request but STOP, an ADD request only when
`get_argv_for_task` and `get_task_time` return for it. -/
def admissible (mktime : tm_t → Int) : event → Bool
  | .request query =>
    match query.command with
    | .ADD =>
      match get_argv_for_task query.task, get_task_time mktime query.timer_spec with
      | .ok _, .ok _ => true
      | _, _ => false
    | .CANCEL => true
    | .DISPLAY => true
    | .STOP => false
  | .expire _ => true

/-- The tasks of the store after the event `e`, when they were `l` before it in
the state `σ`. -/
def tasks_after (mktime : tm_t → Int) (σ : server_t) (l : List (Nat × task_t)) :
    event → List (Nat × task_t)
  | .request query =>
    match query.command with
    | .ADD =>
      match get_argv_for_task query.task, get_task_time mktime query.timer_spec with
      | .ok argv, .ok time => l ++ [(σ.brk, added_task σ query argv time)]
      | _, _ => l
    | .CANCEL => l.filter (fun x => decide (x.2.task_id ≠ strtol query.task))
    | .DISPLAY => l
    | .STOP => l
  | .expire timer_id => l.map (fun x => if x.2.timer_id = timer_id then (x.1, fired x.2) else x)

/-- Whether the events hold a CANCEL request for the id `task_id`. -/
def cancelled (task_id : Int) (events : List event) : Bool :=
  events.any (fun e =>
    match e with
    | .request query => decide (query.command = .CANCEL ∧ strtol query.task = task_id)
    | .expire _ => false)

/-- Whether the events hold an expiry of the timer `timer_id`. -/
def expired (timer_id : Nat) (events : List event) : Bool :=
  events.any (fun e =>
    match e with
    | .request _ => false
    | .expire k => decide (k = timer_id))

/-- Whether the task `t` is no longer to be listed after the events `later`:
its id was cancelled, or it is a one-shot task and its timer expired. -/
def gone (t : task_t) (later : List event) : Bool :=
  cancelled t.task_id later || (decide (t.is_cyclic = 0) && expired t.timer_id later)

/-- The tasks that the ADD requests among the events create, in order, each with
the events that come after its request. The ADD requests are numbered from `n`:
the one with the number `k` gets the id `k + 1` and the timer `k`. -/
def added (mktime : tm_t → Int) : Nat → List event → List (task_t × List event)
  | _, [] => []
  | n, .request query :: later =>
    match query.command with
    | .ADD =>
      match get_argv_for_task query.task, get_task_time mktime query.timer_spec with
      | .ok argv, .ok time =>
        ({ task_id := (n : Int) + 1, timer_id := n, time_spec := query.timer_spec, argv := argv,
           is_cyclic := if time.interval_time > 0 then 1 else 0, is_done := 0 }, later)
          :: added mktime (n + 1) later
      | _, _ => added mktime n later
    | _ => added mktime n later
  | n, .expire _ :: later => added mktime n later


/-- The number of ADD requests among the events. -/
def count_add (events : List event) : Nat :=
  events.countP (fun e =>
    match e with
    | .request query => decide (query.command = .ADD)
    | .expire _ => false)

/-- The responses for the tasks `l` of a store that are still to be listed after
the events `later`: those not done that are not `gone`. -/
def still_listed (l : List (Nat × task_t)) (later : List event) : List response_t :=
  (l.filter (fun x => decide (x.2.is_done = 0) && !gone x.2 later)).map
    (fun x => response_of x.2)

/-- The responses for the tasks that the events add, numbered from `n`, and that
are not `gone` by the end of the events. -/
def expected_from (mktime : tm_t → Int) (n : Nat) (events : List event) : List response_t :=
  ((added mktime n events).filter (fun x => !gone x.1 x.2)).map (fun x => response_of x.1)

/-- What DISPLAY must show after the events, by the words of the specification: the
tasks that were added, in that order, but for those whose id was cancelled
since and those that have fired as one-shot tasks. -/
def expected (mktime : tm_t → Int) (events : List event) : List response_t :=
  expected_from mktime 0 events

/-! ## The client side of ADD (`src/main.c`) -/

/-- Read of `argv[i]` in the argument vector of `main`: the strings of `argv`,
then `NULL` at the index `argc`, then nothing. -/
def argv_at (argv : List (List Char)) (i : Nat) : result (List Char) :=
  match argv.get? i with
  | some s => .ok s
  | none =>
    if i = argv.length then .fail .null_deref
    else .fail (.out_of_bounds i (argv.length + 1))

/-- The loop of `fill_add_query` (`main.c:360-363`): `count` more turns from the
index `i`, each appending `argv[i]` and a space to `task`. -/
def fill_add_query_loop : Nat → Nat → List (List Char) → List Char → result (List Char)
  | 0, _, _, task => .ok task
  | count + 1, i, argv, task =>
    match argv_at argv i with
    | .fail f => .fail f
    | .ok a => fill_add_query_loop count (i + 1) argv (task ++ a ++ " ".toList)

/-- Embedding of `fill_add_query` (`main.c:348-364`): the request that the
client sends for the command line `argv` of `argc` strings (`argv[1]` is
`add`). A `NULL` string given to `strcmp` or `sprintf` is a fault. -/
def fill_add_query (argc : Nat) (argv : List (List Char)) : result query_t := do
  let index := 4
  let a4 ← argv_at argv 4
  let (timer_spec, index) ←
    (if a4 = "-i".toList then do
      let a2 ← argv_at argv 2
      let a3 ← argv_at argv 3
      let a5 ← argv_at argv 5
      pure (a2 ++ " ".toList ++ a3 ++ " ".toList ++ a4 ++ " ".toList ++ a5, 6)
    else do
      let a2 ← argv_at argv 2
      let a3 ← argv_at argv 3
      pure (a2 ++ " ".toList ++ a3, index) : result (List Char × Nat))
  let first ← argv_at argv index
  let task ← fill_add_query_loop (argc - (index + 1)) (index + 1) argv (first ++ " ".toList)
  pure { command := .ADD, timer_spec := timer_spec, task := task }

/-! ## The calls on the store -/

/-- Embedding of `ll_create` (`main.c:394-396`): `calloc` gives a list with
`head` and `tail` both `NULL`. -/
def ll_create : linked_list_t := ⟨none, none⟩

/-- The loop of `ll_clear` (`main.c:493-498`), at the node `current`. -/
def ll_clear_loop : Nat → server_t → Option Nat → result server_t
  | _, σ, none => .ok σ
  | 0, _, some _ => .fail .out_of_fuel
  | fuel + 1, σ, some current =>
    match σ.heap current with
    | none => .fail .invalid_pointer
    | some n =>
      let temp := n.next
      let σ := timer_delete σ n.timer_task.timer_id
      let σ := free_node σ current
      ll_clear_loop fuel σ temp

/-- Embedding of `ll_clear` (`main.c:486-502`). -/
def ll_clear (fuel : Nat) (σ : server_t) : result server_t :=
  if σ.ll.head = none ∨ σ.ll.tail = none then .ok σ
  else
    match ll_clear_loop fuel σ σ.ll.head with
    | .fail f => .fail f
    | .ok σ => .ok { σ with ll := ⟨none, none⟩ }

/-- A call on the store. -/
inductive ll_call where
  | push_back (new_task : task_t)
  | remove (index : Int)
  | clear
  deriving DecidableEq, Repr

/-- A sequence of calls on the store from the state `σ`: the values that the
calls of `ll_push_back` returned, in order, and the state at the end. -/
def ll_run (fuel : Nat) : List ll_call → server_t → result (List Int × server_t)
  | [], σ => .ok ([], σ)
  | .push_back new_task :: calls, σ =>
    match ll_push_back σ new_task with
    | .fail f => .fail f
    | .ok (r, σ) =>
      match ll_run fuel calls σ with
      | .fail f => .fail f
      | .ok (rs, σ) => .ok (r :: rs, σ)
  | .remove index :: calls, σ =>
    match ll_remove fuel σ index with
    | .fail f => .fail f
    | .ok σ => ll_run fuel calls σ
  | .clear :: calls, σ =>
    match ll_clear fuel σ with
    | .fail f => .fail f
    | .ok σ => ll_run fuel calls σ

/-- The tasks that a store must hold after the calls, when it held `l` before
them: `push_back` appends, `remove` takes out the task with the id, `clear`
takes out all. -/
def ll_model : List task_t → List ll_call → List task_t
  | l, [] => l
  | l, .push_back new_task :: calls => ll_model (l ++ [new_task]) calls
  | l, .remove index :: calls => ll_model (l.filter (fun t => decide (t.task_id ≠ index))) calls
  | _, .clear :: calls => ll_model [] calls

/-- The tasks given to `ll_push_back` by the calls. -/
def pushed : List ll_call → List task_t
  | [] => []
  | .push_back new_task :: calls => new_task :: pushed calls
  | _ :: calls => pushed calls

/-! ## Example states -/

/-- A task for examples: the command `/bin/true`, to run once. -/
def example_task (task_id : Int) (timer_id : Nat) : task_t :=
  { task_id := task_id, timer_id := timer_id, time_spec := "-r 0-0-0-0-1".toList,
    argv := ["/bin/true".toList], is_cyclic := 0, is_done := 0 }

/-- A store of two tasks, with the ids 1 and 2, in nodes at the addresses 0 and
1, as two ADD requests leave it. -/
def two_task_store : server_t :=
  { heap := fun a =>
      if a = 0 then some ⟨example_task 1 0, some 1⟩
      else if a = 1 then some ⟨example_task 2 1, none⟩
      else none,
    brk := 2, ll := ⟨some 0, some 1⟩, sequence := 3,
    timers := fun k =>
      if k = 0 then some ⟨0, 0, 1, 0⟩ else if k = 1 then some ⟨1, 0, 1, 0⟩ else none,
    next_timer := 2, spawned := [], sent := [], is_stopped := 0 }

/-- Events for examples: two ADD requests, a CANCEL of the id 1, and the expiry
of the timer of the second task. -/
def example_events : List event :=
  [.request ⟨.ADD, "-r 0-0-0-0-1".toList, "/bin/true ".toList⟩,
   .request ⟨.ADD, "-r 0-0-0-0-2 -i 0-0-0-0-1".toList, "/bin/touch /tmp/b ".toList⟩,
   .request ⟨.CANCEL, [], "1".toList⟩,
   .expire 1]

/-- The command line of the second end-to-end scenario of the specification,
for a program called `program`: the interval stands after the command. -/
def scenario_argv (program : List Char) : List (List Char) :=
  [program, "add".toList, "-r".toList, "0-0-0-0-1".toList, "/bin/touch".toList,
   "/tmp/b".toList, "-i".toList, "0-0-0-0-1".toList]

/-- The same request with the interval where `fill_add_query` looks for it,
before the command. -/
def interval_first_argv (program : List Char) : List (List Char) :=
  [program, "add".toList, "-r".toList, "0-0-0-0-1".toList, "-i".toList, "0-0-0-0-1".toList,
   "/bin/touch".toList, "/tmp/b".toList]

/-- Calls for examples: two tasks are stored, the first is removed, a third is
stored. -/
def example_calls : List ll_call :=
  [.push_back (example_task 1 0), .push_back (example_task 2 1), .remove 1,
   .push_back (example_task 3 2)]

/-! ## Properties of the logger -/

/-- Levels 1 to 3 on an initialised logger: a record is appended exactly when
`level ≤ current_level`. -/
theorem logger_log_writes_iff (lg : logger_t) (level : Int) (log_time text : List Char)
    (hinit : lg.initialized ≠ 0) (hlevel : 1 ≤ level ∧ level ≤ 3) :
    ∃ r lg', logger_log lg level log_time text = .ok (r, lg') ∧
      (lg'.file ≠ lg.file ↔ level ≤ lg.current_level) := by
  obtain ⟨h1, h3⟩ := hlevel
  have hcases : level = 1 ∨ level = 2 ∨ level = 3 := by omega
  unfold logger_log
  rw [if_neg hinit, if_neg (by omega)]
  by_cases h0 : lg.current_level = 0
  · rw [if_pos h0]
    exact ⟨_, _, rfl, by constructor <;> intro h <;> [exact absurd rfl h; omega]⟩
  · rw [if_neg h0]
    by_cases hge : lg.current_level ≥ level
    · rw [if_pos hge]
      rcases hcases with h | h | h <;> subst h <;>
        exact ⟨_, _, rfl, by simp; exact hge⟩
    · rw [if_neg hge]
      exact ⟨_, _, rfl, by constructor <;> intro h <;> [exact absurd rfl h; omega]⟩

/-- C7, at the failing input: on an initialised logger whose level is 3 (the
initial value), `logger_log(0, ...)` passes the range check `level < 0 || level > 3`
and the test `current_level >= level`, and reads `logs[-1]`, outside the table,
to write a record. -/
theorem logger_log_level_zero_reads_outside_logs (log_time text : List Char) :
    logger_log ⟨1, 3, []⟩ 0 log_time text = .fail (.out_of_bounds (-1) 3) := by
  rfl

/-- C8, at the failing input: on an initialised, enabled logger a level out of
range (here 4) makes `logger_log` return 2, which is not negative, and leaves
the log as it was. -/
theorem logger_log_level_out_of_range_returns_two (log_time text : List Char) :
    logger_log ⟨1, 3, []⟩ 4 log_time text = .ok (2, ⟨1, 3, []⟩) := by
  rfl
/-! ## Properties of `strtok` and `strtol` -/

@[simp] theorem result.ok_bind {α β : Type} (a : α) (f : α → result β) :
    (result.ok a >>= f) = f a := rfl

@[simp] theorem result.fail_bind {α β : Type} (e : fault) (f : α → result β) :
    ((result.fail e : result α) >>= f) = result.fail e := rfl

@[simp] theorem result.pure_eq {α : Type} (a : α) : (pure a : result α) = result.ok a := rfl

/-- A token followed by a delimiter: `strtok` returns the token and saves the
position after the delimiter. -/
theorem strtok_token (delim tok rest : List Char) (c : Char) (hne : tok ≠ [])
    (htok : ∀ x ∈ tok, x ∉ delim) (hc : c ∈ delim) :
    strtok none delim (tok ++ c :: rest) = (some tok, rest) := by
  cases tok with
  | nil => exact absurd rfl hne
  | cons a tok =>
    have ha : a ∉ delim := htok a (List.mem_cons_self _ _)
    have h1 : List.dropWhile (fun c => decide (c ∈ delim)) ((a :: tok) ++ c :: rest)
        = (a :: tok) ++ c :: rest := by
      simp [List.dropWhile, ha]
    have h2 : ∀ x ∈ a :: tok, (fun c => !decide (c ∈ delim)) x = true := by
      intro x hx; simp [htok x hx]
    unfold strtok
    simp only [h1]
    rw [if_neg (by simp)]
    rw [List.takeWhile_append_of_pos h2, List.dropWhile_append_of_pos h2]
    simp [List.takeWhile, List.dropWhile, hc]

/-- A token that ends the string: `strtok` returns it and saves the end. -/
theorem strtok_last (delim tok : List Char) (hne : tok ≠ [])
    (htok : ∀ x ∈ tok, x ∉ delim) :
    strtok none delim tok = (some tok, []) := by
  cases tok with
  | nil => exact absurd rfl hne
  | cons a tok =>
    have ha : a ∉ delim := htok a (List.mem_cons_self _ _)
    have h1 : List.dropWhile (fun c => decide (c ∈ delim)) (a :: tok) = a :: tok := by
      simp [List.dropWhile, ha]
    have h2 : ∀ x ∈ a :: tok, (fun c => !decide (c ∈ delim)) x = true := by
      intro x hx; simp [htok x hx]
    unfold strtok
    simp only [h1]
    rw [if_neg (by simp)]
    have h3 := @List.takeWhile_append_of_pos _ _ _ [] h2
    have h4 := @List.dropWhile_append_of_pos _ _ _ [] h2
    simp only [List.append_nil] at h3 h4
    rw [h3, h4]
    simp

/-- At the end of the string `strtok` returns `NULL`. -/
theorem strtok_nil (delim : List Char) : strtok none delim [] = (none, []) := by
  simp [strtok]

/-- The first call of `strtok` on a string is a call on that text as saved
position. -/
theorem strtok_some (delim s save : List Char) :
    strtok (some s) delim save = strtok none delim s := rfl
theorem isdigit_not_space (c : Char) (h : isdigit c = true) : isspace c = false := by
  simp only [isdigit, Bool.and_eq_true, decide_eq_true_eq] at h
  simp only [isspace, Bool.or_eq_false_iff, decide_eq_false_iff_not]
  obtain ⟨h1, h2⟩ := h
  refine ⟨⟨⟨⟨⟨?_, ?_⟩, ?_⟩, ?_⟩, ?_⟩, ?_⟩ <;> rintro rfl <;> revert h1 <;> decide

theorem isdigit_ne (c x : Char) (h : isdigit c = true) (hx : isdigit x = false) : c ≠ x := by
  rintro rfl; rw [h] at hx; cases hx

/-- A string is a number when it is a non-empty run of decimal digits. -/
theorem is_number_strtol (s : List Char) (h : is_number s)
    (hfit : (digits_value 0 s : Int) ≤ LONG_MAX) : strtol s = digits_value 0 s := by
  obtain ⟨hne, hd⟩ := h
  cases s with
  | nil => exact absurd rfl hne
  | cons a s =>
    have ha := hd a (List.mem_cons_self _ _)
    have h1 : List.dropWhile isspace (a :: s) = a :: s := by
      simp [List.dropWhile, isdigit_not_space a ha]
    unfold strtol
    simp only [h1, List.head?_cons, Option.some.injEq]
    rw [if_neg (isdigit_ne a '-' ha (by decide)), if_neg (isdigit_ne a '+' ha (by decide))]
    exact min_eq_right hfit

theorem is_number_no_delim (s : List Char) (h : is_number s) (x : Char)
    (hx : isdigit x = false) : ∀ c ∈ s, c ∉ [x] := by
  intro c hc
  simp only [List.mem_singleton]
  exact isdigit_ne c x (h.2 c hc) hx
theorem wrap_long_eq (x : Int) (h1 : 0 ≤ x) (h2 : x ≤ LONG_MAX) : wrap_long x = x := by
  unfold wrap_long; unfold LONG_MAX at h2; omega

theorem add_span_eval (acc : Int) (y d h m s : List Char)
    (s1 s2 s3 s4 s5 save : List Char)
    (e1 : strtok none "-".toList save = (some y, s1))
    (e2 : strtok none "-".toList s1 = (some d, s2))
    (e3 : strtok none "-".toList s2 = (some h, s3))
    (e4 : strtok none "-".toList s3 = (some m, s4))
    (e5 : strtok none " ".toList s4 = (some s, s5))
    (hy : is_number y) (hd : is_number d) (hh : is_number h) (hm : is_number m)
    (hs : is_number s) (hacc : 0 ≤ acc)
    (hfit : acc + span_seconds (digits_value 0 y) (digits_value 0 d) (digits_value 0 h)
      (digits_value 0 m) (digits_value 0 s) ≤ LONG_MAX) :
    add_span acc save = .ok (acc + span_seconds (digits_value 0 y) (digits_value 0 d)
      (digits_value 0 h) (digits_value 0 m) (digits_value 0 s), s5) := by
  unfold span_seconds at hfit ⊢
  have hLM : LONG_MAX = 2 ^ 63 - 1 := rfl
  have vy := is_number_strtol y hy (by omega)
  have vd := is_number_strtol d hd (by omega)
  have vh := is_number_strtol h hh (by omega)
  have vm := is_number_strtol m hm (by omega)
  have vs := is_number_strtol s hs (by omega)
  unfold add_span
  simp only [e1, e2, e3, e4, e5, strtol_tok, result.ok_bind, result.pure_eq, vy, vd, vh, vm, vs]
  simp (disch := omega) only [wrap_long_eq]
  congr 2
  omega
theorem add_span_text (acc : Int) (y d h m s : List Char)
    (hy : is_number y) (hd : is_number d) (hh : is_number h) (hm : is_number m)
    (hs : is_number s) (hacc : 0 ≤ acc)
    (hfit : acc + span_seconds (digits_value 0 y) (digits_value 0 d) (digits_value 0 h)
      (digits_value 0 m) (digits_value 0 s) ≤ LONG_MAX) :
    add_span acc (span_text y d h m s) = .ok (acc + span_seconds (digits_value 0 y)
      (digits_value 0 d) (digits_value 0 h) (digits_value 0 m) (digits_value 0 s), []) ∧
    ∀ rest, add_span acc (span_text y d h m s ++ ' ' :: rest) = .ok (acc + span_seconds
      (digits_value 0 y) (digits_value 0 d) (digits_value 0 h) (digits_value 0 m)
      (digits_value 0 s), rest) := by
  have dash : ∀ t, is_number t → ∀ c ∈ t, c ∉ "-".toList :=
    fun t ht => is_number_no_delim t ht '-' (by decide)
  have spc : ∀ t, is_number t → ∀ c ∈ t, c ∉ " ".toList :=
    fun t ht => is_number_no_delim t ht ' ' (by decide)
  have hin : '-' ∈ "-".toList := by decide
  have hsp : ' ' ∈ " ".toList := by decide
  constructor
  · exact add_span_eval acc y d h m s _ _ _ _ _ _
      (strtok_token _ y _ '-' hy.1 (dash y hy) hin)
      (strtok_token _ d _ '-' hd.1 (dash d hd) hin)
      (strtok_token _ h _ '-' hh.1 (dash h hh) hin)
      (strtok_token _ m _ '-' hm.1 (dash m hm) hin)
      (strtok_last _ s hs.1 (spc s hs)) hy hd hh hm hs hacc hfit
  · intro rest
    have e : span_text y d h m s ++ ' ' :: rest
        = y ++ '-' :: (d ++ '-' :: (h ++ '-' :: (m ++ '-' :: (s ++ ' ' :: rest)))) := by
      simp [span_text]
    rw [e]
    exact add_span_eval acc y d h m s _ _ _ _ _ _
      (strtok_token _ y _ '-' hy.1 (dash y hy) hin)
      (strtok_token _ d _ '-' hd.1 (dash d hd) hin)
      (strtok_token _ h _ '-' hh.1 (dash h hh) hin)
      (strtok_token _ m _ '-' hm.1 (dash m hm) hin)
      (strtok_token _ s _ ' ' hs.1 (spc s hs) hsp) hy hd hh hm hs hacc hfit

theorem span_seconds_nonneg (y d h m s : List Char) :
    0 ≤ span_seconds (digits_value 0 y) (digits_value 0 d) (digits_value 0 h)
      (digits_value 0 m) (digits_value 0 s) := by
  unfold span_seconds; omega

/-- The tail of `get_task_time` (`main.c:288-304`) once the first-fire time is
known. -/
theorem strtok_flag (flag rest : List Char) (hne : flag ≠ []) (hf : ∀ x ∈ flag, x ∉ " ".toList) :
    strtok none " ".toList (flag ++ ' ' :: rest) = (some flag, rest) :=
  strtok_token _ flag rest ' ' hne hf (by decide)

/-- The relative form on digit strings (leading zeros allowed): for numbers
`y, d, h, m, s` whose span fits a `long`, `get_task_time` on `-r y-d-h-m-s`
reports a relative schedule with the span as `task_execution_time` and
`interval_time = 0`; with ` -i y'-d'-h'-m'-s'` appended it reports the same
`task_execution_time` and the interval given by the same formula. -/
theorem get_task_time_relative_digits (mktime : tm_t → Int) (y d h m s y' d' h' m' s' : List Char)
    (hy : is_number y) (hd : is_number d) (hh : is_number h) (hm : is_number m)
    (hs : is_number s)
    (hy' : is_number y') (hd' : is_number d') (hh' : is_number h') (hm' : is_number m')
    (hs' : is_number s')
    (hfit : span_seconds (digits_value 0 y) (digits_value 0 d) (digits_value 0 h)
      (digits_value 0 m) (digits_value 0 s) ≤ LONG_MAX)
    (hfit' : span_seconds (digits_value 0 y') (digits_value 0 d') (digits_value 0 h')
      (digits_value 0 m') (digits_value 0 s') ≤ LONG_MAX) :
    get_task_time mktime ("-r ".toList ++ span_text y d h m s) =
      .ok { is_absolute := 0,
            task_execution_time := span_seconds (digits_value 0 y) (digits_value 0 d)
              (digits_value 0 h) (digits_value 0 m) (digits_value 0 s),
            interval_time := 0 } ∧
    get_task_time mktime ("-r ".toList ++ span_text y d h m s ++ " -i ".toList ++
        span_text y' d' h' m' s') =
      .ok { is_absolute := 0,
            task_execution_time := span_seconds (digits_value 0 y) (digits_value 0 d)
              (digits_value 0 h) (digits_value 0 m) (digits_value 0 s),
            interval_time := span_seconds (digits_value 0 y') (digits_value 0 d')
              (digits_value 0 h') (digits_value 0 m') (digits_value 0 s') } := by
  have hr : strtok none " ".toList ("-r".toList ++ ' ' :: span_text y d h m s)
      = (some "-r".toList, span_text y d h m s) := strtok_flag _ _ (by decide) (by decide)
  have a1 := add_span_text 0 y d h m s hy hd hh hm hs le_rfl (by simpa using hfit)
  have a2 := add_span_text 0 y' d' h' m' s' hy' hd' hh' hm' hs' le_rfl (by simpa using hfit')
  simp only [zero_add] at a1 a2
  constructor
  · have e : "-r ".toList ++ span_text y d h m s
        = "-r".toList ++ ' ' :: span_text y d h m s := by simp
    rw [e]
    unfold get_task_time
    simp only [strtok_some, hr, strcmp_tok, decide_True, result.ok_bind, if_true, a1.1,
      result.pure_eq, strtok_nil]
  · have e : "-r ".toList ++ span_text y d h m s ++ " -i ".toList ++ span_text y' d' h' m' s'
        = "-r".toList ++ ' ' :: (span_text y d h m s ++ ' ' ::
            ("-i".toList ++ ' ' :: span_text y' d' h' m' s')) := by simp
    have hr' : strtok none " ".toList ("-r".toList ++ ' ' :: (span_text y d h m s ++ ' ' ::
            ("-i".toList ++ ' ' :: span_text y' d' h' m' s')))
      = (some "-r".toList, span_text y d h m s ++ ' ' ::
            ("-i".toList ++ ' ' :: span_text y' d' h' m' s')) :=
      strtok_flag _ _ (by decide) (by decide)
    have hi : strtok none " ".toList ("-i".toList ++ ' ' :: span_text y' d' h' m' s')
      = (some "-i".toList, span_text y' d' h' m' s') := strtok_flag _ _ (by decide) (by decide)
    rw [e]
    unfold get_task_time
    simp only [strtok_some, hr', strcmp_tok, decide_True, result.ok_bind, if_true, a1.2,
      result.pure_eq, hi, a2.1]
/-! ## Decimal numbers -/

theorem digitChar_isdigit (k : Nat) (h : k < 10) :
    isdigit (Nat.digitChar k) = true ∧ (Nat.digitChar k).toNat - '0'.toNat = k := by
  interval_cases k <;> decide

theorem digits_value_append (s t : List Char) (hs : ∀ c ∈ s, isdigit c = true) :
    ∀ acc, digits_value acc (s ++ t) = digits_value (digits_value acc s) t := by
  induction s with
  | nil => intro acc; rfl
  | cons c s ih =>
    intro acc
    have hc := hs c (List.mem_cons_self _ _)
    simp only [List.cons_append, digits_value, hc, if_true]
    exact ih (fun x hx => hs x (List.mem_cons_of_mem _ hx)) _

theorem toDigitsCore_spec : ∀ (fuel n : Nat) (ds : List Char), n < fuel →
    ∃ s, Nat.toDigitsCore 10 fuel n ds = s ++ ds ∧ s ≠ [] ∧ (∀ c ∈ s, isdigit c = true) ∧
      ∀ acc, digits_value acc s = acc * 10 ^ s.length + n := by
  intro fuel
  induction fuel with
  | zero => intro n ds h; omega
  | succ fuel ih =>
    intro n ds h
    have hd := digitChar_isdigit (n % 10) (Nat.mod_lt _ (by decide))
    by_cases h0 : n / 10 = 0
    · refine ⟨[Nat.digitChar (n % 10)], ?_, by simp, ?_, ?_⟩
      · simp [Nat.toDigitsCore, h0]
      · intro c hc
        simp only [List.mem_singleton] at hc
        rw [hc]; exact hd.1
      · intro acc
        simp only [digits_value, hd.1, if_true, hd.2, List.length_singleton, pow_one]
        omega
    · obtain ⟨s, hs, _, hdig, hval⟩ := ih (n / 10) (Nat.digitChar (n % 10) :: ds) (by omega)
      refine ⟨s ++ [Nat.digitChar (n % 10)], ?_, by simp, ?_, ?_⟩
      · simp [Nat.toDigitsCore, h0, hs]
      · intro c hc
        simp only [List.mem_append, List.mem_singleton] at hc
        rcases hc with hc | hc
        · exact hdig c hc
        · rw [hc]; exact hd.1
      · intro acc
        rw [digits_value_append s _ hdig, hval]
        simp only [digits_value, hd.1, if_true, hd.2, List.length_append, List.length_singleton,
          pow_succ]
        have := Nat.div_add_mod n 10
        nlinarith [this]

/-- The decimal text of a natural number is a number in the sense of
`is_number`, and its value is the number. -/
theorem decimal_is_number (n : Nat) :
    is_number (Nat.toDigits 10 n) ∧ digits_value 0 (Nat.toDigits 10 n) = n := by
  obtain ⟨s, hs, hne, hdig, hval⟩ := toDigitsCore_spec (n + 1) n [] (by omega)
  have e : Nat.toDigits 10 n = s := by
    simp only [Nat.toDigits, hs, List.append_nil]
  rw [e]
  exact ⟨⟨hne, hdig⟩, by simpa using hval 0⟩

/-- The decimal text of a natural number, as `printf("%d")` or a user writes
it. -/
theorem decimal_value (n : Nat) : digits_value 0 (Nat.toDigits 10 n) = n :=
  (decimal_is_number n).2

/-- C5: for all natural numbers `Y, D, H, M, S` (written in decimal) whose span
`Y*365*24*3600 + D*24*3600 + H*3600 + M*60 + S` fits a `long`, `get_task_time`
on the time spec `-r Y-D-H-M-S` returns `is_absolute = 0` (relative) with
`task_execution_time` equal to that span and `interval_time = 0`; and with
` -i Y'-D'-H'-M'-S'` appended it returns the same `task_execution_time` and
`interval_time` equal to the span of `Y', D', H', M', S'`. -/
theorem get_task_time_relative (mktime : tm_t → Int) (Y D H M S Y' D' H' M' S' : Nat)
    (hfit : span_seconds Y D H M S ≤ LONG_MAX) (hfit' : span_seconds Y' D' H' M' S' ≤ LONG_MAX) :
    get_task_time mktime ("-r ".toList ++ span_text (Nat.toDigits 10 Y) (Nat.toDigits 10 D)
        (Nat.toDigits 10 H) (Nat.toDigits 10 M) (Nat.toDigits 10 S)) =
      .ok { is_absolute := 0, task_execution_time := span_seconds Y D H M S,
            interval_time := 0 } ∧
    get_task_time mktime ("-r ".toList ++ span_text (Nat.toDigits 10 Y) (Nat.toDigits 10 D)
        (Nat.toDigits 10 H) (Nat.toDigits 10 M) (Nat.toDigits 10 S) ++ " -i ".toList ++
        span_text (Nat.toDigits 10 Y') (Nat.toDigits 10 D') (Nat.toDigits 10 H')
          (Nat.toDigits 10 M') (Nat.toDigits 10 S')) =
      .ok { is_absolute := 0, task_execution_time := span_seconds Y D H M S,
            interval_time := span_seconds Y' D' H' M' S' } := by
  have h := get_task_time_relative_digits mktime (Nat.toDigits 10 Y) (Nat.toDigits 10 D)
    (Nat.toDigits 10 H) (Nat.toDigits 10 M) (Nat.toDigits 10 S) (Nat.toDigits 10 Y')
    (Nat.toDigits 10 D') (Nat.toDigits 10 H') (Nat.toDigits 10 M') (Nat.toDigits 10 S')
    (decimal_is_number Y).1 (decimal_is_number D).1 (decimal_is_number H).1
    (decimal_is_number M).1 (decimal_is_number S).1 (decimal_is_number Y').1
    (decimal_is_number D').1 (decimal_is_number H').1 (decimal_is_number M').1
    (decimal_is_number S').1
  simp only [decimal_value] at h
  exact h hfit hfit'

/-- C5, witness: `-r 0-0-0-1-1` is 61 seconds from now, and `-i 0-0-0-0-5` adds
an interval of 5 seconds. -/
theorem get_task_time_relative_witness :
    get_task_time (fun _ => 0) "-r 0-0-0-1-1".toList = .ok ⟨0, 61, 0⟩ ∧
    get_task_time (fun _ => 0) "-r 0-0-0-1-1 -i 0-0-0-0-5".toList = .ok ⟨0, 61, 5⟩ :=
  get_task_time_relative (fun _ => 0) 0 0 0 1 1 0 0 0 0 5 (by decide) (by decide)

/-! ## Round trip of the command of a task -/

theorem add_payload_count (tokens : List (List Char)) (h : ∀ t ∈ tokens, t ≠ [] ∧ ' ' ∉ t) :
    (add_payload tokens).count ' ' = tokens.length := by
  induction tokens with
  | nil => rfl
  | cons t ts ih =>
    have ht := (h t (List.mem_cons_self _ _)).2
    have := ih (fun x hx => h x (List.mem_cons_of_mem _ hx))
    simp only [add_payload, List.count_append, List.count_cons_self, List.length_cons, this,
      List.count_eq_zero_of_not_mem ht]
    omega

theorem add_payload_length (tokens : List (List Char)) :
    tokens.length ≤ (add_payload tokens).length := by
  induction tokens with
  | nil => simp [add_payload]
  | cons t ts ih => simp only [add_payload, List.length_append, List.length_cons]; omega

theorem strtok_add_payload (t : List Char) (ts : List (List Char)) (h : t ≠ [] ∧ ' ' ∉ t) :
    strtok none " ".toList (add_payload (t :: ts)) = (some t, add_payload ts) := by
  refine strtok_token _ t _ ' ' h.1 ?_ (by decide)
  intro x hx hmem
  have : x = ' ' := by simpa using hmem
  exact h.2 (this ▸ hx)

theorem argv_loop_add_payload (tokens : List (List Char)) :
    ∀ (fuel argc : Nat) (argv : List (List Char)) (counter : Nat),
      (∀ t ∈ tokens, t ≠ [] ∧ ' ' ∉ t) → tokens.length ≤ fuel →
      counter + tokens.length < argc →
      argv_loop fuel argc argv counter (strtok none " ".toList (add_payload tokens)).1
        (strtok none " ".toList (add_payload tokens)).2 = .ok (argv ++ tokens) := by
  induction tokens with
  | nil =>
    intro fuel argc argv counter _ _ hc
    simp only [add_payload, strtok_nil, List.append_nil]
    cases fuel <;> simp only [argv_loop] <;> rw [if_pos (by simpa using hc)]
  | cons t ts ih =>
    intro fuel argc argv counter h hf hc
    rw [strtok_add_payload t ts (h t (List.mem_cons_self _ _))]
    cases fuel with
    | zero => simp at hf
    | succ fuel =>
      simp only [List.length_cons] at hf hc
      simp only [argv_loop]
      rw [if_pos (by omega)]
      rw [ih fuel argc (argv ++ [t]) (counter + 1) (fun x hx => h x (List.mem_cons_of_mem _ hx))
        (by omega) (by omega)]
      simp

theorem response_task_fold (argv : List (List Char)) (acc : List Char) :
    argv.foldl (fun task a => task ++ a ++ " ".toList) acc = acc ++ add_payload argv := by
  induction argv generalizing acc with
  | nil => simp [add_payload]
  | cons a as ih =>
    rw [List.foldl_cons, ih]
    simp [add_payload]

/-- C10: for a command of one or more non-empty tokens without spaces, sent as
the payload in which each token is followed by one space, `get_argv_for_task`
stores exactly these tokens, in order, as `argv`; and the payload that
`send_task_list` builds from that `argv` is the payload that was sent. -/
theorem argv_round_trip (tokens : List (List Char)) (hne : tokens ≠ [])
    (htok : ∀ t ∈ tokens, t ≠ [] ∧ ' ' ∉ t) :
    get_argv_for_task (add_payload tokens) = .ok tokens ∧
    response_task tokens = add_payload tokens := by
  constructor
  · cases tokens with
    | nil => exact absurd rfl hne
    | cons t ts =>
      have hts : ∀ x ∈ ts, x ≠ [] ∧ ' ' ∉ x := fun x hx => htok x (List.mem_cons_of_mem _ hx)
      unfold get_argv_for_task
      simp only [strtok_some, strtok_add_payload t ts (htok t (List.mem_cons_self _ _))]
      rw [add_payload_count _ htok]
      have hl := add_payload_length ts
      have := argv_loop_add_payload ts (add_payload (t :: ts)).length (1 + (t :: ts).length) [t] 1
        hts (by simp only [add_payload, List.length_append, List.length_cons]; omega)
        (by simp only [List.length_cons]; omega)
      simpa using this
  · simpa [response_task] using response_task_fold tokens []

/-- C10, witness: the command `/bin/touch /tmp/b`. -/
theorem argv_round_trip_witness :
    get_argv_for_task "/bin/touch /tmp/b ".toList = .ok ["/bin/touch".toList, "/tmp/b".toList] ∧
    response_task ["/bin/touch".toList, "/tmp/b".toList] = "/bin/touch /tmp/b ".toList :=
  argv_round_trip ["/bin/touch".toList, "/tmp/b".toList] (by decide) (by decide)
/-! ## Lists in the heap -/

theorem is_list_nil (heap : Nat → Option node_t) (p : Option Nat) :
    is_list heap p [] ↔ p = none := Iff.rfl

theorem is_list_cons (heap : Nat → Option node_t) (p : Option Nat) (a : Nat) (t : task_t)
    (l : List (Nat × task_t)) :
    is_list heap p ((a, t) :: l) ↔
      p = some a ∧ ∃ next, heap a = some ⟨t, next⟩ ∧ is_list heap next l := Iff.rfl

theorem is_list_none (heap : Nat → Option node_t) (l : List (Nat × task_t))
    (h : is_list heap none l) : l = [] := by
  cases l with
  | nil => rfl
  | cons x l => obtain ⟨a, t⟩ := x; exact absurd h.1 (by simp)

/-- From one pointer the heap holds at most one list. -/
theorem is_list_unique (heap : Nat → Option node_t) (l₁ : List (Nat × task_t)) :
    ∀ (p : Option Nat) (l₂ : List (Nat × task_t)),
      is_list heap p l₁ → is_list heap p l₂ → l₁ = l₂ := by
  induction l₁ with
  | nil =>
    intro p l₂ h₁ h₂
    rw [is_list_nil] at h₁; subst h₁
    exact (is_list_none heap l₂ h₂).symm
  | cons x l₁ ih =>
    intro p l₂ h₁ h₂
    obtain ⟨a, t⟩ := x
    obtain ⟨hp, nx, hn, hl⟩ := h₁
    subst hp
    cases l₂ with
    | nil => exact absurd h₂ (by simp [is_list])
    | cons y l₂ =>
      obtain ⟨b, u⟩ := y
      obtain ⟨hp, nx', hn', hl'⟩ := h₂
      have hab : a = b := by simpa using hp
      subst hab
      rw [hn] at hn'
      have e : t = u ∧ nx = nx' := by simpa [node_t.mk.injEq] using hn'
      obtain ⟨rfl, rfl⟩ := e
      rw [ih nx l₂ hl hl']

/-- The list from a node that occurs in a list is a suffix of that list. -/
theorem is_list_suffix (heap : Nat → Option node_t) (l : List (Nat × task_t)) :
    ∀ (p : Option Nat) (a : Nat), is_list heap p l → a ∈ addresses l →
      ∃ l₁ l₂, l = l₁ ++ l₂ ∧ l₂ ≠ [] ∧ is_list heap (some a) l₂ := by
  induction l with
  | nil => intro p a _ ha; simp [addresses] at ha
  | cons x l ih =>
    intro p a h ha
    obtain ⟨b, u⟩ := x
    by_cases hab : a = b
    · subst hab
      exact ⟨[], (a, u) :: l, rfl, by simp, ⟨rfl, h.2⟩⟩
    · obtain ⟨_, nx, _, hl⟩ := h
      have ha' : a ∈ addresses l := by
        simp only [addresses, List.map_cons, List.mem_cons] at ha
        rcases ha with ha | ha
        · exact absurd ha hab
        · exact ha
      obtain ⟨l₁, l₂, e, hne, h₂⟩ := ih nx a hl ha'
      exact ⟨(b, u) :: l₁, l₂, by simp [e], hne, h₂⟩

/-- The nodes of a list are at pairwise different addresses. -/
theorem is_list_nodup (heap : Nat → Option node_t) (l : List (Nat × task_t)) :
    ∀ (p : Option Nat), is_list heap p l → (addresses l).Nodup := by
  induction l with
  | nil => intro _ _; simp [addresses]
  | cons x l ih =>
    intro p h
    obtain ⟨a, t⟩ := x
    have h' := h
    obtain ⟨hp, nx, hn, hl⟩ := h'
    simp only [addresses, List.map_cons, List.nodup_cons]
    refine ⟨?_, ih nx hl⟩
    intro ha
    obtain ⟨l₁, l₂, e, _, h₂⟩ := is_list_suffix heap l nx a hl ha
    have h₃ : is_list heap (some a) ((a, t) :: l) := ⟨rfl, nx, hn, hl⟩
    have := is_list_unique heap _ (some a) _ h₂ h₃
    have hlen : l₂.length = l.length + 1 := by rw [this]; simp
    have : l.length = l₁.length + l₂.length := by rw [e]; simp
    omega

/-- A store outside the list does not change the list. -/
theorem is_list_frame (heap : Nat → Option node_t) (a : Nat) (v : Option node_t)
    (l : List (Nat × task_t)) :
    ∀ (p : Option Nat), is_list heap p l → a ∉ addresses l →
      is_list (Function.update heap a v) p l := by
  induction l with
  | nil => intro p h _; exact h
  | cons x l ih =>
    intro p h ha
    obtain ⟨b, u⟩ := x
    obtain ⟨hp, nx, hn, hl⟩ := h
    simp only [addresses, List.map_cons, List.mem_cons, not_or] at ha
    refine ⟨hp, nx, ?_, ih nx hl ha.2⟩
    rw [Function.update_noteq (Ne.symm ha.1)]
    exact hn

/-- Two heaps that agree on the addresses of a list hold the same list. -/
theorem is_list_congr (heap heap' : Nat → Option node_t) (l : List (Nat × task_t)) :
    ∀ (p : Option Nat), is_list heap p l → (∀ a ∈ addresses l, heap' a = heap a) →
      is_list heap' p l := by
  induction l with
  | nil => intro p h _; exact h
  | cons x l ih =>
    intro p h ha
    obtain ⟨b, u⟩ := x
    obtain ⟨hp, nx, hn, hl⟩ := h
    refine ⟨hp, nx, ?_, ih nx hl (fun a h => ha a ?_)⟩
    · rw [ha b (by simp [addresses])]; exact hn
    · simp only [addresses, List.map_cons, List.mem_cons]; exact Or.inr h

theorem is_list_allocated (heap : Nat → Option node_t) (l : List (Nat × task_t)) :
    ∀ (p : Option Nat), is_list heap p l → ∀ a ∈ addresses l, heap a ≠ none := by
  induction l with
  | nil => intro p _ a ha; simp [addresses] at ha
  | cons x l ih =>
    intro p h a ha
    obtain ⟨b, u⟩ := x
    obtain ⟨_, nx, hn, hl⟩ := h
    simp only [addresses, List.map_cons, List.mem_cons] at ha
    rcases ha with rfl | ha
    · rw [hn]; simp
    · exact ih nx hl a ha
theorem wrap_int_eq (x : Int) (h1 : 0 ≤ x) (h2 : x < 2 ^ 31) : wrap_int x = x := by
  unfold wrap_int; omega

theorem getLast?_mem_addresses (l : List (Nat × task_t)) (tl : Nat) (t : task_t)
    (h : l.getLast? = some (tl, t)) : tl ∈ addresses l := by
  have := List.mem_of_getLast?_eq_some h
  simp only [addresses, List.mem_map]
  exact ⟨(tl, t), this, rfl⟩

/-- Linking a new node behind the last node of a list appends it to the list. -/
theorem is_list_snoc (heap : Nat → Option node_t) (new : Nat) (t : task_t)
    (l : List (Nat × task_t)) :
    ∀ (p : Option Nat) (tl : Nat) (tlast : task_t), is_list heap p l →
      l.getLast? = some (tl, tlast) → new ∉ addresses l →
      heap tl = some ⟨tlast, none⟩ ∧
      is_list (Function.update (Function.update heap new (some ⟨t, none⟩)) tl
        (some ⟨tlast, some new⟩)) p (l ++ [(new, t)]) := by
  induction l with
  | nil => intro p tl tlast _ h; simp at h
  | cons x l ih =>
    intro p tl tlast h hlast hnew
    obtain ⟨a, u⟩ := x
    have hnd := is_list_nodup heap _ p h
    obtain ⟨hp, nx, hn, hl⟩ := h
    simp only [addresses, List.map_cons, List.mem_cons, not_or] at hnew
    cases l with
    | nil =>
      simp only [List.getLast?_singleton, Option.some.injEq, Prod.mk.injEq] at hlast
      obtain ⟨rfl, rfl⟩ := hlast
      have hnx : nx = none := hl
      subst hnx
      refine ⟨hn, hp, some new, by simp, rfl, none, ?_, rfl⟩
      rw [Function.update_noteq hnew.1, Function.update_same]
    | cons y l =>
      have hlast' : (y :: l).getLast? = some (tl, tlast) := by
        rw [List.getLast?_cons_cons] at hlast; exact hlast
      obtain ⟨htl, hrec⟩ := ih nx tl tlast hl hlast' hnew.2
      have hmem := getLast?_mem_addresses _ _ _ hlast'
      simp only [addresses, List.map_cons, List.nodup_cons] at hnd
      have hatl : a ≠ tl := by
        intro e; subst e; exact hnd.1 hmem
      refine ⟨htl, hp, nx, ?_, hrec⟩
      rw [Function.update_noteq hatl, Function.update_noteq (Ne.symm hnew.1)]
      exact hn

theorem well_formed_nil_iff (σ : server_t) (l : List (Nat × task_t)) (h : well_formed σ l) :
    (σ.ll.head = none ↔ l = []) ∧ (σ.ll.tail = none ↔ l = []) := by
  obtain ⟨h1, h2⟩ := h
  cases l with
  | nil =>
    have h3 : σ.ll.head = none := h1
    simp [h2, h3]
  | cons x l =>
    obtain ⟨a, t⟩ := x
    have : σ.ll.head = some a := h1.1
    have hne : (((a, t) :: l).getLast?.map Prod.fst) ≠ none := by
      rw [List.getLast?_eq_getLast _ (by simp)]; simp
    simp [this, h2, hne]

theorem well_formed_consistent (σ : server_t) (l : List (Nat × task_t)) (h : well_formed σ l) :
    ¬((σ.ll.head = none ∧ σ.ll.tail ≠ none) ∨ (σ.ll.head ≠ none ∧ σ.ll.tail = none)) := by
  obtain ⟨h1, h2⟩ := well_formed_nil_iff σ l h
  rintro (⟨a, b⟩ | ⟨a, b⟩)
  · exact b (h2.2 (h1.1 a))
  · exact a (h1.2 (h2.1 b))

theorem fresh_not_mem (σ : server_t) (l : List (Nat × task_t)) (p : Option Nat)
    (h : is_list σ.heap p l) (hf : fresh σ) : ∀ a, σ.brk ≤ a → a ∉ addresses l := by
  intro a ha hmem
  exact is_list_allocated σ.heap l p h a hmem (hf a ha)

/-- What `ll_push_back` does to a well-formed store: it returns 0 and appends
the task, in a new node at the address `brk`. -/
theorem ll_push_back_spec (σ : server_t) (l : List (Nat × task_t)) (t : task_t)
    (hwf : well_formed σ l) (hf : fresh σ) :
    ∃ heap ll, ll_push_back σ t = .ok (0, { σ with heap := heap, brk := σ.brk + 1, ll := ll }) ∧
      is_list heap ll.head (l ++ [(σ.brk, t)]) ∧ ll.tail = some σ.brk ∧
      (∀ a, σ.brk + 1 ≤ a → heap a = none) := by
  have hcons := well_formed_consistent σ l hwf
  have hnil := well_formed_nil_iff σ l hwf
  have hnew := fresh_not_mem σ l _ hwf.1 hf σ.brk le_rfl
  unfold ll_push_back
  rw [if_neg hcons]
  by_cases hh : σ.ll.head = none
  · have hl : l = [] := hnil.1.1 hh
    subst hl
    simp only [hh, if_true]
    refine ⟨_, _, rfl, ?_, rfl, ?_⟩
    · exact ⟨rfl, none, by simp, rfl⟩
    · intro a ha
      rw [Function.update_noteq (by omega)]
      exact hf a (by omega)
  · have hl : l ≠ [] := fun e => hh (hnil.1.2 e)
    obtain ⟨⟨tl, tlast⟩, hlast⟩ : ∃ x, l.getLast? = some x := by
      rw [List.getLast?_eq_getLast _ hl]; exact ⟨_, rfl⟩
    have htail : σ.ll.tail = some tl := by rw [hwf.2, hlast]; rfl
    obtain ⟨htl, hlist⟩ := is_list_snoc σ.heap σ.brk t l _ tl tlast hwf.1 hlast hnew
    have hmem := getLast?_mem_addresses _ _ _ hlast
    have hne : tl ≠ σ.brk := by
      intro e; exact hnew (e ▸ hmem)
    simp only [if_neg hh, htail, Function.update_noteq hne, htl]
    refine ⟨_, _, rfl, hlist, rfl, ?_⟩
    intro a ha
    have hatl : a ≠ tl := by
      intro e
      have := hf a (by omega)
      rw [e, htl] at this; cases this
    rw [Function.update_noteq hatl, Function.update_noteq (by omega)]
    exact hf a (by omega)

theorem ll_size_loop_eq (heap : Nat → Option node_t) (l : List (Nat × task_t)) :
    ∀ (p : Option Nat) (fuel : Nat) (counter : Int), is_list heap p l → l.length < fuel →
      0 ≤ counter → counter + l.length < 2 ^ 31 →
      ll_size_loop fuel heap p counter = .ok (counter + l.length) := by
  induction l with
  | nil =>
    intro p fuel counter h _ _ _
    have : p = none := h
    subst this
    cases fuel <;> simp [ll_size_loop]
  | cons x l ih =>
    intro p fuel counter h hf h0 hb
    obtain ⟨a, t⟩ := x
    obtain ⟨hp, nx, hn, hl⟩ := h
    subst hp
    simp only [List.length_cons, Nat.cast_add, Nat.cast_one] at hb
    cases fuel with
    | zero => simp at hf
    | succ fuel =>
      simp only [List.length_cons] at hf
      simp only [ll_size_loop, hn]
      rw [wrap_int_eq _ (by omega) (by omega), ih nx fuel (counter + 1) hl (by omega) (by omega)
        (by omega)]
      simp only [List.length_cons, Nat.cast_add, Nat.cast_one]
      congr 1; omega

/-- On a well-formed store `ll_size` returns the number of tasks. -/
theorem ll_size_eq (σ : server_t) (l : List (Nat × task_t)) (fuel : Nat)
    (hwf : well_formed σ l) (hfuel : l.length < fuel) (hlen : l.length < 2 ^ 31) :
    ll_size fuel σ = .ok l.length := by
  unfold ll_size
  rw [if_neg (well_formed_consistent σ l hwf)]
  have := ll_size_loop_eq σ.heap l _ fuel 0 hwf.1 hfuel le_rfl (by
    have : ((l.length : Nat) : Int) < 2 ^ 31 := by exact_mod_cast hlen
    omega)
  simpa using this
theorem send_task_list_loop_eq (heap : Nat → Option node_t) (l : List (Nat × task_t)) :
    ∀ (p : Option Nat) (fuel : Nat) (response : response_t) (sent : List response_t),
      is_list heap p l → l.length < fuel →
      send_task_list_loop fuel heap p response sent =
        .ok (((listed l).getLast?).getD response, sent ++ listed l) := by
  induction l with
  | nil =>
    intro p fuel response sent h _
    have : p = none := h
    subst this
    cases fuel <;> simp [send_task_list_loop, listed]
  | cons x l ih =>
    intro p fuel response sent h hf
    obtain ⟨a, t⟩ := x
    obtain ⟨hp, nx, hn, hl⟩ := h
    subst hp
    cases fuel with
    | zero => simp at hf
    | succ fuel =>
      simp only [List.length_cons] at hf
      simp only [send_task_list_loop, hn]
      by_cases hd : t.is_done = 0
      · rw [if_pos hd, ih nx fuel _ _ hl (by omega)]
        have e : listed ((a, t) :: l) = response_of t :: listed l := by
          simp [listed, List.filter_cons, hd]
        rw [e]
        cases hl' : listed l with
        | nil => simp [response_of]
        | cons r rs =>
          simp [response_of, List.getLast?_cons_cons,
            List.getLast?_eq_getLast (r :: rs) (by simp)]
      · rw [if_neg hd, ih nx fuel _ _ hl (by omega)]
        have e : listed ((a, t) :: l) = listed l := by
          simp [listed, List.filter_cons, hd]
        rw [e]

/-- What `send_task_list` sends for a well-formed store: the responses of the
tasks that are not done, then the last of these (or the initial content of the
local variable, if there is none) with an empty payload. -/
theorem send_task_list_eq (σ : server_t) (l : List (Nat × task_t)) (fuel : Nat)
    (response : response_t) (hwf : well_formed σ l) (hfuel : l.length < fuel) :
    send_task_list fuel σ response =
      .ok (listed l ++ [{ ((listed l).getLast?).getD response with task := [] }]) := by
  unfold send_task_list
  rw [send_task_list_loop_eq σ.heap l _ fuel response [] hwf.1 hfuel]
  simp

theorem is_list_update_task (heap : Nat → Option node_t) (a : Nat) (f : task_t → task_t)
    (n : node_t) (hn : heap a = some n) (l : List (Nat × task_t)) :
    ∀ (p : Option Nat), is_list heap p l →
      is_list (Function.update heap a (some { n with timer_task := f n.timer_task })) p
        (l.map (fun x => if x.1 = a then (x.1, f x.2) else x)) := by
  induction l with
  | nil => intro p h; exact h
  | cons x l ih =>
    intro p h
    obtain ⟨b, u⟩ := x
    obtain ⟨hp, nx, hb, hl⟩ := h
    by_cases hba : b = a
    · subst hba
      rw [hb] at hn
      have hn' : n = ⟨u, nx⟩ := by simpa using hn.symm
      subst hn'
      simp only [List.map_cons, if_true]
      exact ⟨hp, nx, by simp, ih nx hl⟩
    · simp only [List.map_cons, if_neg hba]
      exact ⟨hp, nx, by rw [Function.update_noteq hba]; exact hb, ih nx hl⟩

/-- What `timer_notification_thread` does for a task of a well-formed store. -/
theorem timer_notification_thread_spec (σ : server_t) (l : List (Nat × task_t)) (a : Nat)
    (hwf : well_formed σ l) (ha : a ∈ addresses l) :
    ∃ heap spawned, timer_notification_thread σ a =
        .ok { σ with heap := heap, spawned := spawned } ∧
      well_formed { σ with heap := heap, spawned := spawned }
        (l.map (fun x => if x.1 = a then (x.1, fired x.2) else x)) ∧
      (∀ b, σ.heap b = none → heap b = none) := by
  have hal := is_list_allocated σ.heap l _ hwf.1 a ha
  obtain ⟨n, hn⟩ : ∃ n, σ.heap a = some n := by
    cases h : σ.heap a with
    | none => exact absurd h hal
    | some n => exact ⟨n, rfl⟩
  unfold timer_notification_thread
  simp only [hn]
  refine ⟨_, _, rfl, ⟨?_, ?_⟩, ?_⟩
  · exact is_list_update_task σ.heap a fired n hn l _ hwf.1
  · have : σ.ll.tail = l.getLast?.map Prod.fst := hwf.2
    simp only [this, List.getLast?_map, Option.map_map]
    congr 1
    funext x
    by_cases hx : x.1 = a <;> simp [hx]
  · intro b hb
    have : b ≠ a := by
      intro e; rw [e, hn] at hb; cases hb
    rw [Function.update_noteq this]; exact hb
/-- The loop of `ll_remove`, entered at a node `c` of a list whose later tasks
have pairwise different ids: the later task with id `index`, if there is one,
is unlinked, freed, and its timer deleted; `tail` follows. -/
theorem ll_remove_loop_spec : ∀ (fuel : Nat) (σ : server_t) (c : Nat) (tc : task_t)
    (l : List (Nat × task_t)) (index : Int),
    is_list σ.heap (some c) ((c, tc) :: l) →
    σ.ll.tail = ((c, tc) :: l).getLast?.map Prod.fst →
    (task_ids l).Nodup →
    l.length < fuel →
    ∃ heap tail timers,
      ll_remove_loop fuel σ c index =
        .ok { σ with heap := heap, ll := ⟨σ.ll.head, tail⟩, timers := timers } ∧
      is_list heap (some c) ((c, tc) :: l.filter (fun x => decide (x.2.task_id ≠ index))) ∧
      tail = ((c, tc) :: l.filter (fun x => decide (x.2.task_id ≠ index))).getLast?.map Prod.fst ∧
      (∀ a, a ∉ addresses ((c, tc) :: l) → heap a = σ.heap a) ∧
      (∀ x ∈ l, x.2.task_id = index → timers x.2.timer_id = none) ∧
      (∀ k, (∀ x ∈ l, x.2.task_id = index → x.2.timer_id ≠ k) → timers k = σ.timers k) := by
  intro fuel
  induction fuel with
  | zero => intro σ c tc l index _ _ _ hf; simp at hf
  | succ fuel ih =>
    intro σ c tc l index hl htail hnd hf
    have hadr := is_list_nodup _ _ _ hl
    obtain ⟨_, nx, hc, hrest⟩ := hl
    cases l with
    | nil =>
      have hnx : nx = none := hrest
      subst hnx
      refine ⟨σ.heap, σ.ll.tail, σ.timers, ?_, ?_, ?_, ?_, ?_, ?_⟩
      · simp only [ll_remove_loop, hc]
      · exact ⟨rfl, none, hc, rfl⟩
      · simpa using htail
      · intro a _; rfl
      · intro x hx; simp at hx
      · intro k _; rfl
    | cons y l' =>
      obtain ⟨b, tb⟩ := y
      obtain ⟨hnxb, nx2, hb, hrest2⟩ := hrest
      subst hnxb
      simp only [addresses, List.map_cons, List.nodup_cons, List.mem_cons, not_or] at hadr
      obtain ⟨⟨hcb, hcl'⟩, hbl', hl'nd⟩ := hadr
      simp only [task_ids, List.map_cons, List.nodup_cons] at hnd
      obtain ⟨hbid, hnd'⟩ := hnd
      simp only [List.length_cons] at hf
      by_cases hid : tb.task_id = index
      · -- the node after `current` is removed
        have hnone : ∀ x ∈ l', x.2.task_id ≠ index := by
          intro x hx e
          apply hbid
          simp only [List.mem_map]
          exact ⟨x, hx, by rw [e, hid]⟩
        have hfilter : l'.filter (fun x => decide (x.2.task_id ≠ index)) = l' := by
          rw [List.filter_eq_self]
          intro x hx; simpa using hnone x hx
        cases l' with
        | nil =>
          have hnx2 : nx2 = none := hrest2
          subst hnx2
          refine ⟨Function.update (Function.update σ.heap b none) c (some ⟨tc, none⟩), some c,
            Function.update σ.timers tb.timer_id none, ?_, ?_, ?_, ?_, ?_, ?_⟩
          · simp only [ll_remove_loop, hc, hb, if_pos hid, timer_delete, free_node]
          · simp only [List.filter_cons, hid, ne_eq, not_true_eq_false, decide_False,
              List.filter_nil]
            exact ⟨rfl, none, by simp, rfl⟩
          · simp [List.filter_cons, hid]
          · intro a ha
            simp only [addresses, List.map_cons, List.map_nil, List.mem_cons, List.mem_nil_iff,
              or_false, not_or] at ha
            rw [Function.update_noteq ha.1, Function.update_noteq ha.2]
          · intro x hx _
            simp only [List.mem_singleton] at hx
            subst hx
            simp
          · intro k hk
            have := hk (b, tb) (by simp) hid
            rw [Function.update_noteq (Ne.symm this)]
        | cons z l'' =>
          obtain ⟨d, td⟩ := z
          have hrest2' := hrest2
          obtain ⟨hnx2, nx3, hd, hrest3⟩ := hrest2'
          subst hnx2
          simp only [List.map_cons, List.mem_cons, not_or] at hcl' hbl'
          -- the state after the removal
          have hlist1 : is_list (Function.update (Function.update σ.heap b none) c
              (some ⟨tc, some d⟩)) (some d) ((d, td) :: l'') := by
            apply is_list_frame
            · apply is_list_frame
              · exact hrest2
              · simp only [addresses, List.map_cons, List.mem_cons, not_or]; exact hbl'
            · simp only [addresses, List.map_cons, List.mem_cons, not_or]; exact hcl'
          have htail1 : σ.ll.tail = ((d, td) :: l'').getLast?.map Prod.fst := by
            rw [htail, List.getLast?_cons_cons, List.getLast?_cons_cons]
          have hnd1 : (task_ids l'').Nodup := by
            simp only [List.map_cons, List.nodup_cons] at hnd'
            exact hnd'.2
          obtain ⟨heap', tail', timers', hrun, hlist', htail', hframe', _, htimers'⟩ :=
            ih { σ with timers := Function.update σ.timers tb.timer_id none,
                        heap := Function.update (Function.update σ.heap b none) c
                          (some ⟨tc, some d⟩) } d td l'' index hlist1 htail1 hnd1
              (by simp only [List.length_cons] at hf; omega)
          have hdid : td.task_id ≠ index := hnone (d, td) (by simp)
          have hfilter' : ((b, tb) :: (d, td) :: l'').filter (fun x => decide (x.2.task_id ≠ index))
              = (d, td) :: l''.filter (fun x => decide (x.2.task_id ≠ index)) := by
            simp [List.filter_cons, hid, hdid]
          have hnone'' : ∀ x ∈ l'', x.2.task_id ≠ index :=
            fun x hx => hnone x (List.mem_cons_of_mem _ hx)
          have htimers_all : ∀ k, timers' k = Function.update σ.timers tb.timer_id none k :=
            fun k => htimers' k (fun x hx e => absurd e (hnone'' x hx))
          refine ⟨heap', tail', timers', ?_, ?_, ?_, ?_, ?_, ?_⟩
          · simp only [ll_remove_loop, hc, hb, if_pos hid, timer_delete, free_node]
            exact hrun
          · rw [hfilter']
            refine ⟨rfl, some d, ?_, hlist'⟩
            rw [hframe' c (by
              simp only [addresses, List.map_cons, List.mem_cons, not_or]; exact hcl')]
            simp
          · rw [hfilter', htail', List.getLast?_cons_cons]
          · intro a ha
            simp only [addresses, List.map_cons, List.mem_cons, not_or] at ha
            rw [hframe' a (by
              simp only [addresses, List.map_cons, List.mem_cons, not_or]; exact ha.2.2)]
            simp only
            rw [Function.update_noteq ha.1, Function.update_noteq ha.2.1]
          · intro x hx hxid
            simp only [List.mem_cons] at hx
            rcases hx with rfl | rfl | hx
            · rw [htimers_all]; simp
            · exact absurd hxid hdid
            · exact absurd hxid (hnone'' x hx)
          · intro k hk
            have := hk (b, tb) (by simp) hid
            rw [htimers_all, Function.update_noteq (Ne.symm this)]
      · -- the node after `current` stays
        have htail1 : σ.ll.tail = ((b, tb) :: l').getLast?.map Prod.fst := by
          rw [htail, List.getLast?_cons_cons]
        obtain ⟨heap', tail', timers', hrun, hlist', htail', hframe', htim1, htim2⟩ :=
          ih σ b tb l' index ⟨rfl, nx2, hb, hrest2⟩ htail1 hnd' (by omega)
        have hfilter' : ((b, tb) :: l').filter (fun x => decide (x.2.task_id ≠ index))
            = (b, tb) :: l'.filter (fun x => decide (x.2.task_id ≠ index)) := by
          simp [List.filter_cons, hid]
        refine ⟨heap', tail', timers', ?_, ?_, ?_, ?_, ?_, ?_⟩
        · simp only [ll_remove_loop, hc, hb, if_neg hid]
          exact hrun
        · rw [hfilter']
          refine ⟨rfl, some b, ?_, hlist'⟩
          rw [hframe' c (by
            simp only [addresses, List.map_cons, List.mem_cons, not_or]; exact ⟨hcb, hcl'⟩)]
          exact hc
        · rw [hfilter', htail', List.getLast?_cons_cons]
        · intro a ha
          simp only [addresses, List.map_cons, List.mem_cons, not_or] at ha
          exact hframe' a (by
            simp only [addresses, List.map_cons, List.mem_cons, not_or]; exact ha.2)
        · intro x hx hxid
          simp only [List.mem_cons] at hx
          rcases hx with rfl | hx
          · exact absurd hxid hid
          · exact htim1 x hx hxid
        · intro k hk
          exact htim2 k (fun x hx => hk x (List.mem_cons_of_mem _ hx))
/-- The loop of `ll_remove` changes nothing when no later task has the id. -/
theorem ll_remove_loop_absent (index : Int) (σ : server_t) (l : List (Nat × task_t)) :
    ∀ (fuel : Nat) (c : Nat) (tc : task_t), is_list σ.heap (some c) ((c, tc) :: l) →
      (∀ x ∈ l, x.2.task_id ≠ index) → l.length < fuel →
      ll_remove_loop fuel σ c index = .ok σ := by
  induction l with
  | nil =>
    intro fuel c tc hl _ hf
    obtain ⟨_, nx, hc, hrest⟩ := hl
    have hnx : nx = none := hrest
    subst hnx
    cases fuel with
    | zero => simp at hf
    | succ fuel => simp only [ll_remove_loop, hc]
  | cons y l ih =>
    intro fuel c tc hl hno hf
    obtain ⟨b, tb⟩ := y
    obtain ⟨_, nx, hc, hrest⟩ := hl
    have hrest' := hrest
    obtain ⟨hnx, nx2, hb, _⟩ := hrest'
    subst hnx
    cases fuel with
    | zero => simp at hf
    | succ fuel =>
      simp only [List.length_cons] at hf
      have hid : tb.task_id ≠ index := hno (b, tb) (by simp)
      simp only [ll_remove_loop, hc, hb, if_neg hid]
      exact ih fuel b tb hrest (fun x hx => hno x (List.mem_cons_of_mem _ hx)) (by omega)

/-- What `ll_remove` does to a well-formed store whose task ids are pairwise
different: the task with the id `index` leaves the store, its node is freed and
its timer deleted; the other tasks stay, in their order; a store without that
id is not changed at all. -/
theorem ll_remove_spec (fuel : Nat) (σ : server_t) (l : List (Nat × task_t)) (index : Int)
    (hwf : well_formed σ l) (hnd : (task_ids l).Nodup) (hfuel : l.length < fuel)
    (hlen : l.length < 2 ^ 31) :
    ∃ heap ll timers,
      ll_remove fuel σ index = .ok { σ with heap := heap, ll := ll, timers := timers } ∧
      well_formed { σ with heap := heap, ll := ll, timers := timers }
        (l.filter (fun x => decide (x.2.task_id ≠ index))) ∧
      (∀ a, σ.heap a = none → heap a = none) ∧
      (∀ x ∈ l, x.2.task_id = index → timers x.2.timer_id = none) ∧
      (∀ k, (∀ x ∈ l, x.2.task_id = index → x.2.timer_id ≠ k) → timers k = σ.timers k) ∧
      (index ∉ task_ids l → ll_remove fuel σ index = .ok σ) := by
  have hsize := ll_size_eq σ l fuel hwf hfuel hlen
  have hadr := is_list_nodup _ _ _ hwf.1
  have halloc := is_list_allocated _ _ _ hwf.1
  obtain ⟨hlist, htail⟩ := hwf
  cases l with
  | nil =>
    have h : ll_remove fuel σ index = .ok σ := by
      unfold ll_remove; rw [hsize]; simp
    exact ⟨σ.heap, σ.ll, σ.timers, h, ⟨hlist, htail⟩, fun _ h => h, by simp, fun _ _ => rfl,
      fun _ => h⟩
  | cons x l =>
    obtain ⟨a, t⟩ := x
    have hlist' := hlist
    obtain ⟨hhead, nx, ha, hrest⟩ := hlist'
    have hsz : ¬ (((((a, t) :: l).length : Nat) : Int) < 1) := by
      simp only [List.length_cons, Nat.cast_add, Nat.cast_one]; omega
    simp only [addresses, List.map_cons, List.nodup_cons] at hadr
    simp only [task_ids, List.map_cons, List.nodup_cons] at hnd
    cases l with
    | nil =>
      have hnx : nx = none := hrest
      subst hnx
      have htl : σ.ll.tail = some a := by simpa using htail
      by_cases hid : t.task_id = index
      · refine ⟨Function.update σ.heap a none, ⟨none, none⟩,
          Function.update σ.timers t.timer_id none, ?_, ⟨?_, ?_⟩, ?_, ?_, ?_, ?_⟩
        · unfold ll_remove
          rw [hsize]
          simp only [hsz, if_false, hhead, ha, htl, if_true, if_pos hid, timer_delete, free_node]
        · simp only [List.filter_cons, hid, ne_eq, not_true_eq_false, decide_False,
            List.filter_nil]
          rfl
        · simp [List.filter_cons, hid]
        · intro b hb
          have : b ≠ a := by intro e; rw [e, ha] at hb; cases hb
          rw [Function.update_noteq this]; exact hb
        · intro x hx _
          simp only [List.mem_singleton] at hx
          subst hx; simp
        · intro k hk
          have := hk (a, t) (by simp) hid
          rw [Function.update_noteq (Ne.symm this)]
        · intro hno
          exact absurd hid.symm (by simpa [task_ids] using hno)
      · have h : ll_remove fuel σ index = .ok σ := by
          unfold ll_remove
          rw [hsize]
          simp only [hsz, if_false, hhead, ha, htl, if_true, if_neg hid]
        refine ⟨σ.heap, σ.ll, σ.timers, h, ⟨?_, ?_⟩, fun _ h => h, ?_, fun _ _ => rfl, fun _ => h⟩
        · simp only [List.filter_cons, hid, ne_eq, not_false_eq_true, decide_True, if_true,
            List.filter_nil]
          exact hlist
        · simp only [List.filter_cons, hid, ne_eq, not_false_eq_true, decide_True, if_true,
            List.filter_nil]
          exact htail
        · intro x hx hxid
          simp only [List.mem_singleton] at hx
          subst hx; exact absurd hxid hid
    | cons y l =>
      obtain ⟨b, tb⟩ := y
      obtain ⟨⟨tl, tlast⟩, hlast⟩ : ∃ z, ((b, tb) :: l).getLast? = some z := by
        rw [List.getLast?_eq_getLast _ (by simp)]; exact ⟨_, rfl⟩
      have htl : σ.ll.tail = some tl := by
        rw [htail, List.getLast?_cons_cons, hlast]; rfl
      have hmem := getLast?_mem_addresses _ _ _ hlast
      have hatl : a ≠ tl := by
        intro e; subst e; exact hadr.1 hmem
      have hne : ¬ (σ.ll.head = σ.ll.tail) := by
        rw [hhead, htl]; simpa using hatl
      by_cases hid : t.task_id = index
      · have hnone : ∀ x ∈ (b, tb) :: l, x.2.task_id ≠ index := by
          intro x hx e
          apply hnd.1
          simp only [List.mem_map]
          exact ⟨x, hx, by rw [e, hid]⟩
        have hfilter : ((a, t) :: (b, tb) :: l).filter (fun x => decide (x.2.task_id ≠ index))
            = (b, tb) :: l := by
          rw [List.filter_cons]
          simp only [hid, ne_eq, not_true_eq_false, decide_False, Bool.false_eq_true, if_false]
          rw [List.filter_eq_self]
          intro x hx; simpa using hnone x hx
        refine ⟨Function.update σ.heap a none, ⟨nx, σ.ll.tail⟩,
          Function.update σ.timers t.timer_id none, ?_, ⟨?_, ?_⟩, ?_, ?_, ?_, ?_⟩
        · unfold ll_remove
          rw [hsize]
          simp only [hsz, if_false, hhead, ha, htl, Option.some.injEq, hatl, if_pos hid,
            timer_delete, free_node]
        · rw [hfilter]
          exact is_list_frame _ _ _ _ _ hrest hadr.1
        · rw [hfilter]
          simp only [htail, List.getLast?_cons_cons]
        · intro c hc
          have : c ≠ a := by intro e; rw [e, ha] at hc; cases hc
          rw [Function.update_noteq this]; exact hc
        · intro x hx hxid
          simp only [List.mem_cons] at hx
          rcases hx with rfl | hx
          · simp
          · exact absurd hxid (hnone x (by simpa using hx))
        · intro k hk
          have := hk (a, t) (by simp) hid
          rw [Function.update_noteq (Ne.symm this)]
        · intro hno
          exact absurd hid.symm (by
            simp only [task_ids, List.map_cons, List.mem_cons, not_or] at hno
            exact hno.1)
      · obtain ⟨heap', tail', timers', hrun, hlist', htail', hframe', htim1, htim2⟩ :=
          ll_remove_loop_spec fuel σ a t ((b, tb) :: l) index (hhead ▸ hlist) htail hnd.2
            (by simp only [List.length_cons] at hfuel ⊢; omega)
        have hfilter : ((a, t) :: (b, tb) :: l).filter (fun x => decide (x.2.task_id ≠ index))
            = (a, t) :: ((b, tb) :: l).filter (fun x => decide (x.2.task_id ≠ index)) := by
          rw [List.filter_cons]
          simp [hid]
        have hcode : ll_remove fuel σ index = ll_remove_loop fuel σ a index := by
          unfold ll_remove
          rw [hsize]
          simp only [hsz, if_false, hhead, ha, htl, Option.some.injEq, hatl, if_neg hid]
        refine ⟨heap', ⟨σ.ll.head, tail'⟩, timers', ?_, ⟨?_, ?_⟩, ?_, ?_, ?_, ?_⟩
        · rw [hcode]; exact hrun
        · rw [hfilter]
          simp only [hhead]
          exact hlist'
        · rw [hfilter]; exact htail'
        · intro c hc
          rw [hframe' c (fun hmem => halloc c hmem hc)]
          exact hc
        · intro x hx hxid
          simp only [List.mem_cons] at hx
          rcases hx with rfl | hx
          · exact absurd hxid hid
          · exact htim1 x (by simpa using hx) hxid
        · intro k hk
          exact htim2 k (fun x hx => hk x (List.mem_cons_of_mem _ hx))
        · intro hno
          rw [hcode]
          refine ll_remove_loop_absent index σ _ fuel a t (hhead ▸ hlist) ?_
            (by simp only [List.length_cons] at hfuel ⊢; omega)
          intro x hx e
          apply hno
          simp only [task_ids, List.mem_map]
          exact ⟨x, List.mem_cons_of_mem _ hx, e⟩
/-! ## Properties of the store -/

theorem two_task_store_well_formed :
    well_formed two_task_store [(0, example_task 1 0), (1, example_task 2 1)] :=
  ⟨⟨rfl, some 1, rfl, rfl, none, rfl, rfl⟩, rfl⟩

/-- C3: on a well-formed store whose task ids are pairwise different (and which
has fewer than 2^31 tasks, so that the `int` counter of `ll_size` counts them),
`ll_remove(ll, index)` returns and leaves a well-formed store that holds the
former tasks other than the one with the id `index`, in their former order;
when no task has the id, the state is not changed. -/
theorem ll_remove_removes_exactly (fuel : Nat) (σ : server_t) (l : List (Nat × task_t))
    (index : Int) (hwf : well_formed σ l) (hnd : (task_ids l).Nodup)
    (hfuel : l.length < fuel) (hlen : l.length < 2 ^ 31) :
    ∃ σ', ll_remove fuel σ index = .ok σ' ∧
      well_formed σ' (l.filter (fun x => decide (x.2.task_id ≠ index))) ∧
      (index ∉ task_ids l → σ' = σ) := by
  obtain ⟨heap, ll, timers, hrun, hwf', _, _, _, habs⟩ :=
    ll_remove_spec fuel σ l index hwf hnd hfuel hlen
  refine ⟨_, hrun, hwf', ?_⟩
  intro hno
  have := habs hno
  rw [hrun] at this
  exact result.ok.inj this

/-- C3, witness: removing the id 1 from a store with the ids 1 and 2 leaves the
task with the id 2. -/
theorem ll_remove_removes_exactly_witness :
    ∃ σ', ll_remove 3 two_task_store 1 = .ok σ' ∧
      well_formed σ' [(1, example_task 2 1)] ∧
      ((1 : Int) ∉ task_ids [(0, example_task 1 0), (1, example_task 2 1)] →
        σ' = two_task_store) :=
  ll_remove_removes_exactly 3 two_task_store [(0, example_task 1 0), (1, example_task 2 1)] 1
    two_task_store_well_formed (by decide) (by decide) (by decide)

/-- C9, as the code has it: for a well-formed store of tasks that each have a
command (`argv[0]`), `send_task_list` returns; the last response it sends has
an empty payload and no response before it has; the `task_id` of that last
response is the `task_id` of the response before it, or, when no task is
listed, whatever the local variable held at entry. -/
theorem send_task_list_terminator (fuel : Nat) (σ : server_t) (l : List (Nat × task_t))
    (response : response_t) (hwf : well_formed σ l) (hfuel : l.length < fuel)
    (hargv : ∀ x ∈ l, x.2.argv ≠ []) :
    ∃ sent last, send_task_list fuel σ response = .ok (sent ++ [last]) ∧
      last.task = [] ∧ (∀ r ∈ sent, r.task ≠ []) ∧
      last.task_id = ((sent.getLast?).getD response).task_id := by
  refine ⟨listed l, _, send_task_list_eq σ l fuel response hwf hfuel, rfl, ?_, rfl⟩
  intro r hr
  simp only [listed, List.mem_map, List.mem_filter] at hr
  obtain ⟨x, ⟨hx, _⟩, rfl⟩ := hr
  have hne := hargv x hx
  simp only [response_of, response_task]
  rw [response_task_fold]
  cases hx' : x.2.argv with
  | nil => exact absurd hx' hne
  | cons a as => simp [add_payload]

/-- C9, witness: the store with the ids 1 and 2. -/
theorem send_task_list_terminator_witness :
    ∃ sent last, send_task_list 3 two_task_store ⟨0, [], []⟩ = .ok (sent ++ [last]) ∧
      last.task = [] ∧ (∀ r ∈ sent, r.task ≠ []) ∧
      last.task_id = ((sent.getLast?).getD ⟨0, [], []⟩).task_id :=
  send_task_list_terminator 3 two_task_store [(0, example_task 1 0), (1, example_task 2 1)]
    ⟨0, [], []⟩ two_task_store_well_formed (by decide) (by decide)

/-- C9, counterexample: for the store with the ids 1 and 2 the last response
that `send_task_list` sends, the terminator, has the `task_id` 2, not 0. -/
theorem send_task_list_terminator_id_not_zero :
    send_task_list 3 two_task_store ⟨0, [], []⟩ =
      .ok [⟨1, "-r 0-0-0-0-1".toList, "/bin/true ".toList⟩,
           ⟨2, "-r 0-0-0-0-1".toList, "/bin/true ".toList⟩,
           ⟨2, "-r 0-0-0-0-1".toList, []⟩] := by
  decide
/-! ## Time specs -/

/-- The block `add_span` on five tokens: the arithmetic of `span_long` on the
values that `strtol` returns for them. -/
theorem add_span_tokens (acc : Int) (y d h m s : List Char) (s1 s2 s3 s4 s5 save : List Char)
    (e1 : strtok none "-".toList save = (some y, s1))
    (e2 : strtok none "-".toList s1 = (some d, s2))
    (e3 : strtok none "-".toList s2 = (some h, s3))
    (e4 : strtok none "-".toList s3 = (some m, s4))
    (e5 : strtok none " ".toList s4 = (some s, s5)) :
    add_span acc save =
      .ok (span_long acc (strtol y) (strtol d) (strtol h) (strtol m) (strtol s), s5) := by
  unfold add_span
  simp only [e1, e2, e3, e4, e5, strtol_tok, result.ok_bind, result.pure_eq]
  rfl

theorem add_span_text_any (acc : Int) (y d h m s : List Char)
    (hy : is_number y) (hd : is_number d) (hh : is_number h) (hm : is_number m)
    (hs : is_number s) :
    ∃ v, add_span acc (span_text y d h m s) = .ok (v, []) ∧
      ∀ rest, add_span acc (span_text y d h m s ++ ' ' :: rest) = .ok (v, rest) := by
  have dash : ∀ t, is_number t → ∀ c ∈ t, c ∉ "-".toList :=
    fun t ht => is_number_no_delim t ht '-' (by decide)
  have spc : ∀ t, is_number t → ∀ c ∈ t, c ∉ " ".toList :=
    fun t ht => is_number_no_delim t ht ' ' (by decide)
  have hin : '-' ∈ "-".toList := by decide
  have hsp : ' ' ∈ " ".toList := by decide
  refine ⟨span_long acc (strtol y) (strtol d) (strtol h) (strtol m) (strtol s), ?_, ?_⟩
  · exact add_span_tokens acc y d h m s _ _ _ _ _ _
      (strtok_token _ y _ '-' hy.1 (dash y hy) hin)
      (strtok_token _ d _ '-' hd.1 (dash d hd) hin)
      (strtok_token _ h _ '-' hh.1 (dash h hh) hin)
      (strtok_token _ m _ '-' hm.1 (dash m hm) hin)
      (strtok_last _ s hs.1 (spc s hs))
  · intro rest
    have e : span_text y d h m s ++ ' ' :: rest
        = y ++ '-' :: (d ++ '-' :: (h ++ '-' :: (m ++ '-' :: (s ++ ' ' :: rest)))) := by
      simp [span_text]
    rw [e]
    exact add_span_tokens acc y d h m s _ _ _ _ _ _
      (strtok_token _ y _ '-' hy.1 (dash y hy) hin)
      (strtok_token _ d _ '-' hd.1 (dash d hd) hin)
      (strtok_token _ h _ '-' hh.1 (dash h hh) hin)
      (strtok_token _ m _ '-' hm.1 (dash m hm) hin)
      (strtok_token _ s _ ' ' hs.1 (spc s hs) hsp)

theorem read_tm_text (dd mm yyyy hh mi ss : List Char)
    (hdd : is_number dd) (hmm : is_number mm) (hyyyy : is_number yyyy) (hhh : is_number hh)
    (hmi : is_number mi) (hss : is_number ss) :
    ∃ tm, read_tm (abs_text dd mm yyyy hh mi ss) = .ok (tm, []) ∧
      ∀ rest, read_tm (abs_text dd mm yyyy hh mi ss ++ ' ' :: rest) = .ok (tm, rest) := by
  have dot : ∀ t, is_number t → ∀ c ∈ t, c ∉ ".".toList :=
    fun t ht => is_number_no_delim t ht '.' (by decide)
  have dash : ∀ t, is_number t → ∀ c ∈ t, c ∉ "-".toList :=
    fun t ht => is_number_no_delim t ht '-' (by decide)
  have col : ∀ t, is_number t → ∀ c ∈ t, c ∉ ":".toList :=
    fun t ht => is_number_no_delim t ht ':' (by decide)
  have spc : ∀ t, is_number t → ∀ c ∈ t, c ∉ " ".toList :=
    fun t ht => is_number_no_delim t ht ' ' (by decide)
  refine ⟨{ tm_mday := wrap_int (strtol dd), tm_mon := wrap_int (wrap_int (strtol mm) - 1),
            tm_year := wrap_int (wrap_int (strtol yyyy) - 1900), tm_hour := wrap_int (strtol hh),
            tm_min := wrap_int (strtol mi), tm_sec := wrap_int (strtol ss) }, ?_, ?_⟩
  · unfold read_tm abs_text
    simp only [strtok_token _ dd _ '.' hdd.1 (dot dd hdd) (by decide),
      strtok_token _ mm _ '.' hmm.1 (dot mm hmm) (by decide),
      strtok_token _ yyyy _ '-' hyyyy.1 (dash yyyy hyyyy) (by decide),
      strtok_token _ hh _ ':' hhh.1 (col hh hhh) (by decide),
      strtok_token _ mi _ ':' hmi.1 (col mi hmi) (by decide),
      strtok_last _ ss hss.1 (spc ss hss),
      strtol_tok, result.ok_bind, result.pure_eq]
  · intro rest
    have e : abs_text dd mm yyyy hh mi ss ++ ' ' :: rest
        = dd ++ '.' :: (mm ++ '.' :: (yyyy ++ '-' :: (hh ++ ':' :: (mi ++ ':' ::
            (ss ++ ' ' :: rest))))) := by
      simp [abs_text]
    rw [e]
    unfold read_tm
    simp only [strtok_token _ dd _ '.' hdd.1 (dot dd hdd) (by decide),
      strtok_token _ mm _ '.' hmm.1 (dot mm hmm) (by decide),
      strtok_token _ yyyy _ '-' hyyyy.1 (dash yyyy hyyyy) (by decide),
      strtok_token _ hh _ ':' hhh.1 (col hh hhh) (by decide),
      strtok_token _ mi _ ':' hmi.1 (col mi hmi) (by decide),
      strtok_token _ ss _ ' ' hss.1 (spc ss hss) (by decide),
      strtol_tok, result.ok_bind, result.pure_eq]

theorem add_span_zero : add_span 0 "0-0-0-0-0".toList = .ok (0, []) := by
  have h0 : is_number "0".toList := by decide
  have := (add_span_text 0 "0".toList "0".toList "0".toList "0".toList "0".toList
    h0 h0 h0 h0 h0 le_rfl (by decide)).1
  exact this

/-- A well-formed time spec parses, to an interval of 0; with the interval
` -i 0-0-0-0-0` appended it parses to the same result. -/
theorem get_task_time_zero_interval (mktime : tm_t → Int) (T : List Char)
    (hT : well_formed_time T) :
    ∃ time, get_task_time mktime T = .ok time ∧ time.interval_time = 0 ∧
      get_task_time mktime (T ++ " -i 0-0-0-0-0".toList) = .ok time := by
  have hi : strtok none " ".toList ("-i".toList ++ ' ' :: "0-0-0-0-0".toList)
      = (some "-i".toList, "0-0-0-0-0".toList) := strtok_flag _ _ (by decide) (by decide)
  cases hT with
  | relative y d h m s hy hd hh hm hs =>
    obtain ⟨v, hv, hrest⟩ := add_span_text_any 0 y d h m s hy hd hh hm hs
    have hr : ∀ rest, strtok none " ".toList ("-r".toList ++ ' ' :: rest)
        = (some "-r".toList, rest) := fun rest => strtok_flag _ _ (by decide) (by decide)
    refine ⟨⟨0, v, 0⟩, ?_, rfl, ?_⟩
    · have e : "-r ".toList ++ span_text y d h m s
          = "-r".toList ++ ' ' :: span_text y d h m s := by simp
      rw [e]
      unfold get_task_time
      simp only [strtok_some, hr, strcmp_tok, decide_True, result.ok_bind, if_true, hv,
        result.pure_eq, strtok_nil]
    · have e : "-r ".toList ++ span_text y d h m s ++ " -i 0-0-0-0-0".toList
          = "-r".toList ++ ' ' :: (span_text y d h m s ++ ' ' ::
              ("-i".toList ++ ' ' :: "0-0-0-0-0".toList)) := by simp
      rw [e]
      unfold get_task_time
      simp only [strtok_some, hr, strcmp_tok, decide_True, result.ok_bind, if_true, hrest,
        result.pure_eq, hi, add_span_zero]
  | absolute dd mm yyyy hh mi ss hdd hmm hyyyy hhh hmi hss =>
    obtain ⟨tm, htm, hrest⟩ := read_tm_text dd mm yyyy hh mi ss hdd hmm hyyyy hhh hmi hss
    have ha : ∀ rest, strtok none " ".toList ("-a".toList ++ ' ' :: rest)
        = (some "-a".toList, rest) := fun rest => strtok_flag _ _ (by decide) (by decide)
    have hne : ¬ ("-a".toList = "-r".toList) := by decide
    refine ⟨⟨1, mktime tm, 0⟩, ?_, rfl, ?_⟩
    · have e : "-a ".toList ++ abs_text dd mm yyyy hh mi ss
          = "-a".toList ++ ' ' :: abs_text dd mm yyyy hh mi ss := by simp
      rw [e]
      unfold get_task_time
      simp only [strtok_some, ha, strcmp_tok, hne, decide_False, decide_True, result.ok_bind,
        if_true, if_false, Bool.false_eq_true, htm, result.pure_eq, strtok_nil]
    · have e : "-a ".toList ++ abs_text dd mm yyyy hh mi ss ++ " -i 0-0-0-0-0".toList
          = "-a".toList ++ ' ' :: (abs_text dd mm yyyy hh mi ss ++ ' ' ::
              ("-i".toList ++ ' ' :: "0-0-0-0-0".toList)) := by simp
      rw [e]
      unfold get_task_time
      simp only [strtok_some, ha, strcmp_tok, hne, decide_False, decide_True, result.ok_bind,
        if_true, if_false, Bool.false_eq_true, hrest, result.pure_eq, hi, add_span_zero]

/-- A time spec whose first token is neither `-r` nor `-a`, and whose next
token is not `-i`, parses to zero. -/
theorem get_task_time_unknown_flag (mktime : tm_t → Int) (spec tok save : List Char)
    (h1 : strtok none " ".toList spec = (some tok, save))
    (hr : tok ≠ "-r".toList) (ha : tok ≠ "-a".toList)
    (h2 : (strtok none " ".toList save).1 ≠ some "-i".toList) :
    get_task_time mktime spec = .ok ⟨0, 0, 0⟩ := by
  unfold get_task_time
  simp only [strtok_some, h1, strcmp_tok, hr, ha, decide_False, result.ok_bind,
    Bool.false_eq_true, if_false, result.pure_eq]
  cases h : (strtok none " ".toList save).1 with
  | none => simp [h]
  | some s =>
    have hs : s ≠ "-i".toList := by
      intro e; rw [h, e] at h2; exact h2 rfl
    simp only [h]
    rw [if_neg hs]
/-! ## The ADD branch of the dispatcher -/

/-- What the ADD branch does in a well-formed state when the two parsers
return: the task `added_task` is appended to the store, in a node at `brk`;
its timer is created and set; `sequence` and the timer numbering advance. -/
theorem dispatch_add_spec (mktime : tm_t → Int) (response : response_t) (fuel : Nat)
    (σ : server_t) (l : List (Nat × task_t)) (query : query_t) (argv : List (List Char))
    (time : task_time_t) (hq : query.command = .ADD) (hwf : well_formed σ l) (hf : fresh σ)
    (hargv : get_argv_for_task query.task = .ok argv)
    (htime : get_task_time mktime query.timer_spec = .ok time) :
    ∃ heap ll,
      dispatch mktime response fuel σ query =
        .ok { σ with heap := heap, brk := σ.brk + 1, ll := ll,
                     sequence := wrap_long (σ.sequence + 1),
                     timers := Function.update σ.timers σ.next_timer (some (added_timer σ time)),
                     next_timer := σ.next_timer + 1 } ∧
      is_list heap ll.head (l ++ [(σ.brk, added_task σ query argv time)]) ∧
      ll.tail = some σ.brk ∧ (∀ a, σ.brk + 1 ≤ a → heap a = none) := by
  obtain ⟨heap, ll, hpush, hlist, htail, hfresh⟩ :=
    ll_push_back_spec
      { σ with sequence := wrap_long (σ.sequence + 1),
               timers := Function.update σ.timers σ.next_timer (some ⟨σ.brk, 0, 0, 0⟩),
               next_timer := σ.next_timer + 1 } l (added_task σ query argv time) hwf hf
  refine ⟨heap, ll, ?_, hlist, htail, hfresh⟩
  unfold dispatch
  simp only [hq, hargv, htime, result.ok_bind]
  unfold added_task at hpush
  simp only [hpush, result.ok_bind, result.pure_eq, Function.update_idem]
  rfl
theorem server_init_well_formed : well_formed server_init [] := ⟨rfl, rfl⟩

theorem server_init_fresh : fresh server_init := fun _ _ => rfl

/-- C4, counterexample: the ADD request with the time spec `-x 1-2-3-4-5`,
whose first token is neither `-r` nor `-a`, is not dropped: the empty store
holds a task with the id 1 after it. -/
theorem add_malformed_time_spec_is_stored :
    result.bind (dispatch (fun _ => 0) ⟨0, [], []⟩ 1 server_init
        ⟨.ADD, "-x 1-2-3-4-5".toList, "/bin/true ".toList⟩)
      (fun σ => .ok (ll_tasks 1 σ.heap σ.ll.head, σ.ll, σ.is_stopped)) =
    .ok ([{ task_id := 1, timer_id := 0, time_spec := "-x 1-2-3-4-5".toList,
            argv := ["/bin/true".toList], is_cyclic := 0, is_done := 0 }],
         ⟨some 0, some 0⟩, 0) := by
  decide

/-- C4, as the code has it: an ADD request whose time spec starts with a token
that is neither `-r` nor `-a` (and does not go on with `-i`) is not dropped. In
a well-formed state, with a payload that `get_argv_for_task` accepts, the
dispatcher appends a task with the id `sequence`, not cyclic and not done,
whose timer is left disarmed (all zero), and goes on (`is_stopped` stays). -/
theorem add_unknown_flag_is_stored (mktime : tm_t → Int) (response : response_t) (fuel : Nat)
    (σ : server_t) (l : List (Nat × task_t)) (query : query_t) (tok save : List Char)
    (argv : List (List Char)) (hq : query.command = .ADD) (hwf : well_formed σ l)
    (hf : fresh σ)
    (h1 : strtok none " ".toList query.timer_spec = (some tok, save))
    (hr : tok ≠ "-r".toList) (ha : tok ≠ "-a".toList)
    (h2 : (strtok none " ".toList save).1 ≠ some "-i".toList)
    (hargv : get_argv_for_task query.task = .ok argv) :
    ∃ σ', dispatch mktime response fuel σ query = .ok σ' ∧
      well_formed σ' (l ++ [(σ.brk,
        { task_id := σ.sequence, timer_id := σ.next_timer, time_spec := query.timer_spec,
          argv := argv, is_cyclic := 0, is_done := 0 })]) ∧
      σ'.timers σ.next_timer = some ⟨σ.brk, 0, 0, 0⟩ ∧
      σ'.is_stopped = σ.is_stopped := by
  have htime := get_task_time_unknown_flag mktime query.timer_spec tok save h1 hr ha h2
  obtain ⟨heap, ll, hrun, hlist, htail, _⟩ :=
    dispatch_add_spec mktime response fuel σ l query argv ⟨0, 0, 0⟩ hq hwf hf hargv htime
  refine ⟨_, hrun, ⟨hlist, ?_⟩, ?_, rfl⟩
  · simp only [htail, List.getLast?_append, List.getLast?_singleton]
    rfl
  · simp [added_timer]

/-- C4, witness: the request with the time spec `-x 1-2-3-4-5` in the initial
state. -/
theorem add_unknown_flag_is_stored_witness :
    ∃ σ', dispatch (fun _ => 0) ⟨0, [], []⟩ 1 server_init
        ⟨.ADD, "-x 1-2-3-4-5".toList, "/bin/true ".toList⟩ = .ok σ' ∧
      well_formed σ' ([] ++ [(0,
        { task_id := 1, timer_id := 0, time_spec := "-x 1-2-3-4-5".toList,
          argv := ["/bin/true".toList], is_cyclic := 0, is_done := 0 })]) ∧
      σ'.timers 0 = some ⟨0, 0, 0, 0⟩ ∧
      σ'.is_stopped = 0 :=
  add_unknown_flag_is_stored (fun _ => 0) ⟨0, [], []⟩ 1 server_init []
    ⟨.ADD, "-x 1-2-3-4-5".toList, "/bin/true ".toList⟩ "-x".toList "1-2-3-4-5".toList
    ["/bin/true".toList] rfl server_init_well_formed server_init_fresh
    (by decide) (by decide) (by decide) (by decide) (by decide)

theorem well_formed_added (σ : server_t) (l : List (Nat × task_t)) (heap : Nat → Option node_t)
    (ll : linked_list_t) (t : task_t) (sequence : Int) (timers : Nat → Option ktimer_t)
    (next_timer : Nat) (hlist : is_list heap ll.head (l ++ [(σ.brk, t)]))
    (htail : ll.tail = some σ.brk) :
    well_formed { σ with heap := heap, brk := σ.brk + 1, ll := ll, sequence := sequence,
                         timers := timers, next_timer := next_timer } (l ++ [(σ.brk, t)]) := by
  refine ⟨hlist, ?_⟩
  simp only [htail, List.getLast?_append, List.getLast?_singleton]
  rfl

/-- C6: in a well-formed state, an ADD with a well-formed time spec `T` of the
`-r` or `-a` form followed by ` -i 0-0-0-0-0` appends the same task as an ADD
with `T` alone, but for the text of the time spec: `is_cyclic` is 0, and the
timer gets the same first-fire time, the same absolute/relative flag and the
interval 0. For every ADD whose parsers return, the task appended has
`is_cyclic = 1` exactly when the parsed interval is greater than zero. -/
theorem add_zero_interval_is_one_shot (mktime : tm_t → Int) (response : response_t)
    (fuel : Nat) (σ : server_t) (l : List (Nat × task_t)) (T task : List Char)
    (argv : List (List Char)) (hwf : well_formed σ l) (hf : fresh σ)
    (hT : well_formed_time T) (hargv : get_argv_for_task task = .ok argv) :
    (∃ time σ₁ σ₂ t,
      get_task_time mktime T = .ok time ∧
      dispatch mktime response fuel σ ⟨.ADD, T, task⟩ = .ok σ₁ ∧
      dispatch mktime response fuel σ ⟨.ADD, T ++ " -i 0-0-0-0-0".toList, task⟩ = .ok σ₂ ∧
      well_formed σ₁ (l ++ [(σ.brk, t)]) ∧
      well_formed σ₂ (l ++ [(σ.brk, { t with time_spec := T ++ " -i 0-0-0-0-0".toList })]) ∧
      t.is_cyclic = 0 ∧
      σ₁.timers σ.next_timer =
        some ⟨σ.brk, if time.is_absolute ≠ 0 then 1 else 0, time.task_execution_time, 0⟩ ∧
      σ₂.timers σ.next_timer = σ₁.timers σ.next_timer) ∧
    (∀ (query : query_t) (argv' : List (List Char)) (time' : task_time_t),
      query.command = .ADD → get_argv_for_task query.task = .ok argv' →
      get_task_time mktime query.timer_spec = .ok time' →
      ∃ σ' t', dispatch mktime response fuel σ query = .ok σ' ∧
        well_formed σ' (l ++ [(σ.brk, t')]) ∧
        (t'.is_cyclic = 1 ↔ time'.interval_time > 0)) := by
  constructor
  · obtain ⟨time, h1, hint, h2⟩ := get_task_time_zero_interval mktime T hT
    obtain ⟨heap₁, ll₁, hrun₁, hlist₁, htail₁, _⟩ :=
      dispatch_add_spec mktime response fuel σ l ⟨.ADD, T, task⟩ argv time rfl hwf hf hargv h1
    obtain ⟨heap₂, ll₂, hrun₂, hlist₂, htail₂, _⟩ :=
      dispatch_add_spec mktime response fuel σ l ⟨.ADD, T ++ " -i 0-0-0-0-0".toList, task⟩
        argv time rfl hwf hf hargv h2
    refine ⟨time, _, _, added_task σ ⟨.ADD, T, task⟩ argv time, h1, hrun₁, hrun₂,
      well_formed_added σ l _ _ _ _ _ _ hlist₁ htail₁,
      well_formed_added σ l _ _ _ _ _ _ hlist₂ htail₂, ?_, ?_, ?_⟩
    · simp [added_task, hint]
    · simp [added_timer, hint]
    · simp
  · intro query argv' time' hq hargv' htime'
    obtain ⟨heap, ll, hrun, hlist, htail, _⟩ :=
      dispatch_add_spec mktime response fuel σ l query argv' time' hq hwf hf hargv' htime'
    refine ⟨_, added_task σ query argv' time', hrun,
      well_formed_added σ l _ _ _ _ _ _ hlist htail, ?_⟩
    simp only [added_task]
    by_cases h : time'.interval_time > 0 <;> simp [h]

/-- C6, witness: the time spec `-r 0-0-0-0-1` in the initial state. -/
theorem add_zero_interval_is_one_shot_witness :
    (∃ time σ₁ σ₂ t,
      get_task_time (fun _ => 0) "-r 0-0-0-0-1".toList = .ok time ∧
      dispatch (fun _ => 0) ⟨0, [], []⟩ 1 server_init
        ⟨.ADD, "-r 0-0-0-0-1".toList, "/bin/true ".toList⟩ = .ok σ₁ ∧
      dispatch (fun _ => 0) ⟨0, [], []⟩ 1 server_init
        ⟨.ADD, "-r 0-0-0-0-1".toList ++ " -i 0-0-0-0-0".toList, "/bin/true ".toList⟩ = .ok σ₂ ∧
      well_formed σ₁ ([] ++ [(0, t)]) ∧
      well_formed σ₂ ([] ++ [(0, { t with
        time_spec := "-r 0-0-0-0-1".toList ++ " -i 0-0-0-0-0".toList })]) ∧
      t.is_cyclic = 0 ∧
      σ₁.timers 0 =
        some ⟨0, if time.is_absolute ≠ 0 then 1 else 0, time.task_execution_time, 0⟩ ∧
      σ₂.timers 0 = σ₁.timers 0) ∧
    (∀ (query : query_t) (argv' : List (List Char)) (time' : task_time_t),
      query.command = .ADD → get_argv_for_task query.task = .ok argv' →
      get_task_time (fun _ => 0) query.timer_spec = .ok time' →
      ∃ σ' t', dispatch (fun _ => 0) ⟨0, [], []⟩ 1 server_init query = .ok σ' ∧
        well_formed σ' ([] ++ [(0, t')]) ∧
        (t'.is_cyclic = 1 ↔ time'.interval_time > 0)) :=
  add_zero_interval_is_one_shot (fun _ => 0) ⟨0, [], []⟩ 1 server_init []
    "-r 0-0-0-0-1".toList "/bin/true ".toList ["/bin/true".toList]
    server_init_well_formed server_init_fresh
    (well_formed_time.relative "0".toList "0".toList "0".toList "0".toList "1".toList
      (by decide) (by decide) (by decide) (by decide) (by decide))
    (by decide)
/-! ## The invariant of the reachable states -/

theorem task_ids_nodup (l : List (Nat × task_t))
    (h : (task_ids l).Pairwise (fun a b => a < b)) : (task_ids l).Nodup :=
  List.Pairwise.imp (fun hab => ne_of_lt hab) h

theorem task_id_inj (l : List (Nat × task_t))
    (h : (task_ids l).Pairwise (fun a b => a < b)) (x y : Nat × task_t) (hx : x ∈ l)
    (hy : y ∈ l) (e : x.2.task_id = y.2.task_id) : x = y :=
  List.inj_on_of_nodup_map (task_ids_nodup l h) hx hy e

theorem address_inj (heap : Nat → Option node_t) (p : Option Nat) (l : List (Nat × task_t))
    (h : is_list heap p l) (x y : Nat × task_t) (hx : x ∈ l) (hy : y ∈ l) (e : x.1 = y.1) :
    x = y :=
  List.inj_on_of_nodup_map (is_list_nodup heap l p h) hx hy e

theorem server_init_invariant : invariant server_init [] where
  wf := server_init_well_formed
  unused := server_init_fresh
  sorted := List.Pairwise.nil
  seq := rfl
  timer_of := fun x hx => by simp at hx
  timer_lt := fun x hx => by simp at hx
  timers_live := fun x hx => by simp at hx
  timers_only := fun k timer h => by simp [server_init] at h
  running := rfl
  size := le_rfl
  argv := fun x hx => by simp at hx

theorem get_argv_for_task_ne_nil (task : List Char) (argv : List (List Char))
    (h : get_argv_for_task task = .ok argv) : argv ≠ [] := by
  have loop : ∀ (fuel argc : Nat) (acc : List (List Char)) (counter : Nat)
      (temp : Option (List Char)) (save : List Char) (r : List (List Char)),
      acc ≠ [] → argv_loop fuel argc acc counter temp save = .ok r → r ≠ [] := by
    intro fuel
    induction fuel with
    | zero =>
      intro argc acc counter temp save r hacc hr
      cases temp with
      | none =>
        simp only [argv_loop] at hr
        split at hr
        · cases hr; exact hacc
        · cases hr
      | some t => simp [argv_loop] at hr
    | succ fuel ih =>
      intro argc acc counter temp save r hacc hr
      cases temp with
      | none =>
        simp only [argv_loop] at hr
        split at hr
        · cases hr; exact hacc
        · cases hr
      | some t =>
        simp only [argv_loop] at hr
        split at hr
        · exact ih _ _ _ _ _ _ (by simp) hr
        · cases hr
  unfold get_argv_for_task at h
  split at h
  · cases h
  · exact loop _ _ _ _ _ _ _ (by simp) h

/-- An ADD request whose parsers return keeps the invariant. -/
theorem step_add (mktime : tm_t → Int) (response : response_t) (fuel : Nat) (σ : server_t)
    (l : List (Nat × task_t)) (query : query_t) (argv : List (List Char)) (time : task_time_t)
    (hinv : invariant σ l) (hq : query.command = .ADD)
    (hargv : get_argv_for_task query.task = .ok argv)
    (htime : get_task_time mktime query.timer_spec = .ok time)
    (hbound : σ.next_timer + 1 < 2 ^ 31) :
    ∃ σ', step mktime response fuel σ (.request query) = .ok σ' ∧
      invariant σ' (l ++ [(σ.brk, added_task σ query argv time)]) ∧
      σ'.next_timer = σ.next_timer + 1 := by
  obtain ⟨heap, ll, hrun, hlist, htail, hfresh⟩ :=
    dispatch_add_spec mktime response fuel σ l query argv time hq hinv.wf hinv.unused hargv htime
  have hseq := hinv.seq
  have hlt : ∀ x ∈ l, x.2.task_id < σ.sequence := by
    intro x hx
    have h1 := hinv.timer_of x hx
    have h2 := hinv.timer_lt x hx
    rw [hseq]; omega
  refine ⟨{ σ with heap := heap, brk := σ.brk + 1, ll := ll,
                      sequence := wrap_long (σ.sequence + 1),
                      timers := Function.update σ.timers σ.next_timer
                        (some (added_timer σ time)),
                      next_timer := σ.next_timer + 1 }, ?_, ?_, rfl⟩
  · have hstep : step mktime response fuel σ (.request query)
        = dispatch mktime response fuel σ query := by
      simp only [step]
      rw [if_pos hinv.running]
    rw [hstep]
    exact hrun
  · refine
      { wf := well_formed_added σ l _ _ _ _ _ _ hlist htail
        unused := hfresh
        sorted := ?_
        seq := ?_
        timer_of := ?_
        timer_lt := ?_
        timers_live := ?_
        timers_only := ?_
        running := hinv.running
        size := ?_
        argv := ?_ }
    · simp only [task_ids, List.map_append, List.map_cons, List.map_nil]
      rw [List.pairwise_append]
      refine ⟨hinv.sorted, by simp, ?_⟩
      intro a ha b hb
      simp only [List.mem_singleton] at hb
      subst hb
      simp only [List.mem_map] at ha
      obtain ⟨x, hx, rfl⟩ := ha
      exact hlt x hx
    · simp only [hseq]
      rw [wrap_long_eq _ (by omega) (by unfold LONG_MAX; omega)]
      push_cast; ring
    · intro x hx
      simp only [List.mem_append, List.mem_singleton] at hx
      rcases hx with hx | rfl
      · exact hinv.timer_of x hx
      · simp only [added_task]; omega
    · intro x hx
      simp only [List.mem_append, List.mem_singleton] at hx
      rcases hx with hx | rfl
      · have := hinv.timer_lt x hx
        show x.2.timer_id < σ.next_timer + 1
        omega
      · show σ.next_timer < σ.next_timer + 1
        omega
    · intro x hx
      simp only [List.mem_append, List.mem_singleton] at hx
      rcases hx with hx | rfl
      · obtain ⟨timer, h1, h2⟩ := hinv.timers_live x hx
        have := hinv.timer_lt x hx
        refine ⟨timer, ?_, h2⟩
        show Function.update σ.timers σ.next_timer _ x.2.timer_id = some timer
        rw [Function.update_noteq (by omega)]
        exact h1
      · refine ⟨added_timer σ time, ?_, rfl⟩
        show Function.update σ.timers σ.next_timer _ σ.next_timer = _
        rw [Function.update_same]
    · intro k timer hk
      have hk' : Function.update σ.timers σ.next_timer (some (added_timer σ time)) k
          = some timer := hk
      by_cases e : k = σ.next_timer
      · exact ⟨(σ.brk, added_task σ query argv time), by simp, e.symm⟩
      · rw [Function.update_noteq e] at hk'
        obtain ⟨x, hx, hxk⟩ := hinv.timers_only k timer hk'
        exact ⟨x, by simp [hx], hxk⟩
    · have := hinv.size
      show (l ++ [_]).length ≤ σ.next_timer + 1
      simp only [List.length_append, List.length_singleton]
      omega
    · intro x hx
      simp only [List.mem_append, List.mem_singleton] at hx
      rcases hx with hx | rfl
      · exact hinv.argv x hx
      · exact get_argv_for_task_ne_nil _ _ hargv
/-- A CANCEL request keeps the invariant and removes the id from the store. -/
theorem step_cancel (mktime : tm_t → Int) (response : response_t) (fuel : Nat) (σ : server_t)
    (l : List (Nat × task_t)) (query : query_t)
    (hinv : invariant σ l) (hq : query.command = .CANCEL)
    (hfuel : l.length < fuel) (hlen : l.length < 2 ^ 31) :
    ∃ σ', step mktime response fuel σ (.request query) = .ok σ' ∧
      invariant σ' (l.filter (fun x => decide (x.2.task_id ≠ strtol query.task))) ∧
      σ'.next_timer = σ.next_timer := by
  obtain ⟨heap, ll, timers, hrun, hwf, hheap, htim1, htim2, _⟩ :=
    ll_remove_spec fuel σ l (strtol query.task) hinv.wf (task_ids_nodup l hinv.sorted) hfuel hlen
  have hsub : ∀ x, x ∈ l.filter (fun x => decide (x.2.task_id ≠ strtol query.task)) →
      x ∈ l ∧ x.2.task_id ≠ strtol query.task := by
    intro x hx
    simpa [List.mem_filter] using hx
  have hkeep : ∀ x, x ∈ l → x.2.task_id ≠ strtol query.task →
      ∀ y ∈ l, y.2.task_id = strtol query.task → y.2.timer_id ≠ x.2.timer_id := by
    intro x hx hxid y hy hyid e
    have h1 := hinv.timer_of x hx
    have h2 := hinv.timer_of y hy
    apply hxid
    rw [← hyid]; omega
  refine ⟨{ σ with heap := heap, ll := ll, timers := timers }, ?_, ?_, rfl⟩
  · have hstep : step mktime response fuel σ (.request query)
        = dispatch mktime response fuel σ query := by
      simp only [step]
      rw [if_pos hinv.running]
    rw [hstep]
    unfold dispatch
    simp only [hq]
    exact hrun
  · refine
      { wf := hwf
        unused := fun a ha => hheap a (hinv.unused a ha)
        sorted := ?_
        seq := hinv.seq
        timer_of := fun x hx => hinv.timer_of x (hsub x hx).1
        timer_lt := fun x hx => hinv.timer_lt x (hsub x hx).1
        timers_live := ?_
        timers_only := ?_
        running := hinv.running
        size := ?_
        argv := fun x hx => hinv.argv x (hsub x hx).1 }
    · simp only [task_ids]
      exact List.Pairwise.sublist (List.Sublist.map _ (List.filter_sublist l)) hinv.sorted
    · intro x hx
      obtain ⟨hxl, hxid⟩ := hsub x hx
      obtain ⟨timer, h1, h2⟩ := hinv.timers_live x hxl
      refine ⟨timer, ?_, h2⟩
      show timers x.2.timer_id = some timer
      rw [htim2 _ (hkeep x hxl hxid)]
      exact h1
    · intro k timer hk
      have hk' : timers k = some timer := hk
      by_cases hex : ∃ y ∈ l, y.2.task_id = strtol query.task ∧ y.2.timer_id = k
      · obtain ⟨y, hy, hyid, hyk⟩ := hex
        have := htim1 y hy hyid
        rw [hyk, hk'] at this
        cases this
      · have hno : ∀ y ∈ l, y.2.task_id = strtol query.task → y.2.timer_id ≠ k :=
          fun y hy hyid hyk => hex ⟨y, hy, hyid, hyk⟩
        rw [htim2 k hno] at hk'
        obtain ⟨x, hx, hxk⟩ := hinv.timers_only k timer hk'
        refine ⟨x, ?_, hxk⟩
        simp only [List.mem_filter, ne_eq, decide_eq_true_eq, decide_not, Bool.not_eq_true',
          decide_eq_false_iff_not]
        exact ⟨hx, fun e => hno x hx e hxk⟩
    · have h1 := List.length_filter_le (fun x => decide (x.2.task_id ≠ strtol query.task)) l
      have h2 := hinv.size
      show (l.filter _).length ≤ σ.next_timer
      omega

/-- A DISPLAY request keeps the state but for the responses sent. -/
theorem step_display (mktime : tm_t → Int) (response : response_t) (fuel : Nat) (σ : server_t)
    (l : List (Nat × task_t)) (query : query_t)
    (hinv : invariant σ l) (hq : query.command = .DISPLAY) (hfuel : l.length < fuel) :
    ∃ σ', step mktime response fuel σ (.request query) = .ok σ' ∧
      invariant σ' l ∧ σ'.next_timer = σ.next_timer := by
  have hsend := send_task_list_eq σ l fuel response hinv.wf hfuel
  refine ⟨{ σ with sent := σ.sent ++ (listed l ++
    [{ ((listed l).getLast?).getD response with task := [] }]) }, ?_, ?_, rfl⟩
  · have hstep : step mktime response fuel σ (.request query)
        = dispatch mktime response fuel σ query := by
      simp only [step]
      rw [if_pos hinv.running]
    rw [hstep]
    unfold dispatch
    simp only [hq, hsend, result.ok_bind, result.pure_eq]
  · exact
      { wf := hinv.wf
        unused := hinv.unused
        sorted := hinv.sorted
        seq := hinv.seq
        timer_of := hinv.timer_of
        timer_lt := hinv.timer_lt
        timers_live := hinv.timers_live
        timers_only := hinv.timers_only
        running := hinv.running
        size := hinv.size
        argv := hinv.argv }

theorem fired_task_id (t : task_t) : (fired t).task_id = t.task_id := by
  unfold fired; split <;> rfl

theorem fired_timer_id (t : task_t) : (fired t).timer_id = t.timer_id := by
  unfold fired; split <;> rfl

theorem fired_argv (t : task_t) : (fired t).argv = t.argv := by
  unfold fired; split <;> rfl

theorem fired_is_cyclic (t : task_t) : (fired t).is_cyclic = t.is_cyclic := by
  unfold fired; split <;> rfl

theorem fired_time_spec (t : task_t) : (fired t).time_spec = t.time_spec := by
  unfold fired; split <;> rfl

/-- The expiry of a timer keeps the invariant; the task of the timer, if the
timer is alive, is marked by `fired`. -/
theorem step_expire (mktime : tm_t → Int) (response : response_t) (fuel : Nat) (σ : server_t)
    (l : List (Nat × task_t)) (k : Nat) (hinv : invariant σ l) :
    ∃ σ', step mktime response fuel σ (.expire k) = .ok σ' ∧
      invariant σ' (l.map (fun x => if x.2.timer_id = k then (x.1, fired x.2) else x)) ∧
      σ'.next_timer = σ.next_timer := by
  have hmem : ∀ y, y ∈ l.map (fun x => if x.2.timer_id = k then (x.1, fired x.2) else x) →
      ∃ x ∈ l, y.1 = x.1 ∧ y.2.task_id = x.2.task_id ∧ y.2.timer_id = x.2.timer_id ∧
        y.2.argv = x.2.argv := by
    intro y hy
    simp only [List.mem_map] at hy
    obtain ⟨x, hx, rfl⟩ := hy
    refine ⟨x, hx, ?_⟩
    by_cases e : x.2.timer_id = k
    · simp only [if_pos e, fired_task_id, fired_timer_id, fired_argv, and_self]
    · simp only [if_neg e, and_self]
  have hids : task_ids (l.map (fun x => if x.2.timer_id = k then (x.1, fired x.2) else x))
      = task_ids l := by
    simp only [task_ids, List.map_map]
    apply List.map_congr_left
    intro x _
    by_cases e : x.2.timer_id = k
    · simp [e, fired_task_id]
    · simp [e]
  cases htk : σ.timers k with
  | none =>
    have hsame : l.map (fun x => if x.2.timer_id = k then (x.1, fired x.2) else x) = l := by
      conv_rhs => rw [← List.map_id l]
      apply List.map_congr_left
      intro x hx
      have : x.2.timer_id ≠ k := by
        intro e
        obtain ⟨timer, h1, _⟩ := hinv.timers_live x hx
        rw [e, htk] at h1; cases h1
      simp [this]
    rw [hsame]
    exact ⟨σ, by simp only [step, timer_expire, htk], hinv, rfl⟩
  | some timer =>
    obtain ⟨x, hx, hxk⟩ := hinv.timers_only k timer htk
    obtain ⟨timer', h1, h2⟩ := hinv.timers_live x hx
    rw [hxk, htk] at h1
    have e : timer = timer' := by simpa using h1
    subst e
    have hadr : timer.sival_ptr ∈ addresses l := by
      simp only [addresses, List.mem_map]
      exact ⟨x, hx, h2.symm⟩
    obtain ⟨heap, spawned, hrun, hwf, hheap⟩ :=
      timer_notification_thread_spec σ l timer.sival_ptr hinv.wf hadr
    have hmap : l.map (fun y => if y.1 = timer.sival_ptr then (y.1, fired y.2) else y)
        = l.map (fun y => if y.2.timer_id = k then (y.1, fired y.2) else y) := by
      apply List.map_congr_left
      intro y hy
      have hiff : y.1 = timer.sival_ptr ↔ y.2.timer_id = k := by
        constructor
        · intro e
          have := address_inj _ _ _ hinv.wf.1 y x hy hx (by rw [e, h2])
          rw [this]; exact hxk
        · intro e
          have h3 := hinv.timer_of x hx
          have h4 := hinv.timer_of y hy
          have := task_id_inj l hinv.sorted y x hy hx (by rw [← h3, ← h4, e, hxk])
          rw [this]; exact h2.symm
      by_cases c : y.1 = timer.sival_ptr
      · rw [if_pos c, if_pos (hiff.1 c)]
      · rw [if_neg c, if_neg (fun h => c (hiff.2 h))]
    rw [hmap] at hwf
    refine ⟨{ σ with heap := heap, spawned := spawned }, ?_, ?_, rfl⟩
    · simp only [step, timer_expire, htk]
      exact hrun
    · refine
        { wf := hwf
          unused := fun a ha => hheap a (hinv.unused a ha)
          sorted := by rw [hids]; exact hinv.sorted
          seq := hinv.seq
          timer_of := ?_
          timer_lt := ?_
          timers_live := ?_
          timers_only := ?_
          running := hinv.running
          size := ?_
          argv := ?_ }
      · intro y hy
        obtain ⟨z, hz, _, e2, e3, _⟩ := hmem y hy
        rw [e2, e3]; exact hinv.timer_of z hz
      · intro y hy
        obtain ⟨z, hz, _, _, e3, _⟩ := hmem y hy
        rw [e3]; exact hinv.timer_lt z hz
      · intro y hy
        obtain ⟨z, hz, e1, _, e3, _⟩ := hmem y hy
        rw [e1, e3]; exact hinv.timers_live z hz
      · intro j tj hj
        obtain ⟨z, hz, hzj⟩ := hinv.timers_only j tj hj
        refine ⟨if z.2.timer_id = k then (z.1, fired z.2) else z, ?_, ?_⟩
        · simp only [List.mem_map]
          exact ⟨z, hz, rfl⟩
        · by_cases c : z.2.timer_id = k
          · rw [if_pos c]; simp only [fired_timer_id]; exact hzj
          · rw [if_neg c]; exact hzj
      · have := hinv.size
        show (l.map _).length ≤ σ.next_timer
        simp only [List.length_map]
        exact this
      · intro y hy
        obtain ⟨z, hz, _, _, _, e4⟩ := hmem y hy
        rw [e4]; exact hinv.argv z hz
/-! ## Sequences of events -/

theorem gone_nil (t : task_t) : gone t [] = false := by
  simp [gone, cancelled, expired]

theorem gone_cons_request (t : task_t) (query : query_t) (later : List event)
    (h : query.command ≠ .CANCEL) : gone t (.request query :: later) = gone t later := by
  simp [gone, cancelled, expired, List.any_cons, h]

theorem gone_cons_cancel (t : task_t) (query : query_t) (later : List event)
    (h : query.command = .CANCEL) :
    gone t (.request query :: later) = (decide (strtol query.task = t.task_id) || gone t later) := by
  simp [gone, cancelled, expired, List.any_cons, h, Bool.or_assoc]

theorem gone_cons_expire (t : task_t) (k : Nat) (later : List event) :
    gone t (.expire k :: later) =
      ((decide (t.is_cyclic = 0) && decide (k = t.timer_id)) || gone t later) := by
  simp only [gone, cancelled, expired, List.any_cons, Bool.false_or]
  cases decide (t.is_cyclic = 0) <;> cases decide (k = t.timer_id) <;>
    cases (List.any later _) <;> simp

theorem still_listed_nil (l : List (Nat × task_t)) : still_listed l [] = listed l := by
  simp [still_listed, listed, gone_nil]

theorem still_listed_append (l₁ l₂ : List (Nat × task_t)) (later : List event) :
    still_listed (l₁ ++ l₂) later = still_listed l₁ later ++ still_listed l₂ later := by
  simp [still_listed, List.filter_append]

theorem still_listed_request (l : List (Nat × task_t)) (query : query_t) (later : List event)
    (h : query.command ≠ .CANCEL) :
    still_listed l (.request query :: later) = still_listed l later := by
  simp only [still_listed, gone_cons_request _ _ _ h]

theorem still_listed_cancel (l : List (Nat × task_t)) (query : query_t) (later : List event)
    (h : query.command = .CANCEL) :
    still_listed l (.request query :: later) =
      still_listed (l.filter (fun x => decide (x.2.task_id ≠ strtol query.task))) later := by
  simp only [still_listed, gone_cons_cancel _ _ _ h, List.filter_filter]
  congr 1
  apply List.filter_congr
  intro x _
  by_cases e : x.2.task_id = strtol query.task
  · simp [e]
  · have e' : ¬ (strtol query.task = x.2.task_id) := fun h => e h.symm
    simp [e, e']

theorem still_listed_expire (l : List (Nat × task_t)) (k : Nat) (later : List event) :
    still_listed l (.expire k :: later) =
      still_listed (l.map (fun x => if x.2.timer_id = k then (x.1, fired x.2) else x)) later := by
  induction l with
  | nil => rfl
  | cons x l ih =>
    have hl : ∀ (y : Nat × task_t) (ys : List (Nat × task_t)) (ev : List event),
        still_listed (y :: ys) ev = still_listed [y] ev ++ still_listed ys ev :=
      fun y ys ev => still_listed_append [y] ys ev
    rw [hl, List.map_cons, hl _ (List.map _ l), ih]
    congr 1
    simp only [still_listed, gone_cons_expire]
    by_cases hk : x.2.timer_id = k
    · rw [if_pos hk]
      by_cases hc : x.2.is_cyclic = 0
      · have hd : (fired x.2).is_done = 1 := by simp [fired, hc]
        simp [List.filter_cons, hc, hk, hd]
      · have hf : fired x.2 = x.2 := by simp [fired, hc]
        simp [List.filter_cons, hf, hc]
    · rw [if_neg hk]
      have hk' : ¬ (k = x.2.timer_id) := fun h => hk h.symm
      simp [List.filter_cons, hk']

theorem expected_from_request (mktime : tm_t → Int) (n : Nat) (query : query_t)
    (later : List event) (h : query.command ≠ .ADD) :
    expected_from mktime n (.request query :: later) = expected_from mktime n later := by
  unfold expected_from
  cases hq : query.command
  · exact absurd hq h
  all_goals simp [added, hq]

theorem expected_from_expire (mktime : tm_t → Int) (n k : Nat) (later : List event) :
    expected_from mktime n (.expire k :: later) = expected_from mktime n later := by
  simp [expected_from, added]

theorem expected_from_add (mktime : tm_t → Int) (σ : server_t) (query : query_t)
    (later : List event) (argv : List (List Char)) (time : task_time_t)
    (hq : query.command = .ADD) (hargv : get_argv_for_task query.task = .ok argv)
    (htime : get_task_time mktime query.timer_spec = .ok time)
    (hseq : σ.sequence = (σ.next_timer : Int) + 1) :
    expected_from mktime σ.next_timer (.request query :: later) =
      still_listed [(σ.brk, added_task σ query argv time)] later ++
        expected_from mktime (σ.next_timer + 1) later := by
  simp only [expected_from, added, hq, hargv, htime, still_listed, added_task, hseq]
  generalize ht : (⟨(σ.next_timer : Int) + 1, σ.next_timer, query.timer_spec, argv,
    if time.interval_time > 0 then 1 else 0, 0⟩ : task_t) = t
  have hd : t.is_done = 0 := by rw [← ht]
  cases hg : gone t later <;> simp [List.filter_cons, hg, hd]
/-- One admissible event in a state with the invariant: the handling returns,
the invariant holds for the tasks `tasks_after`, and the timer numbering
advances exactly for an ADD. -/
theorem step_spec (mktime : tm_t → Int) (response : response_t) (fuel : Nat) (σ : server_t)
    (l : List (Nat × task_t)) (e : event) (hinv : invariant σ l)
    (hadm : admissible mktime e = true) (hfuel : σ.next_timer + 1 < fuel)
    (hbound : σ.next_timer + 1 < 2 ^ 31) :
    ∃ σ', step mktime response fuel σ e = .ok σ' ∧
      invariant σ' (tasks_after mktime σ l e) ∧
      σ'.next_timer = σ.next_timer + count_add [e] := by
  have hsize := hinv.size
  cases e with
  | expire k =>
    obtain ⟨σ', h1, h2, h3⟩ := step_expire mktime response fuel σ l k hinv
    exact ⟨σ', h1, h2, by simp [h3, count_add]⟩
  | request query =>
    cases hq : query.command with
    | ADD =>
      simp only [admissible, hq] at hadm
      cases hargv : get_argv_for_task query.task with
      | fail f => simp [hargv] at hadm
      | ok argv =>
        cases htime : get_task_time mktime query.timer_spec with
        | fail f => simp [hargv, htime] at hadm
        | ok time =>
          obtain ⟨σ', h1, h2, h3⟩ :=
            step_add mktime response fuel σ l query argv time hinv hq hargv htime hbound
          refine ⟨σ', h1, ?_, by simp [h3, count_add, hq]⟩
          simp only [tasks_after, hq, hargv, htime]
          exact h2
    | CANCEL =>
      obtain ⟨σ', h1, h2, h3⟩ :=
        step_cancel mktime response fuel σ l query hinv hq (by omega) (by omega)
      refine ⟨σ', h1, ?_, by simp [h3, count_add, hq]⟩
      simp only [tasks_after, hq]
      exact h2
    | DISPLAY =>
      obtain ⟨σ', h1, h2, h3⟩ :=
        step_display mktime response fuel σ l query hinv hq (by omega)
      refine ⟨σ', h1, ?_, by simp [h3, count_add, hq]⟩
      simp only [tasks_after, hq]
      exact h2
    | STOP => simp [admissible, hq] at hadm

theorem still_listed_tasks_after (mktime : tm_t → Int) (σ : server_t) (l : List (Nat × task_t))
    (e : event) (later : List event) (hadm : admissible mktime e = true)
    (hseq : σ.sequence = (σ.next_timer : Int) + 1) :
    still_listed l (e :: later) ++ expected_from mktime σ.next_timer (e :: later) =
      still_listed (tasks_after mktime σ l e) later ++
        expected_from mktime (σ.next_timer + count_add [e]) later := by
  cases e with
  | expire k =>
    simp only [still_listed_expire, expected_from_expire, tasks_after, count_add,
      List.countP_cons, List.countP_nil]
    rfl
  | request query =>
    cases hq : query.command with
    | ADD =>
      simp only [admissible, hq] at hadm
      cases hargv : get_argv_for_task query.task with
      | fail f => simp [hargv] at hadm
      | ok argv =>
        cases htime : get_task_time mktime query.timer_spec with
        | fail f => simp [hargv, htime] at hadm
        | ok time =>
          have hc : count_add [event.request query] = 1 := by simp [count_add, hq]
          rw [still_listed_request l query later (by rw [hq]; decide),
            expected_from_add mktime σ query later argv time hq hargv htime hseq, hc]
          simp only [tasks_after, hq, hargv, htime, still_listed_append, List.append_assoc]
    | CANCEL =>
      have hc : count_add [event.request query] = 0 := by simp [count_add, hq]
      rw [still_listed_cancel l query later hq,
        expected_from_request mktime _ query later (by rw [hq]; decide), hc]
      simp only [tasks_after, hq, Nat.add_zero]
    | DISPLAY =>
      have hc : count_add [event.request query] = 0 := by simp [count_add, hq]
      rw [still_listed_request l query later (by rw [hq]; decide),
        expected_from_request mktime _ query later (by rw [hq]; decide), hc]
      simp only [tasks_after, hq, Nat.add_zero]
    | STOP => simp [admissible, hq] at hadm

theorem count_add_cons (e : event) (events : List event) :
    count_add (e :: events) = count_add [e] + count_add events := by
  simp only [count_add, List.countP_cons, List.countP_nil]
  omega

theorem count_add_le (events : List event) : count_add events ≤ events.length :=
  List.countP_le_length _

/-- A sequence of admissible events from a state with the invariant: the run
returns, in a state with the invariant, and what DISPLAY lists there are the
former tasks that are still to be listed and the tasks added that are not
gone. -/
theorem run_spec (mktime : tm_t → Int) (response : response_t) (fuel : Nat) :
    ∀ (events : List event) (σ : server_t) (l : List (Nat × task_t)), invariant σ l →
      (∀ e ∈ events, admissible mktime e = true) →
      σ.next_timer + events.length < fuel → σ.next_timer + events.length < 2 ^ 31 →
      ∃ σ' l', run mktime response fuel events σ = .ok σ' ∧ invariant σ' l' ∧
        σ'.next_timer = σ.next_timer + count_add events ∧
        listed l' = still_listed l events ++ expected_from mktime σ.next_timer events := by
  intro events
  induction events with
  | nil =>
    intro σ l hinv _ _ _
    refine ⟨σ, l, rfl, hinv, by simp [count_add], ?_⟩
    simp [still_listed_nil, expected_from, added]
  | cons e events ih =>
    intro σ l hinv hadm hfuel hbound
    simp only [List.length_cons] at hfuel hbound
    have hadm_e := hadm e (List.mem_cons_self _ _)
    obtain ⟨σ₁, hstep, hinv₁, hn₁⟩ :=
      step_spec mktime response fuel σ l e hinv hadm_e (by omega) (by omega)
    have hle : count_add [e] ≤ 1 := count_add_le [e]
    obtain ⟨σ', l', hrun, hinv', hn', hlisted⟩ :=
      ih σ₁ (tasks_after mktime σ l e) hinv₁
        (fun x hx => hadm x (List.mem_cons_of_mem _ hx)) (by omega) (by omega)
    refine ⟨σ', l', ?_, hinv', ?_, ?_⟩
    · simp only [run, hstep]
      exact hrun
    · rw [hn', hn₁, count_add_cons e events]
      omega
    · rw [hlisted, hn₁, still_listed_tasks_after mktime σ l e events hadm_e hinv.seq]
/-! ## Properties of sequences of events -/

theorem listed_ids_sorted (l : List (Nat × task_t))
    (h : (task_ids l).Pairwise (fun a b => a < b)) :
    ((listed l).map (fun r => r.task_id)).Pairwise (fun a b => a < b) := by
  have e : (listed l).map (fun r => r.task_id)
      = task_ids (l.filter (fun x => decide (x.2.is_done = 0))) := by
    simp only [listed, task_ids, List.map_map]
    rfl
  rw [e]
  exact List.Pairwise.sublist (List.Sublist.map _ (List.filter_sublist l)) h

/-- C1: for every sequence of ADD, CANCEL and DISPLAY requests and timer
expiries from the initial state (ADD requests on which the two parsers return;
fewer than 2^31 events, so that neither `sequence` nor the counter of `ll_size`
overflows), the run returns and `send_task_list` then sends, before the
terminator, exactly the responses `expected`: one for each task added, in the
order of the ADD requests, but for the tasks whose id was cancelled since and
those that fired as one-shot tasks. The ids sent grow strictly, so no task is
sent twice. -/
theorem display_shows_live_tasks (mktime : tm_t → Int) (response : response_t) (fuel : Nat)
    (events : List event) (hadm : ∀ e ∈ events, admissible mktime e = true)
    (hfuel : events.length < fuel) (hlen : events.length < 2 ^ 31) :
    ∃ σ sent last, run mktime response fuel events server_init = .ok σ ∧
      send_task_list fuel σ response = .ok (sent ++ [last]) ∧
      sent = expected mktime events ∧
      (sent.map (fun r => r.task_id)).Pairwise (fun a b => a < b) := by
  obtain ⟨σ, l, hrun, hinv, hn, hlisted⟩ :=
    run_spec mktime response fuel events server_init [] server_init_invariant hadm
      (by simpa [server_init] using hfuel) (by simpa [server_init] using hlen)
  have hsize : l.length < fuel := by
    have h1 := hinv.size
    have h2 := count_add_le events
    have h3 : server_init.next_timer = 0 := rfl
    omega
  refine ⟨σ, listed l, _, hrun, send_task_list_eq σ l fuel response hinv.wf hsize, ?_,
    listed_ids_sorted l hinv.sorted⟩
  rw [hlisted]
  simp [still_listed, expected]
  rfl

/-- C1, witness: two tasks are added, the first is cancelled, the timer of the
second, a cyclic task, expires. -/
theorem display_shows_live_tasks_witness :
    ∃ σ sent last, run (fun _ => 0) ⟨0, [], []⟩ 5 example_events server_init = .ok σ ∧
      send_task_list 5 σ ⟨0, [], []⟩ = .ok (sent ++ [last]) ∧
      sent = expected (fun _ => 0) example_events ∧
      (sent.map (fun r => r.task_id)).Pairwise (fun a b => a < b) :=
  display_shows_live_tasks (fun _ => 0) ⟨0, [], []⟩ 5 example_events (by decide) (by decide)
    (by decide)

theorem count_add_append (a b : List event) :
    count_add (a ++ b) = count_add a + count_add b := by
  simp [count_add, List.countP_append]

/-- The ADD request that comes after the events `before`: the run of `before`
returns, and the dispatcher stores for the request a task whose id is
`sequence`, one more than the number of ADD requests in `before`. -/
theorem add_receives_next_id (mktime : tm_t → Int) (response : response_t) (fuel : Nat)
    (before : List event) (query : query_t)
    (hadm : ∀ e ∈ before, admissible mktime e = true)
    (hq : query.command = .ADD) (hadq : admissible mktime (.request query) = true)
    (hfuel : before.length + 1 < fuel) (hlen : before.length + 1 < 2 ^ 31) :
    ∃ σ₀ l₀ σ₁ t, run mktime response fuel before server_init = .ok σ₀ ∧
      well_formed σ₀ l₀ ∧
      dispatch mktime response fuel σ₀ query = .ok σ₁ ∧
      well_formed σ₁ (l₀ ++ [(σ₀.brk, t)]) ∧
      t.task_id = σ₀.sequence ∧
      t.task_id = (count_add before : Int) + 1 ∧
      (∀ x ∈ l₀, x.2.task_id < t.task_id) := by
  have h0 : server_init.next_timer = 0 := rfl
  obtain ⟨σ₀, l₀, hrun, hinv, hn, _⟩ :=
    run_spec mktime response fuel before server_init [] server_init_invariant hadm
      (by rw [h0]; omega) (by rw [h0]; omega)
  have hc := count_add_le before
  simp only [admissible, hq] at hadq
  cases hargv : get_argv_for_task query.task with
  | fail f => simp [hargv] at hadq
  | ok argv =>
    cases htime : get_task_time mktime query.timer_spec with
    | fail f => simp [hargv, htime] at hadq
    | ok time =>
      obtain ⟨σ₁, hstep, hinv₁, _⟩ :=
        step_add mktime response fuel σ₀ l₀ query argv time hinv hq hargv htime
          (by rw [hn, h0]; omega)
      have hstep' : dispatch mktime response fuel σ₀ query = .ok σ₁ := by
        simp only [step] at hstep
        rw [if_pos hinv.running] at hstep
        exact hstep
      refine ⟨σ₀, l₀, σ₁, added_task σ₀ query argv time, hrun, hinv.wf, hstep', hinv₁.wf, rfl,
        ?_, ?_⟩
      · show σ₀.sequence = _
        rw [hinv.seq, hn, h0]
        push_cast
        ring
      · intro x hx
        have h1 := hinv.timer_of x hx
        have h2 := hinv.timer_lt x hx
        have h3 := hinv.seq
        show x.2.task_id < σ₀.sequence
        omega

/-- C2: in every state that the dispatcher reaches from the initial state
through ADD, CANCEL and DISPLAY requests and timer expiries (ADD requests on
which the two parsers return; fewer than 2^31 events), the store is well
formed, its task ids are positive and grow strictly from head to tail, so no
two tasks share an id; `sequence` is one more than the number of ADD requests
so far. Every ADD request of the sequence receives the id `sequence` of the
state in which it is handled: the dispatcher stores for it, behind the tasks
already stored, a task whose id is one more than the number of ADD requests
before it. So the k-th ADD receives the id k, which is greater than every id
in the store and than the id that any earlier ADD received, cancelled since
or not. -/
theorem task_ids_strictly_increase (mktime : tm_t → Int) (response : response_t) (fuel : Nat)
    (events : List event) (hadm : ∀ e ∈ events, admissible mktime e = true)
    (hfuel : events.length < fuel) (hlen : events.length < 2 ^ 31) :
    ∃ σ l, run mktime response fuel events server_init = .ok σ ∧ well_formed σ l ∧
      (task_ids l).Pairwise (fun a b => a < b) ∧ (task_ids l).Nodup ∧
      (∀ id ∈ task_ids l, 0 < id ∧ id < σ.sequence) ∧
      σ.sequence = (count_add events : Int) + 1 ∧
      (∀ before query after, events = before ++ .request query :: after →
        query.command = .ADD →
        ∃ σ₀ l₀ σ₁ t, run mktime response fuel before server_init = .ok σ₀ ∧
          well_formed σ₀ l₀ ∧
          dispatch mktime response fuel σ₀ query = .ok σ₁ ∧
          well_formed σ₁ (l₀ ++ [(σ₀.brk, t)]) ∧
          t.task_id = σ₀.sequence ∧
          t.task_id = (count_add before : Int) + 1 ∧
          (∀ x ∈ l₀, x.2.task_id < t.task_id) ∧
          (∀ b₁ q₁ b₂, before = b₁ ++ .request q₁ :: b₂ → q₁.command = .ADD →
            (count_add b₁ : Int) + 1 < t.task_id)) := by
  obtain ⟨σ, l, hrun, hinv, hn, _⟩ :=
    run_spec mktime response fuel events server_init [] server_init_invariant hadm
      (by simpa [server_init] using hfuel) (by simpa [server_init] using hlen)
  refine ⟨σ, l, hrun, hinv.wf, hinv.sorted, task_ids_nodup l hinv.sorted, ?_, ?_, ?_⟩
  · intro id hid
    simp only [task_ids, List.mem_map] at hid
    obtain ⟨x, hx, rfl⟩ := hid
    have h1 := hinv.timer_of x hx
    have h2 := hinv.timer_lt x hx
    have h3 := hinv.seq
    omega
  · have h3 := hinv.seq
    have h0 : server_init.next_timer = 0 := rfl
    rw [h3, hn, h0]
    push_cast
    ring
  · intro before query after hsplit hq
    have hlen' : events.length = before.length + (after.length + 1) := by
      rw [hsplit]; simp
    obtain ⟨σ₀, l₀, σ₁, t, h1, h2, h3, h4, h5, h6, h7⟩ :=
      add_receives_next_id mktime response fuel before query
        (fun e he => hadm e (by rw [hsplit]; exact List.mem_append_left _ he)) hq
        (hadm _ (by rw [hsplit]; simp)) (by omega) (by omega)
    refine ⟨σ₀, l₀, σ₁, t, h1, h2, h3, h4, h5, h6, h7, ?_⟩
    intro b₁ q₁ b₂ hb hq₁
    rw [h6, hb, count_add_append, count_add_cons]
    have : count_add [event.request q₁] = 1 := by simp [count_add, hq₁]
    rw [this]
    push_cast
    omega

/-- C2, witness: the example events. -/
theorem task_ids_strictly_increase_witness :
    ∃ σ l, run (fun _ => 0) ⟨0, [], []⟩ 5 example_events server_init = .ok σ ∧
      well_formed σ l ∧
      (task_ids l).Pairwise (fun a b => a < b) ∧ (task_ids l).Nodup ∧
      (∀ id ∈ task_ids l, 0 < id ∧ id < σ.sequence) ∧
      σ.sequence = (count_add example_events : Int) + 1 ∧
      (∀ before query after, example_events = before ++ .request query :: after →
        query.command = .ADD →
        ∃ σ₀ l₀ σ₁ t, run (fun _ => 0) ⟨0, [], []⟩ 5 before server_init = .ok σ₀ ∧
          well_formed σ₀ l₀ ∧
          dispatch (fun _ => 0) ⟨0, [], []⟩ 5 σ₀ query = .ok σ₁ ∧
          well_formed σ₁ (l₀ ++ [(σ₀.brk, t)]) ∧
          t.task_id = σ₀.sequence ∧
          t.task_id = (count_add before : Int) + 1 ∧
          (∀ x ∈ l₀, x.2.task_id < t.task_id) ∧
          (∀ b₁ q₁ b₂, before = b₁ ++ .request q₁ :: b₂ → q₁.command = .ADD →
            (count_add b₁ : Int) + 1 < t.task_id)) :=
  task_ids_strictly_increase (fun _ => 0) ⟨0, [], []⟩ 5 example_events (by decide) (by decide)
    (by decide)

set_option maxRecDepth 20000 in
/-- An id is not given twice: after two ADD requests, a CANCEL of the id 2 and
a third ADD the store holds the ids 1 and 3, and `sequence` is 4. -/
theorem cancelled_id_is_not_reused :
    result.bind (run (fun _ => 0) ⟨0, [], []⟩ 5
        [.request ⟨.ADD, "-r 0-0-0-0-1".toList, "/bin/true ".toList⟩,
         .request ⟨.ADD, "-r 0-0-0-0-1".toList, "/bin/true ".toList⟩,
         .request ⟨.CANCEL, [], "2".toList⟩,
         .request ⟨.ADD, "-r 0-0-0-0-1".toList, "/bin/true ".toList⟩] server_init)
      (fun σ => .ok ((ll_tasks 5 σ.heap σ.ll.head).map (fun t => t.task_id), σ.sequence)) =
    .ok ([1, 3], 4) := by
  decide

/-- What `send_task_list` sends after the example events: the second task, then
the terminator. -/
theorem example_events_display :
    result.bind (run (fun _ => 0) ⟨0, [], []⟩ 5 example_events server_init)
      (fun σ => send_task_list 5 σ ⟨0, [], []⟩) =
    .ok [⟨2, "-r 0-0-0-0-2 -i 0-0-0-0-1".toList, "/bin/touch /tmp/b ".toList⟩,
         ⟨2, "-r 0-0-0-0-2 -i 0-0-0-0-1".toList, []⟩] := by
  decide
/-! ## Bounds of `argv` -/

theorem getLast?_dropWhile (p : Char → Bool) (l : List Char) (h : l.dropWhile p ≠ []) :
    (l.dropWhile p).getLast? = l.getLast? := by
  induction l with
  | nil => exact absurd rfl h
  | cons a l ih =>
    by_cases ha : p a = true
    · have e : (a :: l).dropWhile p = l.dropWhile p := by simp [List.dropWhile, ha]
      rw [e] at h ⊢
      rw [ih h]
      cases l with
      | nil => exact absurd rfl h
      | cons b l => rw [List.getLast?_cons_cons]
    · have e : (a :: l).dropWhile p = a :: l := by simp [List.dropWhile, ha]
      rw [e]

theorem count_dropWhile_le (p : Char → Bool) (c : Char) (l : List Char) :
    (l.dropWhile p).count c ≤ l.count c :=
  List.Sublist.count_le (List.dropWhile_sublist p) c

theorem length_dropWhile_le (p : Char → Bool) (l : List Char) :
    (l.dropWhile p).length ≤ l.length :=
  List.Sublist.length_le (List.dropWhile_sublist p)

/-- In a text that ends with a space, the rest after a token starts with a
space. -/
theorem dropWhile_not_space (s : List Char) (hlast : s.getLast? = some ' ') :
    ∃ rest, s.dropWhile (fun c => !decide (c ∈ " ".toList)) = ' ' :: rest := by
  induction s with
  | nil => simp at hlast
  | cons a s ih =>
    by_cases ha : a = ' '
    · subst ha
      exact ⟨s, by simp [List.dropWhile]⟩
    · have e : (a :: s).dropWhile (fun c => !decide (c ∈ " ".toList))
          = s.dropWhile (fun c => !decide (c ∈ " ".toList)) := by
        simp [List.dropWhile, ha]
      rw [e]
      cases s with
      | nil =>
        simp only [List.getLast?_singleton, Option.some.injEq] at hlast
        exact absurd hlast ha
      | cons b s =>
        rw [List.getLast?_cons_cons] at hlast
        exact ih hlast

theorem strtok_eq_none (delim save : List Char)
    (h : save.dropWhile (fun c => decide (c ∈ delim)) = []) :
    strtok none delim save = (none, []) := by
  unfold strtok
  simp only [h, if_true]

theorem strtok_eq_some (delim save : List Char)
    (h : save.dropWhile (fun c => decide (c ∈ delim)) ≠ []) :
    strtok none delim save =
      (some ((save.dropWhile (fun c => decide (c ∈ delim))).takeWhile
          (fun c => !decide (c ∈ delim))),
        (((save.dropWhile (fun c => decide (c ∈ delim))).dropWhile
          (fun c => !decide (c ∈ delim))).drop 1)) := by
  unfold strtok
  simp only [if_neg h]

theorem dropWhile_head (p : Char → Bool) (l : List Char) (a : Char) (t : List Char)
    (h : l.dropWhile p = a :: t) : p a = false := by
  induction l with
  | nil => simp at h
  | cons b l ih =>
    by_cases hb : p b = true
    · have e : (b :: l).dropWhile p = l.dropWhile p := by simp [List.dropWhile, hb]
      rw [e] at h
      exact ih h
    · have e : (b :: l).dropWhile p = b :: l := by simp [List.dropWhile, hb]
      rw [e] at h
      have : b = a := by injection h
      rw [← this]
      simpa using hb

/-- One call of `strtok` on a text that is empty or ends with a space: either
there is no token, or a token is returned and the text saved is again empty or
ends with a space, is shorter, and has fewer spaces. -/
theorem strtok_space_terminated (save : List Char)
    (hgood : ∀ x, save.getLast? = some x → x = ' ') :
    (strtok none " ".toList save).1 = none ∨
    (∃ tok, (strtok none " ".toList save).1 = some tok ∧ tok ≠ [] ∧
      (∀ x, (strtok none " ".toList save).2.getLast? = some x → x = ' ') ∧
      (strtok none " ".toList save).2.length < save.length ∧
      (strtok none " ".toList save).2.count ' ' < save.count ' ') := by
  by_cases hs : save.dropWhile (fun c => decide (c ∈ " ".toList)) = []
  · left
    rw [strtok_eq_none _ _ hs]
  · right
    have hlast := getLast?_dropWhile (fun c => decide (c ∈ " ".toList)) save hs
    have hsp : (save.dropWhile (fun c => decide (c ∈ " ".toList))).getLast? = some ' ' := by
      cases h : (save.dropWhile (fun c => decide (c ∈ " ".toList))).getLast? with
      | none => exact absurd (List.getLast?_eq_none_iff.1 h) hs
      | some x =>
        rw [hlast] at h
        rw [hgood x h]
    obtain ⟨rest, hrest⟩ := dropWhile_not_space _ hsp
    have h1 := count_dropWhile_le (fun c => decide (c ∈ " ".toList)) ' ' save
    have h2 := count_dropWhile_le (fun c => !decide (c ∈ " ".toList)) ' '
      (save.dropWhile (fun c => decide (c ∈ " ".toList)))
    have h3 := length_dropWhile_le (fun c => decide (c ∈ " ".toList)) save
    have h4 := length_dropWhile_le (fun c => !decide (c ∈ " ".toList))
      (save.dropWhile (fun c => decide (c ∈ " ".toList)))
    have hne : (save.dropWhile (fun c => decide (c ∈ " ".toList))).dropWhile
        (fun c => !decide (c ∈ " ".toList)) ≠ [] := by rw [hrest]; simp
    have hlast2 := getLast?_dropWhile (fun c => !decide (c ∈ " ".toList)) _ hne
    rw [hrest] at h2 h4 hlast2
    simp only [List.count_cons_self, List.length_cons] at h2 h4
    have e : strtok none " ".toList save =
        (some ((save.dropWhile (fun c => decide (c ∈ " ".toList))).takeWhile
          (fun c => !decide (c ∈ " ".toList))), rest) := by
      rw [strtok_eq_some _ _ hs, hrest]
      rfl
    rw [e]
    refine ⟨_, rfl, ?_, ?_, ?_, ?_⟩
    · cases hd : save.dropWhile (fun c => decide (c ∈ " ".toList)) with
      | nil => exact absurd hd hs
      | cons a t =>
        have ha := dropWhile_head _ save a t hd
        simp only [List.takeWhile, ha, Bool.not_false]
        simp
    · intro x hx
      simp only at hx
      cases rest with
      | nil => simp at hx
      | cons b rest =>
        rw [List.getLast?_cons_cons] at hlast2
        rw [hlast2, hsp] at hx
        exact (Option.some.inj hx).symm
    · simp only; omega
    · simp only; omega
/-- The loop of `get_argv_for_task` on a text that is empty or ends with a
space, with a slot left for each space and one more: every store is inside the
array, and the loop returns. -/
theorem argv_loop_in_bounds : ∀ (fuel : Nat) (save : List Char) (argc : Nat)
    (acc : List (List Char)) (counter : Nat),
    (∀ x, save.getLast? = some x → x = ' ') → save.length ≤ fuel →
    counter + save.count ' ' < argc →
    ∃ argv, argv_loop fuel argc acc counter (strtok none " ".toList save).1
        (strtok none " ".toList save).2 = .ok argv ∧
      argv.length ≤ acc.length + save.count ' ' ∧ acc.length ≤ argv.length := by
  intro fuel
  induction fuel with
  | zero =>
    intro save argc acc counter _ hf hc
    have hnil : save = [] := List.length_eq_zero.1 (by omega)
    subst hnil
    refine ⟨acc, ?_, by omega, le_rfl⟩
    rw [strtok_nil]
    simp only [argv_loop]
    rw [if_pos (by omega)]
  | succ fuel ih =>
    intro save argc acc counter hgood hf hc
    rcases strtok_space_terminated save hgood with hnone | ⟨tok, htok, _, hgood', hlen, hcount⟩
    · refine ⟨acc, ?_, by omega, le_rfl⟩
      rw [hnone]
      simp only [argv_loop]
      rw [if_pos (by omega)]
    · obtain ⟨argv, hrun, h1, h2⟩ := ih (strtok none " ".toList save).2 argc (acc ++ [tok])
        (counter + 1) hgood' (by omega) (by omega)
      simp only [List.length_append, List.length_singleton] at h1 h2
      refine ⟨argv, ?_, by omega, by omega⟩
      rw [htok]
      simp only [argv_loop]
      rw [if_pos (by omega)]
      exact hrun

theorem dropWhile_ne_nil (p : Char → Bool) (l : List Char) (h : ∃ c ∈ l, p c = false) :
    l.dropWhile p ≠ [] := by
  obtain ⟨c, hc, hp⟩ := h
  intro e
  have := List.dropWhile_eq_nil_iff.1 e c hc
  rw [hp] at this
  cases this

/-- C13: for every payload that holds a character other than a space and ends
with a space, `get_argv_for_task` returns: the first token is not `NULL`, and
every store into `argv`, the one of the final `NULL` at the index `argv.length`
included, is below the number of slots, which is the number of spaces plus 1.
For the payload `a`, without a space at the end, the final `NULL` is stored at
the index 1 of an array of 1 slot. -/
theorem argv_stores_in_bounds :
    (∀ task : List Char, (∃ c ∈ task, c ≠ ' ') → task.getLast? = some ' ' →
      ∃ argv, get_argv_for_task task = .ok argv ∧ argv ≠ [] ∧
        argv.length < 1 + task.count ' ') ∧
    get_argv_for_task "a".toList = .fail (.out_of_bounds 1 1) := by
  refine ⟨?_, by decide⟩
  intro task hchar hlast
  have hgood : ∀ x, task.getLast? = some x → x = ' ' := by
    intro x hx
    rw [hlast] at hx
    exact (Option.some.inj hx).symm
  have hne : task.dropWhile (fun c => decide (c ∈ " ".toList)) ≠ [] := by
    apply dropWhile_ne_nil
    obtain ⟨c, hc, hcs⟩ := hchar
    exact ⟨c, hc, by simpa using hcs⟩
  rcases strtok_space_terminated task hgood with hnone | ⟨tok, htok, _, hgood', hlen, hcount⟩
  · rw [strtok_eq_some _ _ hne] at hnone
    cases hnone
  · obtain ⟨argv, hrun, h1, h2⟩ := argv_loop_in_bounds task.length
      (strtok none " ".toList task).2 (1 + task.count ' ') [tok] 1 hgood' (by omega) (by omega)
    simp only [List.length_singleton] at h1 h2
    refine ⟨argv, ?_, ?_, by omega⟩
    · unfold get_argv_for_task
      rw [strtok_some]
      have e : strtok none " ".toList task = (some tok, (strtok none " ".toList task).2) := by
        rw [← htok]
      rw [e]
      simp only
      exact hrun
    · intro hnil
      rw [hnil] at h2
      simp at h2

/-- C13, witness: the payload `/bin/touch /tmp/b `. -/
theorem argv_stores_in_bounds_witness :
    ∃ argv, get_argv_for_task "/bin/touch /tmp/b ".toList = .ok argv ∧ argv ≠ [] ∧
      argv.length < 1 + "/bin/touch /tmp/b ".toList.count ' ' :=
  argv_stores_in_bounds.1 "/bin/touch /tmp/b ".toList (by decide) (by decide)
/-! ## The store under sequences of calls -/

theorem ll_clear_loop_spec (l : List (Nat × task_t)) :
    ∀ (fuel : Nat) (σ : server_t) (p : Option Nat), is_list σ.heap p l → l.length < fuel →
      ∃ heap timers, ll_clear_loop fuel σ p = .ok { σ with heap := heap, timers := timers } ∧
        (∀ a, σ.heap a = none → heap a = none) := by
  induction l with
  | nil =>
    intro fuel σ p h _
    have hp : p = none := h
    subst hp
    refine ⟨σ.heap, σ.timers, ?_, fun _ h => h⟩
    cases fuel <;> simp only [ll_clear_loop]
  | cons x l ih =>
    intro fuel σ p h hf
    obtain ⟨a, t⟩ := x
    have hnd := is_list_nodup _ _ _ h
    obtain ⟨hp, nx, ha, hrest⟩ := h
    subst hp
    simp only [addresses, List.map_cons, List.nodup_cons] at hnd
    cases fuel with
    | zero => simp at hf
    | succ fuel =>
      simp only [List.length_cons] at hf
      obtain ⟨heap, timers, hrun, hheap⟩ :=
        ih fuel (free_node (timer_delete σ t.timer_id) a) nx
          (is_list_frame _ _ _ _ _ hrest hnd.1) (by omega)
      refine ⟨heap, timers, ?_, ?_⟩
      · simp only [ll_clear_loop, ha]
        exact hrun
      · intro b hb
        apply hheap
        show Function.update σ.heap a none b = none
        by_cases e : b = a
        · rw [e, Function.update_same]
        · rw [Function.update_noteq e]; exact hb

/-- What `ll_clear` does to a well-formed store: it returns and leaves the
store empty. -/
theorem ll_clear_spec (fuel : Nat) (σ : server_t) (l : List (Nat × task_t))
    (hwf : well_formed σ l) (hf : fresh σ) (hfuel : l.length < fuel) :
    ∃ σ', ll_clear fuel σ = .ok σ' ∧ well_formed σ' [] ∧ fresh σ' := by
  have hnil := well_formed_nil_iff σ l hwf
  by_cases hh : σ.ll.head = none
  · have hl : l = [] := hnil.1.1 hh
    subst hl
    refine ⟨σ, ?_, hwf, hf⟩
    unfold ll_clear
    rw [if_pos (Or.inl hh)]
  · have ht : σ.ll.tail ≠ none := fun e => hh (hnil.1.2 (hnil.2.1 e))
    obtain ⟨heap, timers, hrun, hheap⟩ := ll_clear_loop_spec l fuel σ _ hwf.1 hfuel
    refine ⟨{ σ with heap := heap, timers := timers, ll := ⟨none, none⟩ }, ?_, ⟨rfl, rfl⟩, ?_⟩
    · unfold ll_clear
      rw [if_neg (by simp [hh, ht]), hrun]
    · intro a ha
      exact hheap a (hf a ha)

theorem ll_model_sublist (calls : List ll_call) :
    ∀ l : List task_t, (ll_model l calls).Sublist (l ++ pushed calls) := by
  induction calls with
  | nil => intro l; simp [ll_model, pushed]
  | cons c calls ih =>
    intro l
    cases c with
    | push_back t =>
      simp only [ll_model, pushed]
      have := ih (l ++ [t])
      simpa using this
    | remove index =>
      simp only [ll_model, pushed]
      exact (ih _).trans (List.Sublist.append_right (List.filter_sublist l) _)
    | clear =>
      simp only [ll_model, pushed]
      exact (ih []).trans (by simp)

theorem map_snd_filter (l : List (Nat × task_t)) (index : Int) :
    (l.filter (fun x => decide (x.2.task_id ≠ index))).map Prod.snd =
      (l.map Prod.snd).filter (fun t => decide (t.task_id ≠ index)) := by
  rw [List.filter_map]
  rfl

/-- A sequence of calls from a well-formed store, when the ids of the tasks
stored and of the tasks to be stored are pairwise different: the calls return,
every `ll_push_back` returns 0, and the store is well formed and holds the
tasks of `ll_model`. -/
theorem ll_run_spec (fuel : Nat) : ∀ (calls : List ll_call) (σ : server_t)
    (l : List (Nat × task_t)), well_formed σ l → fresh σ →
    ((l.map Prod.snd ++ pushed calls).map (fun t => t.task_id)).Nodup →
    l.length + calls.length < fuel → l.length + calls.length < 2 ^ 31 →
    ∃ rs σ' l', ll_run fuel calls σ = .ok (rs, σ') ∧ well_formed σ' l' ∧ fresh σ' ∧
      l'.map Prod.snd = ll_model (l.map Prod.snd) calls ∧
      (∀ r ∈ rs, r = 0) ∧ rs.length = (pushed calls).length := by
  intro calls
  induction calls with
  | nil =>
    intro σ l hwf hf _ _ _
    exact ⟨[], σ, l, rfl, hwf, hf, rfl, by simp, rfl⟩
  | cons c calls ih =>
    intro σ l hwf hf hnd hfuel hlen
    simp only [List.length_cons] at hfuel hlen
    cases c with
    | push_back t =>
      obtain ⟨heap, ll, hpush, hlist, htail, hfresh⟩ := ll_push_back_spec σ l t hwf hf
      have hwf' : well_formed { σ with heap := heap, brk := σ.brk + 1, ll := ll }
          (l ++ [(σ.brk, t)]) := by
        refine ⟨hlist, ?_⟩
        simp only [htail, List.getLast?_append, List.getLast?_singleton]
        rfl
      obtain ⟨rs, σ', l', hrun, hwf'', hf'', hmodel, hzero, hcount⟩ :=
        ih { σ with heap := heap, brk := σ.brk + 1, ll := ll } (l ++ [(σ.brk, t)]) hwf' hfresh
          (by simpa [pushed] using hnd)
          (by simp only [List.length_append, List.length_singleton]; omega)
          (by simp only [List.length_append, List.length_singleton]; omega)
      refine ⟨0 :: rs, σ', l', ?_, hwf'', hf'', ?_, ?_, ?_⟩
      · simp only [ll_run, hpush, hrun]
      · rw [hmodel]; simp [ll_model]
      · intro r hr
        simp only [List.mem_cons] at hr
        rcases hr with rfl | hr
        · rfl
        · exact hzero r hr
      · simp [pushed, hcount]
    | remove index =>
      have hids : (task_ids l).Nodup := by
        have h1 : (task_ids l) = (l.map Prod.snd).map (fun t => t.task_id) := by
          simp [task_ids, List.map_map]
        rw [h1]
        rw [List.map_append] at hnd
        exact (List.nodup_append.1 hnd).1
      obtain ⟨heap, ll, timers, hrem, hwf', hheap, _, _, _⟩ :=
        ll_remove_spec fuel σ l index hwf hids (by omega) (by omega)
      have hle := List.length_filter_le (fun x => decide (x.2.task_id ≠ index)) l
      obtain ⟨rs, σ', l', hrun, hwf'', hf'', hmodel, hzero, hcount⟩ :=
        ih { σ with heap := heap, ll := ll, timers := timers }
          (l.filter (fun x => decide (x.2.task_id ≠ index))) hwf'
          (fun a ha => hheap a (hf a ha))
          (by
            rw [map_snd_filter]
            simp only [pushed] at hnd
            exact List.Nodup.sublist (List.Sublist.map _
              (List.Sublist.append_right (List.filter_sublist _) _)) hnd)
          (by omega) (by omega)
      refine ⟨rs, σ', l', ?_, hwf'', hf'', ?_, hzero, ?_⟩
      · simp only [ll_run, hrem]
        exact hrun
      · rw [hmodel, map_snd_filter]; simp [ll_model]
      · simp [pushed, hcount]
    | clear =>
      obtain ⟨σ₁, hclear, hwf', hf'⟩ := ll_clear_spec fuel σ l hwf hf (by omega)
      obtain ⟨rs, σ', l', hrun, hwf'', hf'', hmodel, hzero, hcount⟩ :=
        ih σ₁ [] hwf' hf'
          (by
            simp only [pushed, List.map_nil, List.nil_append] at hnd ⊢
            exact List.Nodup.sublist (List.Sublist.map _ (List.sublist_append_right _ _)) hnd)
          (by simp only [List.length_nil]; omega) (by simp only [List.length_nil]; omega)
      refine ⟨rs, σ', l', ?_, hwf'', hf'', ?_, hzero, ?_⟩
      · simp only [ll_run, hclear]
        exact hrun
      · rw [hmodel]; simp [ll_model]
      · simp [pushed, hcount]
/-- The store of `server_init` is the one that `ll_create` gives. -/
theorem server_init_ll : server_init.ll = ll_create := rfl

/-- The last node of a well-formed store has `next == NULL`. -/
theorem well_formed_tail_next (σ : server_t) (l : List (Nat × task_t)) (hwf : well_formed σ l)
    (hf : fresh σ) (a : Nat) (ha : σ.ll.tail = some a) :
    ∃ n, σ.heap a = some n ∧ n.next = none := by
  have hnew := fresh_not_mem σ l _ hwf.1 hf σ.brk le_rfl
  cases hlast : l.getLast? with
  | none =>
    rw [hwf.2, hlast] at ha
    cases ha
  | some x =>
    obtain ⟨tl, tlast⟩ := x
    have e : a = tl := by
      rw [hwf.2, hlast] at ha
      exact (Option.some.inj ha).symm
    subst e
    obtain ⟨htl, _⟩ := is_list_snoc σ.heap σ.brk tlast l _ a tlast hwf.1 hlast hnew
    exact ⟨_, htl, rfl⟩

theorem pushed_length_le (calls : List ll_call) : (pushed calls).length ≤ calls.length := by
  induction calls with
  | nil => simp [pushed]
  | cons c calls ih =>
    cases c <;> simp only [pushed, List.length_cons] <;> omega

/-- C12: from the store that `ll_create` gives, after any sequence of calls of
`ll_push_back`, `ll_remove` and `ll_clear` in which the tasks stored have
pairwise different ids (fewer than 2^31 calls, so that the `int` counter of
`ll_size` counts the tasks), the calls return and the store is well formed: the
nodes from `head` form a list that ends in `NULL`, `head` is `NULL` iff `tail`
is, `tail` points to the last node of that list, whose `next` is `NULL`. The
store holds the tasks of `ll_model`, each stored behind those stored before;
every `ll_push_back` returned 0, and another one returns 0 and appends its task;
`ll_size` returns the number of tasks. -/
theorem store_stays_well_formed (fuel : Nat) (calls : List ll_call)
    (hids : ((pushed calls).map (fun t => t.task_id)).Nodup)
    (hfuel : calls.length < fuel) (hlen : calls.length < 2 ^ 31) :
    ∃ rs σ l, ll_run fuel calls server_init = .ok (rs, σ) ∧
      is_list σ.heap σ.ll.head l ∧
      (σ.ll.head = none ↔ σ.ll.tail = none) ∧
      σ.ll.tail = l.getLast?.map Prod.fst ∧
      (∀ a, σ.ll.tail = some a → ∃ n, σ.heap a = some n ∧ n.next = none) ∧
      l.map Prod.snd = ll_model [] calls ∧
      (∀ r ∈ rs, r = 0) ∧ rs.length = (pushed calls).length ∧
      (∀ t, ∃ σ', ll_push_back σ t = .ok (0, σ') ∧ well_formed σ' (l ++ [(σ.brk, t)])) ∧
      ll_size fuel σ = .ok l.length := by
  obtain ⟨rs, σ, l, hrun, hwf, hf, hmodel, hzero, hcount⟩ :=
    ll_run_spec fuel calls server_init [] server_init_well_formed server_init_fresh
      (by simpa using hids) (by simpa using hfuel) (by simpa using hlen)
  have hnil := well_formed_nil_iff σ l hwf
  simp only [List.map_nil] at hmodel
  have hsub := ll_model_sublist calls []
  have hlen_l : l.length ≤ calls.length := by
    have h1 : l.length = (ll_model [] calls).length := by
      rw [← hmodel, List.length_map]
    have h2 := List.Sublist.length_le hsub
    have h3 := pushed_length_le calls
    simp only [List.nil_append] at h2
    omega
  refine ⟨rs, σ, l, hrun, hwf.1, ⟨fun h => hnil.2.2 (hnil.1.1 h), fun h => hnil.1.2 (hnil.2.1 h)⟩,
    hwf.2, well_formed_tail_next σ l hwf hf, hmodel, hzero, hcount, ?_, ?_⟩
  · intro t
    obtain ⟨heap, ll, hpush, hlist, htail, _⟩ := ll_push_back_spec σ l t hwf hf
    refine ⟨_, hpush, hlist, ?_⟩
    simp only [htail, List.getLast?_append, List.getLast?_singleton]
    rfl
  · exact ll_size_eq σ l fuel hwf (by omega) (by omega)

/-- C12, witness: two tasks are stored, the first is removed, a third is
stored. -/
theorem store_stays_well_formed_witness :
    ∃ rs σ l, ll_run 5 example_calls server_init = .ok (rs, σ) ∧
      is_list σ.heap σ.ll.head l ∧
      (σ.ll.head = none ↔ σ.ll.tail = none) ∧
      σ.ll.tail = l.getLast?.map Prod.fst ∧
      (∀ a, σ.ll.tail = some a → ∃ n, σ.heap a = some n ∧ n.next = none) ∧
      l.map Prod.snd = ll_model [] example_calls ∧
      (∀ r ∈ rs, r = 0) ∧ rs.length = (pushed example_calls).length ∧
      (∀ t, ∃ σ', ll_push_back σ t = .ok (0, σ') ∧ well_formed σ' (l ++ [(σ.brk, t)])) ∧
      ll_size 5 σ = .ok l.length :=
  store_stays_well_formed 5 example_calls (by decide) (by decide) (by decide)

/-- The calls of the example leave the tasks with the ids 2 and 3. -/
theorem example_calls_model :
    ll_model [] example_calls = [example_task 2 1, example_task 3 2] := by
  decide
/-! ## The second end-to-end scenario -/

theorem scenario_time (mktime : tm_t → Int) :
    get_task_time mktime "-r 0-0-0-0-1".toList = .ok ⟨0, 1, 0⟩ ∧
    get_task_time mktime "-r 0-0-0-0-1 -i 0-0-0-0-1".toList = .ok ⟨0, 1, 1⟩ :=
  get_task_time_relative_digits mktime "0".toList "0".toList "0".toList "0".toList "1".toList
    "0".toList "0".toList "0".toList "0".toList "1".toList
    (by decide) (by decide) (by decide) (by decide) (by decide)
    (by decide) (by decide) (by decide) (by decide) (by decide) (by decide) (by decide)

theorem scenario_query (program : List Char) :
    fill_add_query 8 (scenario_argv program) =
      .ok ⟨.ADD, "-r 0-0-0-0-1".toList, "/bin/touch /tmp/b -i 0-0-0-0-1 ".toList⟩ := by
  rfl

theorem interval_first_query (program : List Char) :
    fill_add_query 8 (interval_first_argv program) =
      .ok ⟨.ADD, "-r 0-0-0-0-1 -i 0-0-0-0-1".toList, "/bin/touch /tmp/b ".toList⟩ := by
  rfl

set_option maxRecDepth 20000 in
/-- C11, counterexample: for the command line
`add -r 0-0-0-0-1 /bin/touch /tmp/b -i 0-0-0-0-1` the request built by
`fill_add_query` has the time spec `-r 0-0-0-0-1` and carries `-i 0-0-0-0-1` in
its payload; handled in the initial state it leaves a task with
`is_cyclic = 0` and four arguments, and a timer with the interval 0. -/
theorem scenario_task_is_not_cyclic :
    result.bind (fill_add_query 8 (scenario_argv "chrono".toList)) (fun query =>
      result.bind (dispatch (fun _ => 0) ⟨0, [], []⟩ 1 server_init query) (fun σ =>
        .ok (query, ll_tasks 1 σ.heap σ.ll.head, σ.timers 0))) =
    .ok (⟨.ADD, "-r 0-0-0-0-1".toList, "/bin/touch /tmp/b -i 0-0-0-0-1 ".toList⟩,
         [{ task_id := 1, timer_id := 0, time_spec := "-r 0-0-0-0-1".toList,
            argv := ["/bin/touch".toList, "/tmp/b".toList, "-i".toList, "0-0-0-0-1".toList],
            is_cyclic := 0, is_done := 0 }],
         some ⟨0, 0, 1, 0⟩) := by
  decide

/-- C11, as the code has it: `fill_add_query` looks for `-i` directly after the
time, at `argv[4]`. For the command line
`add -r 0-0-0-0-1 /bin/touch /tmp/b -i 0-0-0-0-1` the request has the time spec
`-r 0-0-0-0-1` and the ADD branch, in a well-formed state, appends a one-shot
task (`is_cyclic = 0`) with the command `/bin/touch /tmp/b -i 0-0-0-0-1`, whose
timer is set to a first delay of 1 second and the interval 0. For the command
line `add -r 0-0-0-0-1 -i 0-0-0-0-1 /bin/touch /tmp/b` it appends a cyclic task
(`is_cyclic = 1`) with the command `/bin/touch /tmp/b`, whose timer is set to a
first delay of 1 second and an interval of 1 second. -/
theorem scenario_interval_position (mktime : tm_t → Int) (response : response_t) (fuel : Nat)
    (σ : server_t) (l : List (Nat × task_t)) (program : List Char)
    (hwf : well_formed σ l) (hf : fresh σ) :
    (∃ query σ', fill_add_query 8 (scenario_argv program) = .ok query ∧
      query.timer_spec = "-r 0-0-0-0-1".toList ∧
      dispatch mktime response fuel σ query = .ok σ' ∧
      well_formed σ' (l ++ [(σ.brk,
        { task_id := σ.sequence, timer_id := σ.next_timer,
          time_spec := "-r 0-0-0-0-1".toList,
          argv := ["/bin/touch".toList, "/tmp/b".toList, "-i".toList, "0-0-0-0-1".toList],
          is_cyclic := 0, is_done := 0 })]) ∧
      σ'.timers σ.next_timer = some ⟨σ.brk, 0, 1, 0⟩) ∧
    (∃ query σ', fill_add_query 8 (interval_first_argv program) = .ok query ∧
      query.timer_spec = "-r 0-0-0-0-1 -i 0-0-0-0-1".toList ∧
      dispatch mktime response fuel σ query = .ok σ' ∧
      well_formed σ' (l ++ [(σ.brk,
        { task_id := σ.sequence, timer_id := σ.next_timer,
          time_spec := "-r 0-0-0-0-1 -i 0-0-0-0-1".toList,
          argv := ["/bin/touch".toList, "/tmp/b".toList],
          is_cyclic := 1, is_done := 0 })]) ∧
      σ'.timers σ.next_timer = some ⟨σ.brk, 0, 1, 1⟩) := by
  constructor
  · obtain ⟨heap, ll, hrun, hlist, htail, _⟩ :=
      dispatch_add_spec mktime response fuel σ l
        ⟨.ADD, "-r 0-0-0-0-1".toList, "/bin/touch /tmp/b -i 0-0-0-0-1 ".toList⟩
        ["/bin/touch".toList, "/tmp/b".toList, "-i".toList, "0-0-0-0-1".toList] ⟨0, 1, 0⟩ rfl
        hwf hf (by decide) (scenario_time mktime).1
    exact ⟨_, _, scenario_query program, rfl, hrun,
      well_formed_added σ l _ _ _ _ _ _ hlist htail, by simp [added_timer]⟩
  · obtain ⟨heap, ll, hrun, hlist, htail, _⟩ :=
      dispatch_add_spec mktime response fuel σ l
        ⟨.ADD, "-r 0-0-0-0-1 -i 0-0-0-0-1".toList, "/bin/touch /tmp/b ".toList⟩
        ["/bin/touch".toList, "/tmp/b".toList] ⟨0, 1, 1⟩ rfl
        hwf hf (by decide) (scenario_time mktime).2
    exact ⟨_, _, interval_first_query program, rfl, hrun,
      well_formed_added σ l _ _ _ _ _ _ hlist htail, by simp [added_timer]⟩

/-- C11, witness: the two command lines in the initial state. -/
theorem scenario_interval_position_witness :
    (∃ query σ', fill_add_query 8 (scenario_argv "chrono".toList) = .ok query ∧
      query.timer_spec = "-r 0-0-0-0-1".toList ∧
      dispatch (fun _ => 0) ⟨0, [], []⟩ 1 server_init query = .ok σ' ∧
      well_formed σ' ([] ++ [(0,
        { task_id := 1, timer_id := 0,
          time_spec := "-r 0-0-0-0-1".toList,
          argv := ["/bin/touch".toList, "/tmp/b".toList, "-i".toList, "0-0-0-0-1".toList],
          is_cyclic := 0, is_done := 0 })]) ∧
      σ'.timers 0 = some ⟨0, 0, 1, 0⟩) ∧
    (∃ query σ', fill_add_query 8 (interval_first_argv "chrono".toList) = .ok query ∧
      query.timer_spec = "-r 0-0-0-0-1 -i 0-0-0-0-1".toList ∧
      dispatch (fun _ => 0) ⟨0, [], []⟩ 1 server_init query = .ok σ' ∧
      well_formed σ' ([] ++ [(0,
        { task_id := 1, timer_id := 0,
          time_spec := "-r 0-0-0-0-1 -i 0-0-0-0-1".toList,
          argv := ["/bin/touch".toList, "/tmp/b".toList],
          is_cyclic := 1, is_done := 0 })]) ∧
      σ'.timers 0 = some ⟨0, 0, 1, 1⟩) :=
  scenario_interval_position (fun _ => 0) ⟨0, [], []⟩ 1 server_init [] "chrono".toList
    server_init_well_formed server_init_fresh

end Chrono
